import Mathlib

/-!
Verification development for the soft-body physics core of the
`bevy-scratchpad` repository (`src/physics/point.rs`,
`src/physics/soft_body.rs`, `src/physics/systems.rs`, `src/config.rs`).
Machine `f32` arithmetic is modelled by exact real arithmetic; every
definition below is translated directly from the Rust source, keeping the
source's names and branch structure.
-/

noncomputable section

/-- Two-dimensional vector (glam `Vec2`), modelled over the reals. -/
@[ext]
structure Vec2 where
  x : ℝ
  y : ℝ

namespace Vec2

instance : Zero Vec2 := ⟨⟨0, 0⟩⟩

instance : Add Vec2 := ⟨fun a b => ⟨a.x + b.x, a.y + b.y⟩⟩

instance : Sub Vec2 := ⟨fun a b => ⟨a.x - b.x, a.y - b.y⟩⟩

instance : Neg Vec2 := ⟨fun a => ⟨-a.x, -a.y⟩⟩

instance : SMul ℝ Vec2 := ⟨fun c a => ⟨c * a.x, c * a.y⟩⟩

instance : AddCommGroup Vec2 where
  add := (· + ·)
  add_assoc a b c := by ext <;> exact add_assoc ..
  zero_add a := by ext <;> exact zero_add ..
  add_zero a := by ext <;> exact add_zero ..
  add_comm a b := by ext <;> exact add_comm ..
  neg := Neg.neg
  sub := Sub.sub
  sub_eq_add_neg a b := by ext <;> exact sub_eq_add_neg ..
  neg_add_cancel a := by ext <;> exact neg_add_cancel ..
  nsmul := nsmulRec
  zsmul := zsmulRec

instance : Module ℝ Vec2 where
  smul := (· • ·)
  one_smul a := by ext <;> exact one_mul ..
  mul_smul c d a := by ext <;> exact mul_assoc ..
  smul_zero c := by ext <;> exact mul_zero ..
  smul_add c a b := by ext <;> exact mul_add ..
  add_smul c d a := by ext <;> exact add_mul ..
  zero_smul a := by ext <;> exact zero_mul ..

/-- glam `Vec2::length_squared`: `x*x + y*y`. -/
def length_squared (v : Vec2) : ℝ := v.x * v.x + v.y * v.y

/-- glam `Vec2::length`: the Euclidean norm. -/
def length (v : Vec2) : ℝ := Real.sqrt v.length_squared

/-- glam `Vec2::dot`. -/
def dot (a b : Vec2) : ℝ := a.x * b.x + a.y * b.y

/-- Cross product (z-component), used to state the standard shoelace formula. -/
def cross (a b : Vec2) : ℝ := a.x * b.y - a.y * b.x

/-- glam `Vec2::normalize`: `self / self.length()`. -/
def normalize (v : Vec2) : Vec2 := ⟨v.x / v.length, v.y / v.length⟩

/-- glam `Vec2::lerp(b, t)`: `a + (b - a) * t`. -/
def lerp (a b : Vec2) (t : ℝ) : Vec2 := a + t • (b - a)

end Vec2

/-! Configuration constants from `src/config.rs`. -/

def PHYSICS_HZ : ℝ := 120

def DAMPING_PER_SECOND : ℝ := 1 / 2

def DEFAULT_MASS : ℝ := 1

def DEFAULT_BOUNCINESS : ℝ := 1

def PARTICLE_VIS_RADIUS : ℝ := 5

def NUM_POINTS : ℕ := 16

def RING_RADIUS : ℝ := 50

def PUFFINESS : ℝ := 5 / 4

def CONSTRAINT_ITERATIONS : ℕ := 10

def GRAVITY : Vec2 := ⟨0, -980⟩

def INITIAL_VEL : Vec2 := ⟨100, 0⟩

def MOUSE_RADIUS : ℝ := 40

/-- A single Verlet-integrated particle (`Point` in `src/physics/point.rs`). -/
structure Point where
  index : ℕ
  position : Vec2
  previous_position : Vec2
  acceleration : Vec2
  mass : ℝ
  radius : ℝ
  bounciness : ℝ

namespace Point

/-- `Point::new`: previous position starts equal to the position
(zero initial velocity); remaining fields are the `Default` values. -/
def new (pos : Vec2) (index : ℕ) : Point :=
  { index := index
    position := pos
    previous_position := pos
    acceleration := 0
    mass := 1
    radius := 5
    bounciness := 1 / 2 }

/-- `Point::with_initial_velocity`: encodes `v0` via
`previous_position = pos - v0 * dt`. -/
def with_initial_velocity (pos v0 : Vec2) (dt : ℝ) (index : ℕ) : Point :=
  { Point.new pos index with previous_position := pos - dt • v0 }

end Point

/-- From `spawn_soft_body` in `src/physics/soft_body.rs`: the particle spawned
at ring slot `i`; `theta = i * TAU / num_points`, position on the circle of
radius `ring_radius` around `center`, fixed-tick `dt = 1 / PHYSICS_HZ`, and
the fields `mass`, `radius`, `bounciness`, `acceleration` overridden as in
the source (`acceleration` is seeded with the gravity argument). -/
def spawn_point (center : Vec2) (num_points : ℕ) (ring_radius : ℝ)
    (initial_vel gravity : Vec2) (particle_vis_radius mass bounciness : ℝ)
    (i : ℕ) : Point :=
  let dt : ℝ := 1 / PHYSICS_HZ
  let theta : ℝ := (i : ℝ) * (2 * Real.pi) / (num_points : ℝ)
  let curr : Vec2 := center + ring_radius • Vec2.mk (Real.cos theta) (Real.sin theta)
  { Point.with_initial_velocity curr initial_vel dt i with
    mass := mass
    radius := particle_vis_radius
    bounciness := bounciness
    acceleration := gravity }

/-- Per-tick damping factor from `softbody_step`:
`DAMPING_PER_SECOND.powf(dt)`. -/
def damping_per_tick (dt : ℝ) : ℝ := DAMPING_PER_SECOND ^ dt

/-- The freely integrated next position of `softbody_step` (before the bounds
check): `x_{t+1} = x_t + (x_t - x_{t-1}) * damping_per_tick + a * dt²` with
`a = p.acceleration + GRAVITY`. -/
def free_next (dt : ℝ) (p : Point) : Vec2 :=
  p.position + damping_per_tick dt • (p.position - p.previous_position)
    + (dt * dt) • (p.acceleration + GRAVITY)

/-- The window-bounds clamp-and-reflect of `softbody_step` (four independent
`if`s, first x then y), acting on a predicted position `x` and its inferred
velocity `v`; returns the clamped position and the reflected velocity. -/
def bounce_clamp (half : Vec2) (radius bounciness : ℝ) (x v : Vec2) :
    Vec2 × Vec2 :=
  let left := -half.x + radius
  let right := half.x - radius
  let bottom := -half.y + radius
  let top := half.y - radius
  let s1 := if x.x < left then (left, -v.x * bounciness) else (x.x, v.x)
  let s2 := if s1.1 > right then (right, -s1.2 * bounciness) else s1
  let t1 := if x.y < bottom then (bottom, -v.y * bounciness) else (x.y, v.y)
  let t2 := if t1.1 > top then (top, -t1.2 * bounciness) else t1
  (⟨s2.1, t2.1⟩, ⟨s2.2, t2.2⟩)

/-- Phase 1 of `softbody_step` for one particle: Verlet-integrate with
damping, add `GRAVITY`, bounce on the window bounds, commit the position,
rebuild `previous_position` from the (possibly reflected) velocity, and zero
the acceleration accumulator. -/
def integrate (half : Vec2) (dt : ℝ) (p : Point) : Point :=
  let x_tp1 := free_next dt p
  let v := x_tp1 - p.position
  let c := bounce_clamp half p.radius p.bounciness x_tp1 v
  { p with
    position := c.1
    previous_position := c.1 - c.2
    acceleration := 0 }

/-- The `SoftBody` component: ring parameters (the particle handles are kept
separately as the solver state). -/
structure SoftBody where
  num_points : ℕ
  radius : ℝ
  puffiness : ℝ
  desired_area : ℝ
  circumference : ℝ
  chord_length : ℝ

/-- `SoftBody::new`: derives `desired_area = π r² puffiness`,
`circumference = 2 π r` and `chord_length = circumference / num_points`. -/
def SoftBody.new (num_points : ℕ) (radius puffiness : ℝ) : SoftBody :=
  let desired_area := Real.pi * radius * radius * puffiness
  let circumference := 2 * Real.pi * radius
  let chord_length := circumference / (num_points : ℝ)
  { num_points := num_points
    radius := radius
    puffiness := puffiness
    desired_area := desired_area
    circumference := circumference
    chord_length := chord_length }

/-- The effector resource (`EffectorState` in `src/physics/systems.rs`). -/
structure EffectorState where
  radius : ℝ
  prev : Vec2
  curr : Vec2

/-- `collide_point_with_swept_effector` from `src/physics/systems.rs`:
project a position out of the capsule swept by the effector disc between
`seg_a` and `seg_b`; returns the (possibly adjusted) position. -/
def collide_point_with_swept_effector (p seg_a seg_b : Vec2) (r : ℝ) : Vec2 :=
  let seg := seg_b - seg_a
  let seg_len2 := seg.length_squared
  if seg_len2 ≤ 1 / 10 ^ 12 then
    let d := p - seg_b
    let d2 := d.length_squared
    if d2 < r * r ∧ d2 > 1 / 10 ^ 12 then seg_b + r • d.normalize else p
  else
    let t := (p - seg_a).dot seg / seg_len2
    let t' := min (max t 0) 1
    let q := seg_a + t' • seg
    let d := p - q
    let d2 := d.length_squared
    if d2 < r * r ∧ d2 > 1 / 10 ^ 12 then q + r • d.normalize else p

/-- The clamped segment parameter computed by the nondegenerate branch of
`collide_point_with_swept_effector`: `((p - seg_a) · seg / seg_len2)`
clamped to `[0, 1]`. -/
def segment_closest_t (p seg_a seg_b : Vec2) : ℝ :=
  min (max ((p - seg_a).dot (seg_b - seg_a) / (seg_b - seg_a).length_squared) 0) 1

/-- The point `q = seg_a + t * seg` computed by the nondegenerate branch of
`collide_point_with_swept_effector`. -/
def segment_closest_point (p seg_a seg_b : Vec2) : Vec2 :=
  seg_a + segment_closest_t p seg_a seg_b • (seg_b - seg_a)

/-- One-pass Chaikin smoothing (`chaikin_closed_once`): rings shorter than 3
points pass through unchanged, otherwise every cyclic edge `(a, b)` emits the
two points at parameters `0.25` and `0.75`. -/
def chaikin_closed_once (input : List Vec2) : List Vec2 :=
  if input.length < 3 then input
  else
    (List.finRange input.length).flatMap fun i =>
      let a := input.get i
      let b := input.get ⟨(i.val + 1) % input.length, Nat.mod_lt _ i.pos⟩
      [a.lerp b (1 / 4), a.lerp b (3 / 4)]

/-! The constraint solver of `softbody_step` (phase 2).  The ring state is a
function `Fin n → Option Vec2`: `some` holds the position of a resolvable
particle entity, `none` models a particle handle that fails to resolve.  All
reads go through `Query::get_mut(..).ok().map(|p| p.position).unwrap_or(ZERO)`
as in the source. -/

/-- Position read used by the solver: a missing particle reads as `ZERO`. -/
def read_pos {n : ℕ} (st : Fin n → Option Vec2) (i : Fin n) : Vec2 :=
  (st i).getD 0

/-- Distance-constraint offset of the cyclic edge `(e, e+1)`: the half-error
correction `diff / len * ((len - chord) * 0.5)` when `len > 0` and
`len > chord_length`, zero otherwise. -/
def edge_offset {n : ℕ} [NeZero n] (soft : SoftBody) (st : Fin n → Option Vec2)
    (e : Fin n) : Vec2 :=
  let diff := read_pos st (e + 1) - read_pos st e
  let len := diff.length
  if 0 < len ∧ soft.chord_length < len then
    ((len - soft.chord_length) * (1 / 2) / len) • diff
  else 0

/-- Weight contributed by the cyclic edge `(e, e+1)` to each endpoint:
`1` when the distance constraint fires, `0` otherwise. -/
def edge_weight {n : ℕ} [NeZero n] (soft : SoftBody) (st : Fin n → Option Vec2)
    (e : Fin n) : ℕ :=
  let diff := read_pos st (e + 1) - read_pos st e
  let len := diff.length
  if 0 < len ∧ soft.chord_length < len then 1 else 0

/-- Accumulated distance-constraint displacement of vertex `i`: vertex `i` is
the left endpoint of edge `i` (receiving `+offset`) and the right endpoint of
edge `i - 1` (receiving `-offset`), exactly as the accumulation loop in
`softbody_step`. -/
def disp_accum {n : ℕ} [NeZero n] (soft : SoftBody) (st : Fin n → Option Vec2)
    (i : Fin n) : Vec2 :=
  edge_offset soft st i - edge_offset soft st (i - 1)

/-- Accumulated distance-constraint weight of vertex `i` (edges `i` and
`i - 1`). -/
def dist_weight {n : ℕ} [NeZero n] (soft : SoftBody) (st : Fin n → Option Vec2)
    (i : Fin n) : ℕ :=
  edge_weight soft st i + edge_weight soft st (i - 1)

/-- `polygon_area_signed` from `src/physics/soft_body.rs`: returns `0` for
fewer than 3 points, otherwise `Σ (p.x - q.x) * (p.y + q.y) * 0.5` over the
cyclic edges `(p, q) = (pts[i], pts[(i+1) % n])`. -/
def polygon_area_signed {n : ℕ} [NeZero n] (pts : Fin n → Vec2) : ℝ :=
  if n < 3 then 0
  else ∑ i : Fin n, ((pts i).x - (pts (i + 1)).x) * ((pts i).y + (pts (i + 1)).y) * (1 / 2)

/-- The standard shoelace formula `½ Σ (x_i y_{i+1} - x_{i+1} y_i)`
(counter-clockwise positive), as the specification states it; used to compare
against the source's `polygon_area_signed`. -/
def shoelace_standard {n : ℕ} [NeZero n] (pts : Fin n → Vec2) : ℝ :=
  ∑ i : Fin n, (pts i).cross (pts (i + 1)) * (1 / 2)

/-- `dilation_corrections`: per-vertex area-correction offsets.  The ring is
read through the query (missing particles read as `ZERO`), the signed area
and `offset = (desired_area - area) / circumference` (zero if the
circumference is zero) are computed, and each vertex `i` receives the
normalized perpendicular `(secant.y, -secant.x)` of the secant between its
cyclic neighbours scaled by `offset` (zero for a zero-length secant). -/
def dilation_corrections {n : ℕ} [NeZero n] (soft : SoftBody)
    (st : Fin n → Option Vec2) (i : Fin n) : Vec2 :=
  let poly : Fin n → Vec2 := read_pos st
  let area := polygon_area_signed poly
  let error := soft.desired_area - area
  let offset := if soft.circumference ≠ 0 then error / soft.circumference else 0
  let prev := poly (i - 1)
  let next := poly (i + 1)
  let secant := next - prev
  if secant.length_squared = 0 then 0
  else offset • (Vec2.mk secant.y (-secant.x)).normalize

/-- Step 2c of `softbody_step`: apply to every resolvable particle the
average accumulated displacement (distance-constraint accumulation plus the
dilation correction, divided by the total weight); particles with zero weight
or missing particles are untouched. -/
def solver_apply {n : ℕ} [NeZero n] (soft : SoftBody)
    (st : Fin n → Option Vec2) : Fin n → Option Vec2 := fun i =>
  let acc := disp_accum soft st i + dilation_corrections soft st i
  let w := dist_weight soft st i + 1
  match st i with
  | none => none
  | some p => if w = 0 then some p else some (p + ⟨acc.x / (w : ℝ), acc.y / (w : ℝ)⟩)

/-- Step 2d of `softbody_step`: when the left mouse button is pressed,
project every resolvable particle out of the swept-effector capsule. -/
def effector_pass {n : ℕ} (eff : EffectorState) (st : Fin n → Option Vec2) :
    Fin n → Option Vec2 := fun i =>
  (st i).map fun p => collide_point_with_swept_effector p eff.prev eff.curr eff.radius

/-- One Gauss–Seidel iteration of the constraint solver: distance and
dilation corrections accumulated and applied, then (when the mouse button is
pressed) the effector projection pass. -/
def solver_iteration {n : ℕ} [NeZero n] (soft : SoftBody) (pressed : Bool)
    (eff : EffectorState) (st : Fin n → Option Vec2) : Fin n → Option Vec2 :=
  let st1 := solver_apply soft st
  if pressed then effector_pass eff st1 else st1

/-- Phase 2 of `softbody_step`: `CONSTRAINT_ITERATIONS` solver iterations. -/
def solver_phase {n : ℕ} [NeZero n] (soft : SoftBody) (pressed : Bool)
    (eff : EffectorState) (st : Fin n → Option Vec2) : Fin n → Option Vec2 :=
  (solver_iteration soft pressed eff)^[CONSTRAINT_ITERATIONS] st

/-- Modelled from the spec, §7 Error Handling: "a missing particle is simply
skipped for that tick (treated as having contributed nothing)".  In this
variant of the distance pass a cyclic edge with an unresolvable endpoint
contributes neither correction nor weight, instead of reading the missing
position as `ZERO` the way the source does. -/
def edge_offset_skipping {n : ℕ} [NeZero n] (soft : SoftBody)
    (st : Fin n → Option Vec2) (e : Fin n) : Vec2 :=
  match st e, st (e + 1) with
  | some p, some q =>
    let diff := q - p
    let len := diff.length
    if 0 < len ∧ soft.chord_length < len then
      ((len - soft.chord_length) * (1 / 2) / len) • diff
    else 0
  | _, _ => 0

/-- Modelled from the spec, §7: the weight contributed by an edge under the
skip-missing reading (zero when an endpoint is unresolvable). -/
def edge_weight_skipping {n : ℕ} [NeZero n] (soft : SoftBody)
    (st : Fin n → Option Vec2) (e : Fin n) : ℕ :=
  match st e, st (e + 1) with
  | some p, some q =>
    let diff := q - p
    let len := diff.length
    if 0 < len ∧ soft.chord_length < len then 1 else 0
  | _, _ => 0

/-- Modelled from the spec, §7: one solver iteration in which a missing
particle's constraints are skipped (it contributes nothing to the corrections
applied to the other particles); the dilation pass and the apply step are as
in the source. -/
def solver_iteration_skipping {n : ℕ} [NeZero n] (soft : SoftBody)
    (st : Fin n → Option Vec2) : Fin n → Option Vec2 := fun i =>
  let acc := (edge_offset_skipping soft st i - edge_offset_skipping soft st (i - 1))
    + dilation_corrections soft st i
  let w := (edge_weight_skipping soft st i + edge_weight_skipping soft st (i - 1)) + 1
  match st i with
  | none => none
  | some p => if w = 0 then some p else some (p + ⟨acc.x / (w : ℝ), acc.y / (w : ℝ)⟩)

/-- One whole fixed tick (`softbody_step`): integrate every resolvable
particle, run the constraint solver on the positions, and write the solved
positions back into the particle states. -/
def softbody_step {n : ℕ} [NeZero n] (half : Vec2) (dt : ℝ) (soft : SoftBody)
    (pressed : Bool) (eff : EffectorState) (pts : Fin n → Option Point) :
    Fin n → Option Point :=
  let pts1 : Fin n → Option Point := fun i => (pts i).map (integrate half dt)
  let solved := solver_phase soft pressed eff (fun i => (pts1 i).map Point.position)
  fun i => (pts1 i).map fun p => { p with position := (solved i).getD p.position }

/-- Concrete three-particle ring used in witnesses and counterexamples: an
isoceles triangle with base 8 (the stretched edge when the chord length is 5)
and equal sides 5. -/
def triangle_ring : Fin 3 → Vec2 := ![⟨0, 0⟩, ⟨8, 0⟩, ⟨4, 3⟩]

/-- An idle effector value (irrelevant while the mouse button is not
pressed). -/
def eff_idle : EffectorState := ⟨0, ⟨0, 0⟩, ⟨0, 0⟩⟩

/-- A soft body built by `SoftBody::new` whose chord length is `5`,
circumference `15` and desired area `27`. -/
def triangle_soft : SoftBody := SoftBody.new 3 (15 / (2 * Real.pi)) (12 * Real.pi / 25)

/-- Unit vector at angle `θ` (a proof device for describing regular rings,
not a translation of source code). -/
def unit_dir (θ : ℝ) : Vec2 := ⟨Real.cos θ, Real.sin θ⟩

/-- The regular `n`-gon ring of radius `r` around `c` with phase `ψ`: vertex
`i` sits at angle `ψ + i * (2π/n)`.  With `ψ = 0` this is exactly the layout
produced by `spawn_soft_body` (`theta = i * TAU / num_points`). -/
def regular_ring (n : ℕ) (c : Vec2) (r ψ : ℝ) : Fin n → Vec2 :=
  fun i => c + r • unit_dir (ψ + (i.val : ℝ) * (2 * Real.pi / (n : ℝ)))

/-! Basic component and norm lemmas about the `Vec2` model. -/

@[simp] theorem Vec2.zero_x : (0 : Vec2).x = 0 := rfl

@[simp] theorem Vec2.zero_y : (0 : Vec2).y = 0 := rfl

@[simp] theorem Vec2.add_x (a b : Vec2) : (a + b).x = a.x + b.x := rfl

@[simp] theorem Vec2.add_y (a b : Vec2) : (a + b).y = a.y + b.y := rfl

@[simp] theorem Vec2.sub_x (a b : Vec2) : (a - b).x = a.x - b.x := rfl

@[simp] theorem Vec2.sub_y (a b : Vec2) : (a - b).y = a.y - b.y := rfl

@[simp] theorem Vec2.neg_x (a : Vec2) : (-a).x = -a.x := rfl

@[simp] theorem Vec2.neg_y (a : Vec2) : (-a).y = -a.y := rfl

@[simp] theorem Vec2.smul_x (c : ℝ) (a : Vec2) : (c • a).x = c * a.x := rfl

@[simp] theorem Vec2.smul_y (c : ℝ) (a : Vec2) : (c • a).y = c * a.y := rfl

@[simp] theorem Vec2.mk_x (a b : ℝ) : (Vec2.mk a b).x = a := rfl

@[simp] theorem Vec2.mk_y (a b : ℝ) : (Vec2.mk a b).y = b := rfl

theorem Vec2.mk_eq_iff {a b c d : ℝ} : Vec2.mk a b = Vec2.mk c d ↔ a = c ∧ b = d := by
  constructor
  · intro h; exact ⟨congrArg Vec2.x h, congrArg Vec2.y h⟩
  · rintro ⟨rfl, rfl⟩; rfl

theorem Vec2.length_squared_nonneg (v : Vec2) : 0 ≤ v.length_squared := by
  have hx := mul_self_nonneg v.x
  have hy := mul_self_nonneg v.y
  unfold Vec2.length_squared
  linarith

theorem Vec2.length_nonneg (v : Vec2) : 0 ≤ v.length := Real.sqrt_nonneg _

theorem Vec2.length_eq_of_sq {v : Vec2} {c : ℝ} (hc : 0 ≤ c)
    (h : v.length_squared = c ^ 2) : v.length = c := by
  rw [Vec2.length, h, Real.sqrt_sq hc]

theorem Vec2.length_squared_eq_zero_iff {v : Vec2} : v.length_squared = 0 ↔ v = 0 := by
  constructor
  · intro h
    have hx := mul_self_nonneg v.x
    have hy := mul_self_nonneg v.y
    have hx0 : v.x * v.x = 0 := by unfold Vec2.length_squared at h; linarith
    have hy0 : v.y * v.y = 0 := by unfold Vec2.length_squared at h; linarith
    ext
    · exact mul_self_eq_zero.mp hx0
    · exact mul_self_eq_zero.mp hy0
  · intro h; subst h; simp [Vec2.length_squared]

theorem Vec2.length_pos_of_ne_zero {v : Vec2} (h : v ≠ 0) : 0 < v.length := by
  apply Real.sqrt_pos.mpr
  rcases lt_or_eq_of_le (Vec2.length_squared_nonneg v) with h' | h'
  · exact h'
  · exact absurd (Vec2.length_squared_eq_zero_iff.mp h'.symm) h

theorem Vec2.sq_length (v : Vec2) : v.length ^ 2 = v.length_squared := by
  rw [Vec2.length, Real.sq_sqrt (Vec2.length_squared_nonneg v)]

theorem Vec2.mul_self_length (v : Vec2) : v.length * v.length = v.length_squared := by
  have h := Vec2.sq_length v
  nlinarith [h]

/-- C1: for every particle state and every `dt > 0`, one integration step of
the tick computes the free next position
`position + (position - previous_position) * damping_per_second ^ dt +
(acceleration + GRAVITY) * dt²`, commits the (possibly bounce-clamped) next
position, sets `previous_position` so that
`position - previous_position` equals the step's (possibly bounce-reflected)
velocity, and zeroes the per-tick acceleration accumulator; when the
predicted position is inside the window bounds the committed position is
exactly the free next position. -/
theorem C1_integration_step (half : Vec2) (dt : ℝ) (p : Point) (hdt : 0 < dt) :
    (integrate half dt p).acceleration = 0 ∧
    free_next dt p = p.position
      + (DAMPING_PER_SECOND ^ dt) • (p.position - p.previous_position)
      + (dt * dt) • (p.acceleration + GRAVITY) ∧
    (integrate half dt p).position =
      (bounce_clamp half p.radius p.bounciness (free_next dt p)
        (free_next dt p - p.position)).1 ∧
    (integrate half dt p).position - (integrate half dt p).previous_position =
      (bounce_clamp half p.radius p.bounciness (free_next dt p)
        (free_next dt p - p.position)).2 ∧
    ((-half.x + p.radius ≤ (free_next dt p).x ∧ (free_next dt p).x ≤ half.x - p.radius ∧
      -half.y + p.radius ≤ (free_next dt p).y ∧ (free_next dt p).y ≤ half.y - p.radius) →
      (integrate half dt p).position = free_next dt p) := by
  refine ⟨rfl, rfl, rfl, ?_, ?_⟩
  · show (bounce_clamp _ _ _ _ _).1 - ((bounce_clamp _ _ _ _ _).1 - (bounce_clamp _ _ _ _ _).2) = _
    abel
  · intro hin
    obtain ⟨h1, h2, h3, h4⟩ := hin
    show (bounce_clamp _ _ _ _ _).1 = _
    unfold bounce_clamp
    dsimp only
    split_ifs <;> first | (ext <;> rfl) | (exfalso; linarith)

/-- C1 witness: the integration-step theorem applied at a concrete particle
and `dt = 1`. -/
theorem C1_integration_step_witness :
    (0 : ℝ) < 1 ∧
      (integrate ⟨100, 100⟩ 1 ⟨0, ⟨0, 0⟩, ⟨0, 0⟩, ⟨0, 0⟩, 1, 5, 1⟩).acceleration = 0 :=
  ⟨one_pos, (C1_integration_step ⟨100, 100⟩ 1 ⟨0, ⟨0, 0⟩, ⟨0, 0⟩, ⟨0, 0⟩, 1, 5, 1⟩ one_pos).1⟩

/-- Cyclic telescoping: summing `f i - f (i + 1)` over all of `Fin n`
vanishes, because `i ↦ i + 1` permutes `Fin n`. -/
theorem sum_sub_cyclic {n : ℕ} [NeZero n] (f : Fin n → ℝ) :
    ∑ i : Fin n, (f i - f (i + 1)) = 0 := by
  rw [Finset.sum_sub_distrib]
  have h : ∑ i : Fin n, f (i + 1) = ∑ i : Fin n, f i :=
    Fintype.sum_equiv (Equiv.addRight 1) (fun i => f (i + 1)) f (fun i => rfl)
  rw [h, sub_self]

/-- The source's `polygon_area_signed` form
`Σ (p.x - q.x) * (p.y + q.y) * ½` agrees with the standard
counter-clockwise-positive shoelace formula `½ Σ (x_i y_{i+1} - x_{i+1} y_i)`
on every ring. -/
theorem polygon_area_signed_eq_shoelace {n : ℕ} [NeZero n] (pts : Fin n → Vec2) :
    polygon_area_signed pts = shoelace_standard pts := by
  unfold polygon_area_signed shoelace_standard
  by_cases h : n < 3
  · rw [if_pos h]
    have hn := Nat.pos_of_ne_zero (NeZero.ne n)
    symm
    interval_cases n
    · rw [Fin.sum_univ_one]
      have h01 : (0 + 1 : Fin 1) = 0 := rfl
      rw [h01]
      unfold Vec2.cross
      ring
    · rw [Fin.sum_univ_two]
      have h01 : (0 + 1 : Fin 2) = 1 := rfl
      have h10 : (1 + 1 : Fin 2) = 0 := rfl
      rw [h01, h10]
      unfold Vec2.cross
      ring
  · rw [if_neg h]
    have key : ∀ i : Fin n,
        ((pts i).x - (pts (i + 1)).x) * ((pts i).y + (pts (i + 1)).y) * (1 / 2)
          = (pts i).cross (pts (i + 1)) * (1 / 2)
            + ((pts i).x * (pts i).y * (1 / 2)
               - (pts (i + 1)).x * (pts (i + 1)).y * (1 / 2)) := by
      intro i
      unfold Vec2.cross
      ring
    rw [Finset.sum_congr rfl (fun i _ => key i), Finset.sum_add_distrib,
      sum_sub_cyclic (fun j => (pts j).x * (pts j).y * (1 / 2)), add_zero]

/-- C2: in each solver iteration the dilation pass computes the ring's signed
area by the shoelace formula (counter-clockwise positive), the offset
magnitude `(desired_area - area) / circumference` (zero when the
circumference is zero), and gives every vertex `i` the correction equal to
the normalized perpendicular `(secant.y, -secant.x)` of the secant between
its cyclic neighbours `i-1` and `i+1` scaled by the offset magnitude, with a
zero correction when the secant has zero length. -/
theorem C2_dilation_pass {n : ℕ} [NeZero n] (soft : SoftBody)
    (st : Fin n → Option Vec2) (i : Fin n) :
    polygon_area_signed (read_pos st) = shoelace_standard (read_pos st) ∧
    dilation_corrections soft st i =
      (if (read_pos st (i + 1) - read_pos st (i - 1)).length_squared = 0 then 0
       else
         (if soft.circumference ≠ 0 then
            (soft.desired_area - shoelace_standard (read_pos st)) / soft.circumference
          else 0) •
           (Vec2.mk (read_pos st (i + 1) - read_pos st (i - 1)).y
             (-(read_pos st (i + 1) - read_pos st (i - 1)).x)).normalize) := by
  refine ⟨polygon_area_signed_eq_shoelace _, ?_⟩
  unfold dilation_corrections
  dsimp only
  rw [polygon_area_signed_eq_shoelace]

/-- C2 witness: the dilation-pass theorem applied to vertex 1 of the concrete
triangle ring. -/
theorem C2_dilation_pass_witness :
    polygon_area_signed (read_pos (fun j => some (triangle_ring j)))
        = shoelace_standard (read_pos (fun j => some (triangle_ring j))) ∧
    dilation_corrections triangle_soft (fun j => some (triangle_ring j)) 1
      = (if (read_pos (fun j => some (triangle_ring j)) (1 + 1)
            - read_pos (fun j => some (triangle_ring j)) (1 - 1)).length_squared = 0
         then 0
         else
           (if triangle_soft.circumference ≠ 0 then
              (triangle_soft.desired_area
                - shoelace_standard (read_pos (fun j => some (triangle_ring j))))
                / triangle_soft.circumference
            else 0) •
             (Vec2.mk (read_pos (fun j => some (triangle_ring j)) (1 + 1)
                 - read_pos (fun j => some (triangle_ring j)) (1 - 1)).y
               (-(read_pos (fun j => some (triangle_ring j)) (1 + 1)
                 - read_pos (fun j => some (triangle_ring j)) (1 - 1)).x)).normalize) :=
  C2_dilation_pass triangle_soft (fun j => some (triangle_ring j)) 1

/-- C3 (amended): provided the particle radius does not exceed the half
extent on that axis (non-inverted clamp range), a predicted next position
beyond `half_extent - radius` on the positive side or below
`-(half_extent - radius)` on the negative side is clamped exactly to that
limit, and the step's implicit velocity component on that axis is
negated-and-scaled by `bounciness`; for nonnegative `bounciness` the
outgoing speed along the axis is `bounciness` times the incoming speed. -/
theorem C3_bounce_reflection (half : Vec2) (dt : ℝ) (p : Point) :
    (p.radius ≤ half.x →
      ((free_next dt p).x < -(half.x - p.radius) →
        (integrate half dt p).position.x = -(half.x - p.radius) ∧
        ((integrate half dt p).position - (integrate half dt p).previous_position).x
          = -(free_next dt p - p.position).x * p.bounciness ∧
        (0 ≤ p.bounciness →
          |((integrate half dt p).position - (integrate half dt p).previous_position).x|
            = p.bounciness * |(free_next dt p - p.position).x|)) ∧
      ((free_next dt p).x > half.x - p.radius →
        (integrate half dt p).position.x = half.x - p.radius ∧
        ((integrate half dt p).position - (integrate half dt p).previous_position).x
          = -(free_next dt p - p.position).x * p.bounciness ∧
        (0 ≤ p.bounciness →
          |((integrate half dt p).position - (integrate half dt p).previous_position).x|
            = p.bounciness * |(free_next dt p - p.position).x|))) ∧
    (p.radius ≤ half.y →
      ((free_next dt p).y < -(half.y - p.radius) →
        (integrate half dt p).position.y = -(half.y - p.radius) ∧
        ((integrate half dt p).position - (integrate half dt p).previous_position).y
          = -(free_next dt p - p.position).y * p.bounciness ∧
        (0 ≤ p.bounciness →
          |((integrate half dt p).position - (integrate half dt p).previous_position).y|
            = p.bounciness * |(free_next dt p - p.position).y|)) ∧
      ((free_next dt p).y > half.y - p.radius →
        (integrate half dt p).position.y = half.y - p.radius ∧
        ((integrate half dt p).position - (integrate half dt p).previous_position).y
          = -(free_next dt p - p.position).y * p.bounciness ∧
        (0 ≤ p.bounciness →
          |((integrate half dt p).position - (integrate half dt p).previous_position).y|
            = p.bounciness * |(free_next dt p - p.position).y|))) := by
  have hv : (integrate half dt p).position - (integrate half dt p).previous_position
      = (bounce_clamp half p.radius p.bounciness (free_next dt p)
          (free_next dt p - p.position)).2 := by
    show (bounce_clamp _ _ _ _ _).1 - ((bounce_clamp _ _ _ _ _).1 - _) = _
    abel
  have habs : ∀ w b : ℝ, 0 ≤ b → |(-w * b)| = b * |w| := by
    intro w b hb
    rw [neg_mul, abs_neg, abs_mul, abs_of_nonneg hb, mul_comm]
  refine ⟨fun hr => ⟨fun hlow => ?_, fun hhigh => ?_⟩,
          fun hr => ⟨fun hlow => ?_, fun hhigh => ?_⟩⟩
  · have hc : (bounce_clamp half p.radius p.bounciness (free_next dt p)
        (free_next dt p - p.position)).1.x = -half.x + p.radius ∧
        (bounce_clamp half p.radius p.bounciness (free_next dt p)
          (free_next dt p - p.position)).2.x
          = -(free_next dt p - p.position).x * p.bounciness := by
      rw [neg_sub'] at hlow
      unfold bounce_clamp
      dsimp only
      split_ifs <;> first | exact ⟨rfl, rfl⟩ | (exfalso; dsimp only at *; linarith)
    refine ⟨?_, ?_, fun hb => ?_⟩
    · show (bounce_clamp _ _ _ _ _).1.x = _
      rw [hc.1]; ring
    · rw [hv]; exact hc.2
    · rw [hv, hc.2]; exact habs _ _ hb
  · have hc : (bounce_clamp half p.radius p.bounciness (free_next dt p)
        (free_next dt p - p.position)).1.x = half.x - p.radius ∧
        (bounce_clamp half p.radius p.bounciness (free_next dt p)
          (free_next dt p - p.position)).2.x
          = -(free_next dt p - p.position).x * p.bounciness := by
      unfold bounce_clamp
      dsimp only
      split_ifs <;> first | exact ⟨rfl, rfl⟩ | (exfalso; dsimp only at *; linarith)
    refine ⟨?_, ?_, fun hb => ?_⟩
    · show (bounce_clamp _ _ _ _ _).1.x = _
      rw [hc.1]
    · rw [hv]; exact hc.2
    · rw [hv, hc.2]; exact habs _ _ hb
  · have hc : (bounce_clamp half p.radius p.bounciness (free_next dt p)
        (free_next dt p - p.position)).1.y = -half.y + p.radius ∧
        (bounce_clamp half p.radius p.bounciness (free_next dt p)
          (free_next dt p - p.position)).2.y
          = -(free_next dt p - p.position).y * p.bounciness := by
      rw [neg_sub'] at hlow
      unfold bounce_clamp
      dsimp only
      split_ifs <;> first | exact ⟨rfl, rfl⟩ | (exfalso; dsimp only at *; linarith)
    refine ⟨?_, ?_, fun hb => ?_⟩
    · show (bounce_clamp _ _ _ _ _).1.y = _
      rw [hc.1]; ring
    · rw [hv]; exact hc.2
    · rw [hv, hc.2]; exact habs _ _ hb
  · have hc : (bounce_clamp half p.radius p.bounciness (free_next dt p)
        (free_next dt p - p.position)).1.y = half.y - p.radius ∧
        (bounce_clamp half p.radius p.bounciness (free_next dt p)
          (free_next dt p - p.position)).2.y
          = -(free_next dt p - p.position).y * p.bounciness := by
      unfold bounce_clamp
      dsimp only
      split_ifs <;> first | exact ⟨rfl, rfl⟩ | (exfalso; dsimp only at *; linarith)
    refine ⟨?_, ?_, fun hb => ?_⟩
    · show (bounce_clamp _ _ _ _ _).1.y = _
      rw [hc.1]
    · rw [hv]; exact hc.2
    · rw [hv, hc.2]; exact habs _ _ hb

/-- C3 witness: a particle pushed past the left wall is clamped to the wall
at a concrete input with a non-inverted clamp range. -/
theorem C3_bounce_reflection_witness :
    (5 : ℝ) ≤ (100 : ℝ) ∧
    (free_next 1 ⟨0, ⟨0, 0⟩, ⟨0, 0⟩, ⟨-2000, 980⟩, 1, 5, 1⟩).x < -((100 : ℝ) - 5) ∧
    (integrate ⟨100, 100⟩ 1 ⟨0, ⟨0, 0⟩, ⟨0, 0⟩, ⟨-2000, 980⟩, 1, 5, 1⟩).position.x
      = -((100 : ℝ) - 5) := by
  have hfx : (free_next 1 ⟨0, ⟨0, 0⟩, ⟨0, 0⟩, ⟨-2000, 980⟩, 1, 5, 1⟩).x = -2000 := by
    simp [free_next, GRAVITY]
  refine ⟨by norm_num, by rw [hfx]; norm_num, ?_⟩
  exact ((C3_bounce_reflection ⟨100, 100⟩ 1
    ⟨0, ⟨0, 0⟩, ⟨0, 0⟩, ⟨-2000, 980⟩, 1, 5, 1⟩).1 (by norm_num)).1
    (by rw [hfx]; norm_num) |>.1

/-- C3 counterexample: with an inverted clamp range (radius 3 against a half
extent of 1), a predicted position that falls below `-(half_extent - radius)`
is NOT committed at that limit: both clamp branches fire in sequence and the
particle ends at `-2`, not at the claimed limit `2` (and the velocity is
scaled by `bounciness²` rather than `bounciness`). -/
theorem C3_counterexample :
    (free_next 1 ⟨0, ⟨0, 0⟩, ⟨2, 0⟩, ⟨0, 980⟩, 1, 3, 1 / 2⟩).x < -(((1 : ℝ)) - 3) ∧
    (integrate ⟨1, 10⟩ 1 ⟨0, ⟨0, 0⟩, ⟨2, 0⟩, ⟨0, 980⟩, 1, 3, 1 / 2⟩).position.x = -2 ∧
    ((-2 : ℝ)) ≠ -(((1 : ℝ)) - 3) := by
  have hd : damping_per_tick 1 = 1 / 2 := by
    unfold damping_per_tick DAMPING_PER_SECOND
    exact Real.rpow_one _
  have hfx : free_next 1 ⟨0, ⟨0, 0⟩, ⟨2, 0⟩, ⟨0, 980⟩, 1, 3, 1 / 2⟩ = ⟨-1, 0⟩ := by
    unfold free_next
    rw [hd]
    ext <;> simp [GRAVITY]
  refine ⟨by rw [hfx]; norm_num, ?_, by norm_num⟩
  show (bounce_clamp ⟨1, 10⟩ 3 (1 / 2) (free_next 1 _) _).1.x = -2
  rw [hfx]
  unfold bounce_clamp
  norm_num

theorem Vec2.length_smul (c : ℝ) (v : Vec2) : (c • v).length = |c| * v.length := by
  unfold Vec2.length Vec2.length_squared
  have h : (c • v).x * (c • v).x + (c • v).y * (c • v).y
      = c ^ 2 * (v.x * v.x + v.y * v.y) := by
    simp only [Vec2.smul_x, Vec2.smul_y]
    ring
  rw [h, Real.sqrt_mul (sq_nonneg c), Real.sqrt_sq_eq_abs]

theorem Vec2.length_normalize {v : Vec2} (h : v ≠ 0) : v.normalize.length = 1 := by
  have hl := Vec2.length_pos_of_ne_zero h
  have hsq : v.normalize.length_squared = 1 := by
    unfold Vec2.normalize Vec2.length_squared
    have h2 : v.length ^ 2 = v.x * v.x + v.y * v.y := Vec2.sq_length v
    field_simp
    nlinarith [h2]
  unfold Vec2.length
  rw [hsq, Real.sqrt_one]

/-- Squared distance from `p` to the segment point at parameter `s`. -/
theorem seg_dist_sq (p a b : Vec2) (s : ℝ) :
    (p - (a + s • (b - a))).length_squared
      = (p - a).length_squared - 2 * s * ((p - a).dot (b - a))
        + s ^ 2 * (b - a).length_squared := by
  unfold Vec2.length_squared Vec2.dot
  simp only [Vec2.sub_x, Vec2.sub_y, Vec2.add_x, Vec2.add_y, Vec2.smul_x, Vec2.smul_y]
  ring

/-- C6 (amended): provided the effector segment is nondegenerate
(`seg_len² > 1e-12`), the code's clamped projection `q` is the nearest
segment point to the particle, a particle strictly inside the capsule
(distance to `q` below `capsule_radius`, squared distance above the epsilon)
is relocated to `q + capsule_radius` along the unit vector from `q`, ending
at distance exactly `capsule_radius` from `q`; and for a nonnegative radius,
any particle at distance at least `capsule_radius` from every point of the
segment is left unmodified (in both the degenerate and nondegenerate
branches). -/
theorem C6_swept_collision_resolve (p seg_a seg_b : Vec2) (r : ℝ) :
    ((seg_b - seg_a).length_squared > 1 / 10 ^ 12 →
      (0 ≤ segment_closest_t p seg_a seg_b ∧ segment_closest_t p seg_a seg_b ≤ 1) ∧
      (∀ s : ℝ, 0 ≤ s → s ≤ 1 →
        (p - segment_closest_point p seg_a seg_b).length
          ≤ (p - (seg_a + s • (seg_b - seg_a))).length) ∧
      ((p - segment_closest_point p seg_a seg_b).length < r →
        (p - segment_closest_point p seg_a seg_b).length_squared > 1 / 10 ^ 12 →
        collide_point_with_swept_effector p seg_a seg_b r
          = segment_closest_point p seg_a seg_b
            + r • (p - segment_closest_point p seg_a seg_b).normalize ∧
        (collide_point_with_swept_effector p seg_a seg_b r
          - segment_closest_point p seg_a seg_b).length = r)) ∧
    (0 ≤ r →
      (∀ s : ℝ, 0 ≤ s → s ≤ 1 → r ≤ (p - (seg_a + s • (seg_b - seg_a))).length) →
      collide_point_with_swept_effector p seg_a seg_b r = p) := by
  constructor
  · intro hseg
    have hL : (0 : ℝ) < (seg_b - seg_a).length_squared := by
      have : (0 : ℝ) < 1 / 10 ^ 12 := by norm_num
      linarith
    have hLne : (seg_b - seg_a).length_squared ≠ 0 := ne_of_gt hL
    have ht01 : 0 ≤ segment_closest_t p seg_a seg_b ∧ segment_closest_t p seg_a seg_b ≤ 1 := by
      unfold segment_closest_t
      exact ⟨le_min (le_max_right _ _) zero_le_one, min_le_right _ _⟩
    refine ⟨ht01, ?_, ?_⟩
    · -- minimality of the clamped projection
      intro s hs0 hs1
      have hsq : (p - segment_closest_point p seg_a seg_b).length_squared
          ≤ (p - (seg_a + s • (seg_b - seg_a))).length_squared := by
        unfold segment_closest_point
        rw [seg_dist_sq, seg_dist_sq]
        set L := (seg_b - seg_a).length_squared with hLdef
        set D := (p - seg_a).dot (seg_b - seg_a) with hDdef
        have hcL : segment_closest_t p seg_a seg_b * L = min (max (D / L) 0) 1 * L := rfl
        rcases le_or_lt D 0 with hD | hD
        · have hc : segment_closest_t p seg_a seg_b = 0 := by
            unfold segment_closest_t
            have hdn : D / L ≤ 0 := by
              rw [div_nonpos_iff]
              right
              exact ⟨hD, hL.le⟩
            rw [max_eq_right hdn, min_eq_left zero_le_one]
          rw [hc]
          nlinarith [mul_nonneg hs0 (neg_nonneg.mpr hD), mul_nonneg (mul_nonneg hs0 hs0) hL.le]
        · rcases le_or_lt L D with hDL | hDL
          · have hc : segment_closest_t p seg_a seg_b = 1 := by
              unfold segment_closest_t
              have h1 : (1 : ℝ) ≤ D / L := (one_le_div hL).mpr hDL
              rw [max_eq_left (le_trans zero_le_one h1), min_eq_right h1]
            rw [hc]
            have hfac : 0 ≤ (1 - s) * (2 * D - (s + 1) * L) := by
              apply mul_nonneg (by linarith)
              nlinarith [mul_nonneg (sub_nonneg.mpr hs1) hL.le]
            nlinarith [hfac]
          · have hc : segment_closest_t p seg_a seg_b = D / L := by
              unfold segment_closest_t
              have h0 : (0 : ℝ) ≤ D / L := le_of_lt (div_pos hD hL)
              have h1 : D / L ≤ 1 := le_of_lt ((div_lt_one hL).mpr hDL)
              rw [max_eq_left h0, min_eq_left h1]
            rw [hc]
            have hDL' : D / L * L = D := div_mul_cancel₀ D hLne
            nlinarith [mul_nonneg hL.le (sq_nonneg (s - D / L)), hDL']
      have h1 := Real.sqrt_le_sqrt hsq
      simpa [Vec2.length] using h1
    · -- relocation of a particle strictly inside the capsule
      intro hlt hgt
      have hr0 : 0 < r := lt_of_le_of_lt (Vec2.length_nonneg _) hlt
      have hd2lt : (p - segment_closest_point p seg_a seg_b).length_squared < r * r := by
        have := mul_self_lt_mul_self (Vec2.length_nonneg _) hlt
        calc (p - segment_closest_point p seg_a seg_b).length_squared
            = (p - segment_closest_point p seg_a seg_b).length
              * (p - segment_closest_point p seg_a seg_b).length := by
              rw [← Vec2.sq_length]; ring
          _ < r * r := this
      have hcode : collide_point_with_swept_effector p seg_a seg_b r
          = segment_closest_point p seg_a seg_b
            + r • (p - segment_closest_point p seg_a seg_b).normalize := by
        unfold collide_point_with_swept_effector segment_closest_point segment_closest_t
        rw [if_neg (not_le.mpr hseg)]
        dsimp only
        rw [if_pos]
        constructor
        · exact hd2lt
        · exact hgt
      refine ⟨hcode, ?_⟩
      rw [hcode]
      have hne : p - segment_closest_point p seg_a seg_b ≠ 0 := by
        intro h0
        rw [h0] at hgt
        simp [Vec2.length_squared] at hgt
        linarith [hgt]
      have : segment_closest_point p seg_a seg_b
          + r • (p - segment_closest_point p seg_a seg_b).normalize
          - segment_closest_point p seg_a seg_b
          = r • (p - segment_closest_point p seg_a seg_b).normalize := by abel
      rw [this, Vec2.length_smul, Vec2.length_normalize hne, mul_one, abs_of_pos hr0]
  · -- a particle far from every segment point is unmodified
    intro hr hfar
    unfold collide_point_with_swept_effector
    by_cases hdeg : (seg_b - seg_a).length_squared ≤ 1 / 10 ^ 12
    · rw [if_pos hdeg]
      dsimp only
      rw [if_neg]
      intro hcc
      have hb : seg_a + (1 : ℝ) • (seg_b - seg_a) = seg_b := by
        rw [one_smul]; abel
      have h1 := hfar 1 zero_le_one le_rfl
      rw [hb] at h1
      have h2 : r * r ≤ (p - seg_b).length * (p - seg_b).length :=
        mul_self_le_mul_self hr h1
      rw [Vec2.mul_self_length] at h2
      exact absurd hcc.1 (not_lt.mpr h2)
    · rw [if_neg hdeg]
      dsimp only
      rw [if_neg]
      intro hcc
      have ht0 : (0 : ℝ) ≤ min (max ((p - seg_a).dot (seg_b - seg_a)
          / (seg_b - seg_a).length_squared) 0) 1 :=
        le_min (le_max_right _ _) zero_le_one
      have ht1 : min (max ((p - seg_a).dot (seg_b - seg_a)
          / (seg_b - seg_a).length_squared) 0) 1 ≤ 1 := min_le_right _ _
      have h1 := hfar _ ht0 ht1
      have h2 : r * r ≤ (p - (seg_a + min (max ((p - seg_a).dot (seg_b - seg_a)
          / (seg_b - seg_a).length_squared) 0) 1 • (seg_b - seg_a))).length
          * (p - (seg_a + min (max ((p - seg_a).dot (seg_b - seg_a)
            / (seg_b - seg_a).length_squared) 0) 1 • (seg_b - seg_a))).length :=
        mul_self_le_mul_self hr h1
      rw [Vec2.mul_self_length] at h2
      exact absurd hcc.1 (not_lt.mpr h2)

/-- C6 witness: the swept-collision theorem applied at a concrete particle
strictly inside a nondegenerate capsule. -/
theorem C6_swept_collision_resolve_witness :
    ((Vec2.mk 4 0 - Vec2.mk 0 0).length_squared > 1 / 10 ^ 12) ∧
    ((Vec2.mk 2 1 - segment_closest_point ⟨2, 1⟩ ⟨0, 0⟩ ⟨4, 0⟩).length < 2) ∧
    ((Vec2.mk 2 1 - segment_closest_point ⟨2, 1⟩ ⟨0, 0⟩ ⟨4, 0⟩).length_squared > 1 / 10 ^ 12) ∧
    (collide_point_with_swept_effector ⟨2, 1⟩ ⟨0, 0⟩ ⟨4, 0⟩ 2
      - segment_closest_point ⟨2, 1⟩ ⟨0, 0⟩ ⟨4, 0⟩).length = 2 := by
  have hseg : (Vec2.mk 4 0 - Vec2.mk 0 0).length_squared > 1 / 10 ^ 12 := by
    unfold Vec2.length_squared
    norm_num
  have hq : segment_closest_point ⟨2, 1⟩ ⟨0, 0⟩ ⟨4, 0⟩ = ⟨2, 0⟩ := by
    unfold segment_closest_point segment_closest_t Vec2.dot Vec2.length_squared
    have h : min (max (((Vec2.mk 2 1 - Vec2.mk 0 0).x * (Vec2.mk 4 0 - Vec2.mk 0 0).x
        + (Vec2.mk 2 1 - Vec2.mk 0 0).y * (Vec2.mk 4 0 - Vec2.mk 0 0).y)
        / ((Vec2.mk 4 0 - Vec2.mk 0 0).x * (Vec2.mk 4 0 - Vec2.mk 0 0).x
          + (Vec2.mk 4 0 - Vec2.mk 0 0).y * (Vec2.mk 4 0 - Vec2.mk 0 0).y)) 0) 1
        = 1 / 2 := by
      simp only [Vec2.sub_x, Vec2.sub_y, Vec2.mk_x, Vec2.mk_y]
      norm_num
    rw [h]
    ext <;> simp <;> norm_num
  have hdist : (Vec2.mk 2 1 - segment_closest_point ⟨2, 1⟩ ⟨0, 0⟩ ⟨4, 0⟩).length = 1 := by
    rw [hq]
    apply Vec2.length_eq_of_sq zero_le_one
    unfold Vec2.length_squared
    norm_num
  have hd2 : (Vec2.mk 2 1 - segment_closest_point ⟨2, 1⟩ ⟨0, 0⟩ ⟨4, 0⟩).length_squared
      > 1 / 10 ^ 12 := by
    rw [hq]
    unfold Vec2.length_squared
    norm_num
  refine ⟨hseg, by rw [hdist]; norm_num, hd2, ?_⟩
  exact (((C6_swept_collision_resolve ⟨2, 1⟩ ⟨0, 0⟩ ⟨4, 0⟩ 2).1 hseg).2.2
    (by rw [hdist]; norm_num) hd2).2

/-- C6 counterexample: for the hairline segment from `(0,0)` to `(1e-6, 0)`
(squared length exactly `1e-12`), the resolve falls into the degenerate
branch and relocates relative to `seg_b`, not relative to the nearest
segment point `q = (0,0)`; the particle `(0, 1/2)` is strictly inside the
capsule with respect to `q`, yet its resolved position differs from
`q + radius • unit(p - q)` (their x-coordinates differ). -/
theorem C6_counterexample :
    ((Vec2.mk 0 (1 / 2) - Vec2.mk 0 0).length < 1) ∧
    ((Vec2.mk 0 (1 / 2) - Vec2.mk 0 0).length_squared > 1 / 10 ^ 12) ∧
    ((Vec2.mk 0 (1 / 2) - Vec2.mk 0 0).length_squared
      ≤ (Vec2.mk 0 (1 / 2) - Vec2.mk (1 / 10 ^ 6) 0).length_squared) ∧
    (collide_point_with_swept_effector ⟨0, 1 / 2⟩ ⟨0, 0⟩ ⟨1 / 10 ^ 6, 0⟩ 1).x
      ≠ (Vec2.mk 0 0 + (1 : ℝ) • (Vec2.mk 0 (1 / 2) - Vec2.mk 0 0).normalize).x := by
  have hlen : (Vec2.mk 0 (1 / 2) - Vec2.mk 0 0).length = 1 / 2 := by
    apply Vec2.length_eq_of_sq (by norm_num)
    unfold Vec2.length_squared
    norm_num
  have hsq : (Vec2.mk 0 (1 / 2) - Vec2.mk 0 0).length_squared = 1 / 4 := by
    unfold Vec2.length_squared; norm_num
  refine ⟨by rw [hlen]; norm_num, by rw [hsq]; norm_num, ?_, ?_⟩
  · unfold Vec2.length_squared
    simp only [Vec2.sub_x, Vec2.sub_y, Vec2.mk_x, Vec2.mk_y]
    norm_num
  · -- evaluate the degenerate branch of the resolve
    have hdeg : (Vec2.mk (1 / 10 ^ 6) 0 - Vec2.mk 0 0).length_squared ≤ 1 / 10 ^ 12 := by
      unfold Vec2.length_squared
      simp only [Vec2.sub_x, Vec2.sub_y, Vec2.mk_x, Vec2.mk_y]
      norm_num
    have hd : Vec2.mk 0 (1 / 2) - Vec2.mk (1 / 10 ^ 6) 0 = ⟨-(1 / 10 ^ 6), 1 / 2⟩ := by
      ext <;> simp <;> norm_num
    have hd2 : (Vec2.mk (-(1 / 10 ^ 6)) (1 / 2)).length_squared = 1 / 4 + 1 / 10 ^ 12 := by
      unfold Vec2.length_squared
      simp only [Vec2.mk_x, Vec2.mk_y]
      norm_num
    have hcond : (Vec2.mk (-(1 / 10 ^ 6)) (1 / 2)).length_squared < 1 * 1
        ∧ (Vec2.mk (-(1 / 10 ^ 6)) (1 / 2)).length_squared > 1 / 10 ^ 12 := by
      rw [hd2]; norm_num
    have hcode : collide_point_with_swept_effector ⟨0, 1 / 2⟩ ⟨0, 0⟩ ⟨1 / 10 ^ 6, 0⟩ 1
        = Vec2.mk (1 / 10 ^ 6) 0
          + (1 : ℝ) • (Vec2.mk (-(1 / 10 ^ 6)) (1 / 2)).normalize := by
      unfold collide_point_with_swept_effector
      rw [if_pos hdeg]
      dsimp only
      rw [hd, if_pos hcond]
    -- the x-coordinates differ: 1e-6 * (1 - 1/s) ≠ 0 because s ≠ 1
    have hs : (Vec2.mk (-(1 / 10 ^ 6)) (1 / 2)).length ^ 2 = 1 / 4 + 1 / 10 ^ 12 := by
      rw [Vec2.sq_length, hd2]
    have hspos : 0 < (Vec2.mk (-(1 / 10 ^ 6)) (1 / 2)).length := by
      apply Vec2.length_pos_of_ne_zero
      intro h0
      have hy := congrArg Vec2.y h0
      simp at hy
    have hsne : (Vec2.mk (-(1 / 10 ^ 6)) (1 / 2)).length ≠ 1 := by
      intro h1
      rw [h1] at hs
      norm_num at hs
    have hsub : Vec2.mk 0 (1 / 2) - Vec2.mk 0 0 = Vec2.mk 0 (1 / 2) := by
      ext <;> simp
    rw [hcode, hsub]
    simp only [Vec2.add_x, Vec2.smul_x, Vec2.mk_x, Vec2.normalize, Vec2.mk_y, Vec2.zero_x]
    rw [zero_div]
    intro heq
    apply hsne
    have hln0 : (Vec2.mk (-(1 / 10 ^ 6)) (1 / 2)).length ≠ 0 := ne_of_gt hspos
    have hu : -(1 / 10 ^ 6) / (Vec2.mk (-(1 / 10 ^ 6)) (1 / 2)).length = -(1 / 10 ^ 6) := by
      linarith [heq]
    have hmul : -(1 / 10 ^ 6) / (Vec2.mk (-(1 / 10 ^ 6)) (1 / 2)).length
        * (Vec2.mk (-(1 / 10 ^ 6)) (1 / 2)).length = -(1 / 10 ^ 6) :=
      div_mul_cancel₀ _ hln0
    rw [hu] at hmul
    have hc : -((1 : ℝ) / 10 ^ 6) ≠ 0 := by norm_num
    exact mul_left_cancel₀ hc (hmul.trans (mul_one (-((1 : ℝ) / 10 ^ 6))).symm)

/-! Solver-level helper lemmas. -/

theorem one_ne_zero_fin {n : ℕ} [NeZero n] (hn : 2 ≤ n) : (1 : Fin n) ≠ 0 := by
  intro h
  have hv := congrArg Fin.val h
  rw [Fin.val_one', Fin.val_zero, Nat.mod_eq_of_lt (by omega)] at hv
  exact one_ne_zero hv

theorem fin_succ_ne_self {n : ℕ} [NeZero n] (hn : 2 ≤ n) (k : Fin n) : k + 1 ≠ k := by
  intro h
  have h0 : k + 1 = k + 0 := by rw [add_zero]; exact h
  exact one_ne_zero_fin hn (add_left_cancel h0)

theorem fin_pred_ne_self {n : ℕ} [NeZero n] (hn : 2 ≤ n) (k : Fin n) : k - 1 ≠ k := by
  intro h
  have h1 : k - 1 + 1 = k + 1 := by rw [h]
  rw [sub_add_cancel] at h1
  exact fin_succ_ne_self hn k h1.symm

theorem fin_sub_eq_iff {n : ℕ} [NeZero n] (i k : Fin n) : i - 1 = k ↔ i = k + 1 := by
  constructor
  · intro h
    rw [← h, sub_add_cancel]
  · intro h
    rw [h, add_sub_cancel_right]

/-- When the current ring already has the desired signed area, every dilation
correction vanishes (the offset magnitude is zero in both branches of the
circumference test). -/
theorem dilation_corrections_of_area_eq {n : ℕ} [NeZero n] (soft : SoftBody)
    (st : Fin n → Option Vec2) (i : Fin n)
    (harea : polygon_area_signed (read_pos st) = soft.desired_area) :
    dilation_corrections soft st i = 0 := by
  unfold dilation_corrections
  dsimp only
  rw [harea, sub_self]
  have hz : (if soft.circumference ≠ 0 then (0 : ℝ) / soft.circumference else 0) = 0 := by
    split_ifs with h
    · exact zero_div _
    · rfl
  rw [hz]
  split_ifs with h
  · rfl
  · rw [zero_smul]

/-- When the circumference parameter is zero, every dilation correction
vanishes. -/
theorem dilation_corrections_of_circ_zero {n : ℕ} [NeZero n] (soft : SoftBody)
    (st : Fin n → Option Vec2) (i : Fin n) (hc : soft.circumference = 0) :
    dilation_corrections soft st i = 0 := by
  unfold dilation_corrections
  dsimp only
  rw [hc]
  have hinner : (if (0 : ℝ) ≠ 0 then
      (soft.desired_area - polygon_area_signed (read_pos st)) / 0 else 0) = 0 := by
    rw [if_neg (fun h => h rfl)]
  rw [hinner]
  split_ifs with h
  · rfl
  · rw [zero_smul]

/-- Summation of an indicator supported on two distinct indices. -/
theorem sum_two_point {n : ℕ} [NeZero n] (a b : Fin n) (hab : a ≠ b) (u v : Vec2) :
    ∑ i : Fin n, (if i = a then u else if i = b then v else 0) = u + v := by
  have hsplit : ∀ i : Fin n,
      (if i = a then u else if i = b then v else 0)
        = (if i = a then u else 0) + (if i = b then v else 0) := by
    intro i
    by_cases h1 : i = a
    · subst h1
      rw [if_pos rfl, if_pos rfl, if_neg hab, add_zero]
    · rw [if_neg h1, if_neg h1, zero_add]
  rw [Finset.sum_congr rfl (fun i _ => hsplit i), Finset.sum_add_distrib]
  rw [Finset.sum_ite_eq' Finset.univ a (fun _ => u), Finset.sum_ite_eq' Finset.univ b (fun _ => v)]
  rw [if_pos (Finset.mem_univ a), if_pos (Finset.mem_univ b)]

/-- C5 (amended): for a fully resolvable ring (`N ≥ 3`) with a nonnegative
chord length in which exactly one cyclic edge `k` is stretched beyond
`chord_length`, and whose signed area already equals `desired_area` (so the
dilation pass contributes nothing), one solver iteration moves only the two
endpoints of edge `k` symmetrically: the stretched edge's length becomes
`(len + chord_length)/2`, strictly smaller, and the sum of all positions
(hence the centroid) is unchanged.  Without the zero-dilation hypothesis the
centroid is NOT preserved in general (see the counterexample). -/
theorem C5_stretched_edge_relaxation {n : ℕ} [NeZero n] (hn : 3 ≤ n)
    (soft : SoftBody) (eff : EffectorState) (P : Fin n → Vec2) (k : Fin n)
    (hchord : 0 ≤ soft.chord_length)
    (hk : soft.chord_length < (P (k + 1) - P k).length)
    (hothers : ∀ e : Fin n, e ≠ k → (P (e + 1) - P e).length ≤ soft.chord_length)
    (harea : polygon_area_signed P = soft.desired_area) :
    ∃ Q : Fin n → Vec2,
      (∀ i, solver_iteration soft false eff (fun j => some (P j)) i = some (Q i)) ∧
      (Q (k + 1) - Q k).length = ((P (k + 1) - P k).length + soft.chord_length) / 2 ∧
      (Q (k + 1) - Q k).length < (P (k + 1) - P k).length ∧
      ∑ i : Fin n, Q i = ∑ i : Fin n, P i := by
  have hn2 : 2 ≤ n := le_trans (by omega) hn
  have hkk1 : k + 1 ≠ k := fin_succ_ne_self hn2 k
  have hk1k : k - 1 ≠ k := fin_pred_ne_self hn2 k
  have hlen0 : 0 < (P (k + 1) - P k).length := lt_of_le_of_lt hchord hk
  set len : ℝ := (P (k + 1) - P k).length with hlendef
  set c : ℝ := soft.chord_length with hcdef
  set s : ℝ := (len - c) * (1 / 2) / len with hsdef
  set off : Vec2 := s • (P (k + 1) - P k) with hoffdef
  -- the per-edge offsets and weights
  have hoffk : edge_offset soft (fun j => some (P j)) k = off := by
    unfold edge_offset
    dsimp only
    rw [if_pos ⟨hlen0, hk⟩]
    rfl
  have hoffe : ∀ e : Fin n, e ≠ k → edge_offset soft (fun j => some (P j)) e = 0 := by
    intro e he
    unfold edge_offset
    dsimp only
    rw [if_neg]
    intro hcc
    exact absurd (hothers e he) (not_le.mpr hcc.2)
  have hwk : edge_weight soft (fun j => some (P j)) k = 1 := by
    unfold edge_weight
    dsimp only
    rw [if_pos ⟨hlen0, hk⟩]
  have hwe : ∀ e : Fin n, e ≠ k → edge_weight soft (fun j => some (P j)) e = 0 := by
    intro e he
    unfold edge_weight
    dsimp only
    rw [if_neg]
    intro hcc
    exact absurd (hothers e he) (not_le.mpr hcc.2)
  -- accumulated displacements
  have haccum_k : disp_accum soft (fun j => some (P j)) k = off := by
    unfold disp_accum
    rw [hoffk, hoffe (k - 1) hk1k, sub_zero]
  have haccum_k1 : disp_accum soft (fun j => some (P j)) (k + 1) = -off := by
    unfold disp_accum
    rw [hoffe (k + 1) hkk1, add_sub_cancel_right, hoffk, zero_sub]
  have haccum_o : ∀ i : Fin n, i ≠ k → i ≠ k + 1 →
      disp_accum soft (fun j => some (P j)) i = 0 := by
    intro i h1 h2
    unfold disp_accum
    rw [hoffe i h1, hoffe (i - 1) (fun hc' => h2 ((fin_sub_eq_iff i k).mp hc')), sub_zero]
  have hweight_k : dist_weight soft (fun j => some (P j)) k = 1 := by
    unfold dist_weight
    rw [hwk, hwe (k - 1) hk1k]
  have hweight_k1 : dist_weight soft (fun j => some (P j)) (k + 1) = 1 := by
    unfold dist_weight
    rw [hwe (k + 1) hkk1, add_sub_cancel_right, hwk]
  have hweight_o : ∀ i : Fin n, i ≠ k → i ≠ k + 1 →
      dist_weight soft (fun j => some (P j)) i = 0 := by
    intro i h1 h2
    unfold dist_weight
    rw [hwe i h1, hwe (i - 1) (fun hc' => h2 ((fin_sub_eq_iff i k).mp hc'))]
  have hdil : ∀ i : Fin n, dilation_corrections soft (fun j => some (P j)) i = 0 := fun i =>
    dilation_corrections_of_area_eq soft (fun j => some (P j)) i harea
  -- the new positions
  set w2 : Vec2 := ⟨off.x / 2, off.y / 2⟩ with hw2def
  have hQdiff : (P (k + 1) + -w2) - (P k + w2) = (1 - s) • (P (k + 1) - P k) := by
    rw [hw2def, hoffdef]
    ext <;> first | (simp; ring) | simp
  have h1s : 1 - s = (len + c) / (2 * len) := by
    rw [hsdef]
    field_simp
    ring
  have h1s_pos : 0 < 1 - s := by
    rw [h1s]
    apply div_pos (by rw [hlendef, hcdef]; linarith) (by linarith)
  have hlennew : ((P (k + 1) + -w2) - (P k + w2)).length = (len + c) / 2 := by
    rw [hQdiff, Vec2.length_smul, abs_of_pos h1s_pos, h1s, ← hlendef]
    field_simp
    ring
  refine ⟨fun i => if i = k then P k + w2 else if i = k + 1 then P (k + 1) + -w2 else P i,
    ?_, ?_, ?_, ?_⟩
  · intro i
    show solver_apply soft (fun j => some (P j)) i = _
    unfold solver_apply
    dsimp only
    by_cases h1 : i = k
    · subst h1
      rw [haccum_k, hweight_k, hdil, add_zero, if_neg (by norm_num), if_pos rfl]
      refine congrArg some ?_
      rw [hw2def]
      ext <;> first | (simp; ring) | (simp; norm_num) | simp | norm_num
    · by_cases h2 : i = k + 1
      · subst h2
        rw [haccum_k1, hweight_k1, hdil, add_zero, if_neg (by norm_num),
          if_neg h1, if_pos rfl]
        refine congrArg some ?_
        rw [hw2def]
        ext <;> first | (simp; ring) | (simp; norm_num) | simp | norm_num
      · rw [haccum_o i h1 h2, hweight_o i h1 h2, hdil, add_zero, if_neg (by norm_num),
          if_neg h1, if_neg h2]
        refine congrArg some ?_
        ext <;> first | (simp; ring) | (simp; norm_num) | simp | norm_num
  · dsimp only
    rw [if_neg hkk1, if_pos rfl, if_pos rfl]
    exact hlennew
  · dsimp only
    rw [if_neg hkk1, if_pos rfl, if_pos rfl, hlennew]
    linarith [hk]
  · have hQd : ∀ i : Fin n,
        (if i = k then P k + w2 else if i = k + 1 then P (k + 1) + -w2 else P i)
          = P i + (if i = k then w2 else if i = k + 1 then -w2 else 0) := by
      intro i
      by_cases h1 : i = k
      · subst h1
        rw [if_pos rfl, if_pos rfl]
      · by_cases h2 : i = k + 1
        · subst h2
          rw [if_neg h1, if_neg h1, if_pos rfl, if_pos rfl]
        · rw [if_neg h1, if_neg h1, if_neg h2, if_neg h2, add_zero]
    rw [Finset.sum_congr rfl (fun i _ => hQd i), Finset.sum_add_distrib,
      sum_two_point k (k + 1) (fun h => hkk1 h.symm) w2 (-w2), add_neg_cancel, add_zero]

/-- C5 witness: the amended stretched-edge theorem applied to a concrete
isoceles triangle whose base edge (length 8) exceeds the chord length 5 and
whose signed area 12 equals the desired area. -/
theorem C5_stretched_edge_relaxation_witness :
    (0 : ℝ) ≤ (5 : ℝ) ∧
    (5 : ℝ) < (triangle_ring (0 + 1) - triangle_ring 0).length ∧
    ∃ Q : Fin 3 → Vec2,
      (∀ i, solver_iteration ⟨3, 0, 0, 12, 15, 5⟩ false eff_idle
          (fun j => some (triangle_ring j)) i = some (Q i)) ∧
      (Q (0 + 1) - Q 0).length
        = ((triangle_ring (0 + 1) - triangle_ring 0).length + (5 : ℝ)) / 2 ∧
      (Q (0 + 1) - Q 0).length < (triangle_ring (0 + 1) - triangle_ring 0).length ∧
      ∑ i : Fin 3, Q i = ∑ i : Fin 3, triangle_ring i := by
  have hlen : ∀ a b c : ℝ, 0 ≤ c → a * a + b * b = c ^ 2 → (Vec2.mk a b).length = c := by
    intro a b c hc h
    exact Vec2.length_eq_of_sq hc h
  have hv0 : triangle_ring (0 + 1) - triangle_ring 0 = Vec2.mk 8 0 := by
    show Vec2.mk 8 0 - Vec2.mk 0 0 = Vec2.mk 8 0
    ext <;> norm_num
  have hlen8 : (triangle_ring (0 + 1) - triangle_ring 0).length = 8 := by
    rw [hv0]
    exact hlen 8 0 8 (by norm_num) (by norm_num)
  have hk : (5 : ℝ) < (triangle_ring (0 + 1) - triangle_ring 0).length := by
    rw [hlen8]
    norm_num
  have hothers : ∀ e : Fin 3, e ≠ 0 →
      (triangle_ring (e + 1) - triangle_ring e).length ≤ 5 := by
    intro e he
    fin_cases e
    · exact absurd rfl he
    · have hv : triangle_ring (1 + 1) - triangle_ring 1 = Vec2.mk (-4) 3 := by
        show Vec2.mk 4 3 - Vec2.mk 8 0 = Vec2.mk (-4) 3
        ext <;> norm_num
      rw [show ((⟨1, by omega⟩ : Fin 3) : Fin 3) = 1 from rfl, hv,
        hlen (-4) 3 5 (by norm_num) (by norm_num)]
    · have hv : triangle_ring (2 + 1) - triangle_ring 2 = Vec2.mk (-4) (-3) := by
        show Vec2.mk 0 0 - Vec2.mk 4 3 = Vec2.mk (-4) (-3)
        ext <;> norm_num
      rw [show ((⟨2, by omega⟩ : Fin 3) : Fin 3) = 2 from rfl, hv,
        hlen (-4) (-3) 5 (by norm_num) (by norm_num)]
  have harea : polygon_area_signed triangle_ring
      = (⟨3, 0, 0, 12, 15, 5⟩ : SoftBody).desired_area := by
    show polygon_area_signed triangle_ring = 12
    unfold polygon_area_signed
    rw [if_neg (by norm_num)]
    rw [Fin.sum_univ_three]
    rw [show ((0 : Fin 3) + 1) = 1 from rfl, show ((1 : Fin 3) + 1) = 2 from rfl,
      show ((2 : Fin 3) + 1) = 0 from rfl]
    show ((Vec2.mk 0 0).x - (Vec2.mk 8 0).x) * ((Vec2.mk 0 0).y + (Vec2.mk 8 0).y) * (1 / 2)
        + ((Vec2.mk 8 0).x - (Vec2.mk 4 3).x) * ((Vec2.mk 8 0).y + (Vec2.mk 4 3).y) * (1 / 2)
        + ((Vec2.mk 4 3).x - (Vec2.mk 0 0).x) * ((Vec2.mk 4 3).y + (Vec2.mk 0 0).y) * (1 / 2)
        = 12
    norm_num
  obtain ⟨Q, hQ1, hQ2, hQ3, hQ4⟩ :=
    C5_stretched_edge_relaxation (by norm_num) ⟨3, 0, 0, 12, 15, 5⟩ eff_idle
      triangle_ring 0 (by norm_num) hk hothers harea
  exact ⟨by norm_num, hk, Q, hQ1, hQ2, hQ3, hQ4⟩

/-- C5 counterexample: on the same triangle but with the soft body built by
`SoftBody::new` (chord length 5, circumference 15, desired area 27 against a
current area of 12), one full solver iteration moves the centroid: the
dilation corrections and the per-vertex weight averaging are not symmetric,
so the sum of positions changes from `(12, 3)` to `(12, 16/5)` even though
exactly one edge is stretched. -/
theorem C5_counterexample :
    triangle_soft.chord_length = 5 ∧
    (5 : ℝ) < (triangle_ring (0 + 1) - triangle_ring 0).length ∧
    (∀ e : Fin 3, e ≠ 0 → (triangle_ring (e + 1) - triangle_ring e).length ≤ 5) ∧
    (∑ i : Fin 3,
        ((solver_iteration triangle_soft false eff_idle
          (fun j => some (triangle_ring j))) i).getD 0)
      ≠ ∑ i : Fin 3, triangle_ring i := by
  have hlen : ∀ a b c : ℝ, 0 ≤ c → a * a + b * b = c ^ 2 → (Vec2.mk a b).length = c := by
    intro a b c hc h
    exact Vec2.length_eq_of_sq hc h
  have hpine : Real.pi ≠ 0 := Real.pi_ne_zero
  have hchord5 : triangle_soft.chord_length = 5 := by
    unfold triangle_soft SoftBody.new
    dsimp only
    field_simp
    ring
  have hcirc : triangle_soft.circumference = 15 := by
    unfold triangle_soft SoftBody.new
    dsimp only
    field_simp
  have hdes : triangle_soft.desired_area = 27 := by
    unfold triangle_soft SoftBody.new
    dsimp only
    field_simp
    ring
  -- edge vectors and lengths
  have hv0 : triangle_ring (0 + 1) - triangle_ring 0 = Vec2.mk 8 0 := by
    show Vec2.mk 8 0 - Vec2.mk 0 0 = Vec2.mk 8 0
    ext <;> norm_num
  have hlen8 : (Vec2.mk (8 : ℝ) 0).length = 8 := hlen 8 0 8 (by norm_num) (by norm_num)
  have hk : (5 : ℝ) < (triangle_ring (0 + 1) - triangle_ring 0).length := by
    rw [hv0, hlen8]
    norm_num
  have hothers : ∀ e : Fin 3, e ≠ 0 →
      (triangle_ring (e + 1) - triangle_ring e).length ≤ 5 := by
    intro e he
    fin_cases e
    · exact absurd rfl he
    · have hv : triangle_ring (1 + 1) - triangle_ring 1 = Vec2.mk (-4) 3 := by
        show Vec2.mk 4 3 - Vec2.mk 8 0 = Vec2.mk (-4) 3
        ext <;> norm_num
      rw [show ((⟨1, by omega⟩ : Fin 3) : Fin 3) = 1 from rfl, hv,
        hlen (-4) 3 5 (by norm_num) (by norm_num)]
    · have hv : triangle_ring (2 + 1) - triangle_ring 2 = Vec2.mk (-4) (-3) := by
        show Vec2.mk 0 0 - Vec2.mk 4 3 = Vec2.mk (-4) (-3)
        ext <;> norm_num
      rw [show ((⟨2, by omega⟩ : Fin 3) : Fin 3) = 2 from rfl, hv,
        hlen (-4) (-3) 5 (by norm_num) (by norm_num)]
  refine ⟨hchord5, hk, hothers, ?_⟩
  -- evaluate the edge offsets
  have hoff0 : edge_offset triangle_soft (fun j => some (triangle_ring j)) 0
      = Vec2.mk (3 / 2) 0 := by
    unfold edge_offset
    dsimp only
    rw [show read_pos (fun j => some (triangle_ring j)) (0 + 1)
        - read_pos (fun j => some (triangle_ring j)) 0 = Vec2.mk 8 0 from by
      show Vec2.mk 8 0 - Vec2.mk 0 0 = Vec2.mk 8 0
      ext <;> norm_num]
    rw [hlen8, hchord5]
    rw [if_pos (by norm_num)]
    ext <;> norm_num
  have hoff1 : edge_offset triangle_soft (fun j => some (triangle_ring j)) 1 = 0 := by
    unfold edge_offset
    dsimp only
    rw [show read_pos (fun j => some (triangle_ring j)) (1 + 1)
        - read_pos (fun j => some (triangle_ring j)) 1 = Vec2.mk (-4) 3 from by
      show Vec2.mk 4 3 - Vec2.mk 8 0 = Vec2.mk (-4) 3
      ext <;> norm_num]
    rw [hlen (-4) 3 5 (by norm_num) (by norm_num), hchord5]
    rw [if_neg (by norm_num)]
  have hoff2 : edge_offset triangle_soft (fun j => some (triangle_ring j)) 2 = 0 := by
    unfold edge_offset
    dsimp only
    rw [show read_pos (fun j => some (triangle_ring j)) (2 + 1)
        - read_pos (fun j => some (triangle_ring j)) 2 = Vec2.mk (-4) (-3) from by
      show Vec2.mk 0 0 - Vec2.mk 4 3 = Vec2.mk (-4) (-3)
      ext <;> norm_num]
    rw [hlen (-4) (-3) 5 (by norm_num) (by norm_num), hchord5]
    rw [if_neg (by norm_num)]
  have hw0 : edge_weight triangle_soft (fun j => some (triangle_ring j)) 0 = 1 := by
    unfold edge_weight
    dsimp only
    rw [show read_pos (fun j => some (triangle_ring j)) (0 + 1)
        - read_pos (fun j => some (triangle_ring j)) 0 = Vec2.mk 8 0 from by
      show Vec2.mk 8 0 - Vec2.mk 0 0 = Vec2.mk 8 0
      ext <;> norm_num]
    rw [hlen8, hchord5]
    rw [if_pos (by norm_num)]
  have hw1 : edge_weight triangle_soft (fun j => some (triangle_ring j)) 1 = 0 := by
    unfold edge_weight
    dsimp only
    rw [show read_pos (fun j => some (triangle_ring j)) (1 + 1)
        - read_pos (fun j => some (triangle_ring j)) 1 = Vec2.mk (-4) 3 from by
      show Vec2.mk 4 3 - Vec2.mk 8 0 = Vec2.mk (-4) 3
      ext <;> norm_num]
    rw [hlen (-4) 3 5 (by norm_num) (by norm_num), hchord5]
    rw [if_neg (by norm_num)]
  have hw2 : edge_weight triangle_soft (fun j => some (triangle_ring j)) 2 = 0 := by
    unfold edge_weight
    dsimp only
    rw [show read_pos (fun j => some (triangle_ring j)) (2 + 1)
        - read_pos (fun j => some (triangle_ring j)) 2 = Vec2.mk (-4) (-3) from by
      show Vec2.mk 0 0 - Vec2.mk 4 3 = Vec2.mk (-4) (-3)
      ext <;> norm_num]
    rw [hlen (-4) (-3) 5 (by norm_num) (by norm_num), hchord5]
    rw [if_neg (by norm_num)]
  -- accumulated displacements and weights
  have haccum0 : disp_accum triangle_soft (fun j => some (triangle_ring j)) 0
      = Vec2.mk (3 / 2) 0 := by
    unfold disp_accum
    rw [show ((0 : Fin 3) - 1) = 2 from rfl, hoff0, hoff2, sub_zero]
  have haccum1 : disp_accum triangle_soft (fun j => some (triangle_ring j)) 1
      = Vec2.mk (-(3 / 2)) 0 := by
    unfold disp_accum
    rw [show ((1 : Fin 3) - 1) = 0 from rfl, hoff1, hoff0, zero_sub]
    ext <;> norm_num
  have haccum2 : disp_accum triangle_soft (fun j => some (triangle_ring j)) 2 = 0 := by
    unfold disp_accum
    rw [show ((2 : Fin 3) - 1) = 1 from rfl, hoff2, hoff1, sub_zero]
  have hweight0 : dist_weight triangle_soft (fun j => some (triangle_ring j)) 0 = 1 := by
    unfold dist_weight
    rw [show ((0 : Fin 3) - 1) = 2 from rfl, hw0, hw2]
  have hweight1 : dist_weight triangle_soft (fun j => some (triangle_ring j)) 1 = 1 := by
    unfold dist_weight
    rw [show ((1 : Fin 3) - 1) = 0 from rfl, hw1, hw0]
  have hweight2 : dist_weight triangle_soft (fun j => some (triangle_ring j)) 2 = 0 := by
    unfold dist_weight
    rw [show ((2 : Fin 3) - 1) = 1 from rfl, hw2, hw1]
  -- the signed area of the triangle
  have hareaR : polygon_area_signed (read_pos (fun j => some (triangle_ring j))) = 12 := by
    show polygon_area_signed triangle_ring = 12
    unfold polygon_area_signed
    rw [if_neg (by norm_num)]
    rw [Fin.sum_univ_three]
    rw [show ((0 : Fin 3) + 1) = 1 from rfl, show ((1 : Fin 3) + 1) = 2 from rfl,
      show ((2 : Fin 3) + 1) = 0 from rfl]
    show ((Vec2.mk 0 0).x - (Vec2.mk 8 0).x) * ((Vec2.mk 0 0).y + (Vec2.mk 8 0).y) * (1 / 2)
        + ((Vec2.mk 8 0).x - (Vec2.mk 4 3).x) * ((Vec2.mk 8 0).y + (Vec2.mk 4 3).y) * (1 / 2)
        + ((Vec2.mk 4 3).x - (Vec2.mk 0 0).x) * ((Vec2.mk 4 3).y + (Vec2.mk 0 0).y) * (1 / 2)
        = 12
    norm_num
  -- the dilation corrections
  have hdil0 : dilation_corrections triangle_soft (fun j => some (triangle_ring j)) 0
      = Vec2.mk (-(3 / 5)) (-(4 / 5)) := by
    unfold dilation_corrections
    dsimp only
    rw [hareaR, hdes, hcirc]
    rw [show ((0 : Fin 3) - 1) = 2 from rfl, show ((0 : Fin 3) + 1) = 1 from rfl]
    rw [show read_pos (fun j => some (triangle_ring j)) 1
        - read_pos (fun j => some (triangle_ring j)) 2 = Vec2.mk 4 (-3) from by
      show Vec2.mk 8 0 - Vec2.mk 4 3 = Vec2.mk 4 (-3)
      ext <;> norm_num]
    rw [if_neg (by unfold Vec2.length_squared; dsimp only [Vec2.mk_x, Vec2.mk_y]; norm_num)]
    rw [if_pos (by norm_num)]
    have hnorm : (Vec2.mk ((Vec2.mk (4 : ℝ) (-3)).y) (-(Vec2.mk (4 : ℝ) (-3)).x)).normalize
        = Vec2.mk (-(3 / 5)) (-(4 / 5)) := by
      unfold Vec2.normalize
      rw [show (Vec2.mk ((Vec2.mk (4 : ℝ) (-3)).y) (-(Vec2.mk (4 : ℝ) (-3)).x))
          = Vec2.mk (-3) (-4) from by ext <;> norm_num]
      rw [hlen (-3) (-4) 5 (by norm_num) (by norm_num)]
      ext <;> norm_num
    rw [hnorm]
    ext <;> norm_num
  have hdil1 : dilation_corrections triangle_soft (fun j => some (triangle_ring j)) 1
      = Vec2.mk (3 / 5) (-(4 / 5)) := by
    unfold dilation_corrections
    dsimp only
    rw [hareaR, hdes, hcirc]
    rw [show ((1 : Fin 3) - 1) = 0 from rfl, show ((1 : Fin 3) + 1) = 2 from rfl]
    rw [show read_pos (fun j => some (triangle_ring j)) 2
        - read_pos (fun j => some (triangle_ring j)) 0 = Vec2.mk 4 3 from by
      show Vec2.mk 4 3 - Vec2.mk 0 0 = Vec2.mk 4 3
      ext <;> norm_num]
    rw [if_neg (by unfold Vec2.length_squared; dsimp only [Vec2.mk_x, Vec2.mk_y]; norm_num)]
    rw [if_pos (by norm_num)]
    have hnorm : (Vec2.mk ((Vec2.mk (4 : ℝ) 3).y) (-(Vec2.mk (4 : ℝ) 3).x)).normalize
        = Vec2.mk (3 / 5) (-(4 / 5)) := by
      unfold Vec2.normalize
      rw [show (Vec2.mk ((Vec2.mk (4 : ℝ) 3).y) (-(Vec2.mk (4 : ℝ) 3).x))
          = Vec2.mk 3 (-4) from by ext <;> norm_num]
      rw [hlen 3 (-4) 5 (by norm_num) (by norm_num)]
      ext <;> norm_num
    rw [hnorm]
    ext <;> norm_num
  have hdil2 : dilation_corrections triangle_soft (fun j => some (triangle_ring j)) 2
      = Vec2.mk 0 1 := by
    unfold dilation_corrections
    dsimp only
    rw [hareaR, hdes, hcirc]
    rw [show ((2 : Fin 3) - 1) = 1 from rfl, show ((2 : Fin 3) + 1) = 0 from rfl]
    rw [show read_pos (fun j => some (triangle_ring j)) 0
        - read_pos (fun j => some (triangle_ring j)) 1 = Vec2.mk (-8) 0 from by
      show Vec2.mk 0 0 - Vec2.mk 8 0 = Vec2.mk (-8) 0
      ext <;> norm_num]
    rw [if_neg (by unfold Vec2.length_squared; dsimp only [Vec2.mk_x, Vec2.mk_y]; norm_num)]
    rw [if_pos (by norm_num)]
    have hnorm : (Vec2.mk ((Vec2.mk (-8 : ℝ) 0).y) (-(Vec2.mk (-8 : ℝ) 0).x)).normalize
        = Vec2.mk 0 1 := by
      unfold Vec2.normalize
      rw [show (Vec2.mk ((Vec2.mk (-8 : ℝ) 0).y) (-(Vec2.mk (-8 : ℝ) 0).x))
          = Vec2.mk 0 8 from by ext <;> norm_num]
      rw [hlen 0 8 8 (by norm_num) (by norm_num)]
      ext <;> norm_num
    rw [hnorm]
    ext <;> norm_num
  -- one full iteration
  have heval0 : solver_iteration triangle_soft false eff_idle
      (fun j => some (triangle_ring j)) 0 = some (Vec2.mk (9 / 20) (-(2 / 5))) := by
    show solver_apply triangle_soft (fun j => some (triangle_ring j)) 0 = _
    unfold solver_apply
    dsimp only
    rw [haccum0, hdil0, hweight0, if_neg (by norm_num)]
    refine congrArg some ?_
    show Vec2.mk 0 0 + _ = _
    ext <;> push_cast <;> norm_num
  have heval1 : solver_iteration triangle_soft false eff_idle
      (fun j => some (triangle_ring j)) 1 = some (Vec2.mk (151 / 20) (-(2 / 5))) := by
    show solver_apply triangle_soft (fun j => some (triangle_ring j)) 1 = _
    unfold solver_apply
    dsimp only
    rw [haccum1, hdil1, hweight1, if_neg (by norm_num)]
    refine congrArg some ?_
    show Vec2.mk 8 0 + _ = _
    ext <;> push_cast <;> norm_num
  have heval2 : solver_iteration triangle_soft false eff_idle
      (fun j => some (triangle_ring j)) 2 = some (Vec2.mk 4 4) := by
    show solver_apply triangle_soft (fun j => some (triangle_ring j)) 2 = _
    unfold solver_apply
    dsimp only
    rw [haccum2, hdil2, hweight2, if_neg (by norm_num)]
    refine congrArg some ?_
    show Vec2.mk 4 3 + _ = _
    ext <;> push_cast <;> norm_num
  have hL : ∑ i : Fin 3,
      ((solver_iteration triangle_soft false eff_idle
        (fun j => some (triangle_ring j))) i).getD 0 = Vec2.mk 12 (16 / 5) := by
    rw [Fin.sum_univ_three, heval0, heval1, heval2]
    show Vec2.mk (9 / 20) (-(2 / 5)) + Vec2.mk (151 / 20) (-(2 / 5)) + Vec2.mk 4 4 = _
    ext <;> norm_num
  have hR : ∑ i : Fin 3, triangle_ring i = Vec2.mk 12 3 := by
    rw [Fin.sum_univ_three]
    show Vec2.mk 0 0 + Vec2.mk 8 0 + Vec2.mk 4 3 = _
    ext <;> norm_num
  rw [hL, hR]
  intro h
  have hy := (Vec2.mk_eq_iff.mp h).2
  norm_num at hy

/-- C9 (amended): a tick with an unresolvable particle handle completes
(every function of the model is total) and the missing particle itself is
skipped — it receives no correction in the solver and no update in the tick.
However its position is read as the zero vector by the distance and area
passes: the solver behaves exactly as if the missing particle were present at
`ZERO`, so its absence does influence the corrections applied to the other
particles (see the counterexample). -/
theorem C9_missing_particle_handling {n : ℕ} [NeZero n] (soft : SoftBody)
    (pressed : Bool) (eff : EffectorState) (st : Fin n → Option Vec2)
    (half : Vec2) (dt : ℝ) (pts : Fin n → Option Point) :
    (∀ i, st i = none → solver_iteration soft pressed eff st i = none) ∧
    (∀ i p, st i = some p → solver_iteration soft pressed eff st i
        = solver_iteration soft pressed eff (fun j => some (read_pos st j)) i) ∧
    (∀ i, pts i = none → softbody_step half dt soft pressed eff pts i = none) := by
  refine ⟨?_, ?_, ?_⟩
  · intro i hi
    have h1 : solver_apply soft st i = none := by
      unfold solver_apply
      dsimp only
      rw [hi]
    unfold solver_iteration
    cases pressed
    · exact h1
    · show effector_pass eff (solver_apply soft st) i = none
      unfold effector_pass
      rw [h1]
      rfl
  · intro i p hip
    have hp : read_pos st i = p := by
      unfold read_pos
      rw [hip]
      rfl
    have happ : solver_apply soft st i
        = solver_apply soft (fun j => some (read_pos st j)) i := by
      unfold solver_apply
      dsimp only
      rw [hip, hp]
      rfl
    unfold solver_iteration
    cases pressed
    · exact happ
    · show effector_pass eff (solver_apply soft st) i
          = effector_pass eff (solver_apply soft (fun j => some (read_pos st j))) i
      unfold effector_pass
      rw [happ]
  · intro i hi
    unfold softbody_step
    dsimp only
    rw [hi]
    rfl

/-- C9 witness: the missing-particle theorem applied at a concrete ring whose
third handle is unresolvable. -/
theorem C9_missing_particle_handling_witness :
    (![some ⟨3, 0⟩, some ⟨7, 0⟩, (none : Option Vec2)] : Fin 3 → Option Vec2) 2 = none ∧
    solver_iteration (SoftBody.new 3 0 0) false eff_idle
      ![some ⟨3, 0⟩, some ⟨7, 0⟩, none] 2 = none :=
  ⟨rfl, (C9_missing_particle_handling (SoftBody.new 3 0 0) false eff_idle
    ![some ⟨3, 0⟩, some ⟨7, 0⟩, none] ⟨0, 0⟩ 1 (fun _ => none)).1 2 rfl⟩

/-- C9 counterexample: with the third particle handle unresolvable, the
distance pass reads its position as `ZERO`, so particle 1 is pulled towards
the origin by the two phantom edges and ends at `(31/6, 0)`, whereas under
the skip-missing reading of the spec (a missing particle contributes
nothing) it would end at `(6, 0)` — the absence DOES change the corrections
applied to the remaining particles. -/
theorem C9_counterexample :
    (![some ⟨3, 0⟩, some ⟨7, 0⟩, (none : Option Vec2)] : Fin 3 → Option Vec2) 2 = none ∧
    solver_iteration (SoftBody.new 3 0 0) false eff_idle
      ![some ⟨3, 0⟩, some ⟨7, 0⟩, none] 1 = some (Vec2.mk (31 / 6) 0) ∧
    solver_iteration_skipping (SoftBody.new 3 0 0)
      ![some ⟨3, 0⟩, some ⟨7, 0⟩, none] 1 = some (Vec2.mk 6 0) ∧
    Vec2.mk ((31 : ℝ) / 6) 0 ≠ Vec2.mk 6 0 := by
  have hlen : ∀ a b c : ℝ, 0 ≤ c → a * a + b * b = c ^ 2 → (Vec2.mk a b).length = c := by
    intro a b c hc h
    exact Vec2.length_eq_of_sq hc h
  have hchord0 : (SoftBody.new 3 0 0).chord_length = 0 := by
    unfold SoftBody.new
    dsimp only
    norm_num
  have hcirc0 : (SoftBody.new 3 0 0).circumference = 0 := by
    unfold SoftBody.new
    dsimp only
    norm_num
  have hoff0 : edge_offset (SoftBody.new 3 0 0)
      ![some ⟨3, 0⟩, some ⟨7, 0⟩, none] 0 = Vec2.mk 2 0 := by
    unfold edge_offset
    dsimp only
    rw [show read_pos (![some ⟨3, 0⟩, some ⟨7, 0⟩, none] : Fin 3 → Option Vec2) (0 + 1)
        - read_pos ![some ⟨3, 0⟩, some ⟨7, 0⟩, none] 0 = Vec2.mk 4 0 from by
      show Vec2.mk 7 0 - Vec2.mk 3 0 = Vec2.mk 4 0
      ext <;> norm_num]
    rw [hlen 4 0 4 (by norm_num) (by norm_num), hchord0]
    rw [if_pos (by norm_num)]
    ext <;> norm_num
  have hoff1 : edge_offset (SoftBody.new 3 0 0)
      ![some ⟨3, 0⟩, some ⟨7, 0⟩, none] 1 = Vec2.mk (-(7 / 2)) 0 := by
    unfold edge_offset
    dsimp only
    rw [show read_pos (![some ⟨3, 0⟩, some ⟨7, 0⟩, none] : Fin 3 → Option Vec2) (1 + 1)
        - read_pos ![some ⟨3, 0⟩, some ⟨7, 0⟩, none] 1 = Vec2.mk (-7) 0 from by
      show Vec2.mk 0 0 - Vec2.mk 7 0 = Vec2.mk (-7) 0
      ext <;> norm_num]
    rw [hlen (-7) 0 7 (by norm_num) (by norm_num), hchord0]
    rw [if_pos (by norm_num)]
    ext <;> norm_num
  have haccum1 : disp_accum (SoftBody.new 3 0 0)
      ![some ⟨3, 0⟩, some ⟨7, 0⟩, none] 1 = Vec2.mk (-(11 / 2)) 0 := by
    unfold disp_accum
    rw [show ((1 : Fin 3) - 1) = 0 from rfl, hoff1, hoff0]
    ext <;> norm_num
  have hw0 : edge_weight (SoftBody.new 3 0 0)
      ![some ⟨3, 0⟩, some ⟨7, 0⟩, none] 0 = 1 := by
    unfold edge_weight
    dsimp only
    rw [show read_pos (![some ⟨3, 0⟩, some ⟨7, 0⟩, none] : Fin 3 → Option Vec2) (0 + 1)
        - read_pos ![some ⟨3, 0⟩, some ⟨7, 0⟩, none] 0 = Vec2.mk 4 0 from by
      show Vec2.mk 7 0 - Vec2.mk 3 0 = Vec2.mk 4 0
      ext <;> norm_num]
    rw [hlen 4 0 4 (by norm_num) (by norm_num), hchord0]
    rw [if_pos (by norm_num)]
  have hw1 : edge_weight (SoftBody.new 3 0 0)
      ![some ⟨3, 0⟩, some ⟨7, 0⟩, none] 1 = 1 := by
    unfold edge_weight
    dsimp only
    rw [show read_pos (![some ⟨3, 0⟩, some ⟨7, 0⟩, none] : Fin 3 → Option Vec2) (1 + 1)
        - read_pos ![some ⟨3, 0⟩, some ⟨7, 0⟩, none] 1 = Vec2.mk (-7) 0 from by
      show Vec2.mk 0 0 - Vec2.mk 7 0 = Vec2.mk (-7) 0
      ext <;> norm_num]
    rw [hlen (-7) 0 7 (by norm_num) (by norm_num), hchord0]
    rw [if_pos (by norm_num)]
  have hweight1 : dist_weight (SoftBody.new 3 0 0)
      ![some ⟨3, 0⟩, some ⟨7, 0⟩, none] 1 = 2 := by
    unfold dist_weight
    rw [show ((1 : Fin 3) - 1) = 0 from rfl, hw1, hw0]
  have hdil1 : dilation_corrections (SoftBody.new 3 0 0)
      ![some ⟨3, 0⟩, some ⟨7, 0⟩, none] 1 = 0 :=
    dilation_corrections_of_circ_zero _ _ _ hcirc0
  refine ⟨rfl, ?_, ?_, ?_⟩
  · show solver_apply (SoftBody.new 3 0 0) ![some ⟨3, 0⟩, some ⟨7, 0⟩, none] 1 = _
    unfold solver_apply
    dsimp only
    rw [show (![some ⟨3, 0⟩, some ⟨7, 0⟩, (none : Option Vec2)] : Fin 3 → Option Vec2) 1
        = some (Vec2.mk 7 0) from rfl]
    dsimp only
    rw [haccum1, hdil1, hweight1, add_zero, if_neg (by norm_num)]
    refine congrArg some ?_
    show Vec2.mk 7 0 + _ = _
    ext <;> push_cast <;> norm_num
  · -- the skip-missing model: only the fully resolvable edge contributes
    have hsk0 : edge_offset_skipping (SoftBody.new 3 0 0)
        ![some ⟨3, 0⟩, some ⟨7, 0⟩, none] 0 = Vec2.mk 2 0 := by
      unfold edge_offset_skipping
      show (let diff := Vec2.mk 7 0 - Vec2.mk 3 0
            let len := diff.length
            if 0 < len ∧ (SoftBody.new 3 0 0).chord_length < len then
              ((len - (SoftBody.new 3 0 0).chord_length) * (1 / 2) / len) • diff
            else 0) = Vec2.mk 2 0
      dsimp only
      rw [show Vec2.mk (7 : ℝ) 0 - Vec2.mk 3 0 = Vec2.mk 4 0 from by ext <;> norm_num]
      rw [hlen 4 0 4 (by norm_num) (by norm_num), hchord0]
      rw [if_pos (by norm_num)]
      ext <;> norm_num
    have hsk1 : edge_offset_skipping (SoftBody.new 3 0 0)
        ![some ⟨3, 0⟩, some ⟨7, 0⟩, none] 1 = 0 := rfl
    have hskw0 : edge_weight_skipping (SoftBody.new 3 0 0)
        ![some ⟨3, 0⟩, some ⟨7, 0⟩, none] 0 = 1 := by
      unfold edge_weight_skipping
      show (let diff := Vec2.mk 7 0 - Vec2.mk 3 0
            let len := diff.length
            if 0 < len ∧ (SoftBody.new 3 0 0).chord_length < len then 1 else 0) = 1
      dsimp only
      rw [show Vec2.mk (7 : ℝ) 0 - Vec2.mk 3 0 = Vec2.mk 4 0 from by ext <;> norm_num]
      rw [hlen 4 0 4 (by norm_num) (by norm_num), hchord0]
      rw [if_pos (by norm_num)]
    have hskw1 : edge_weight_skipping (SoftBody.new 3 0 0)
        ![some ⟨3, 0⟩, some ⟨7, 0⟩, none] 1 = 0 := rfl
    unfold solver_iteration_skipping
    dsimp only
    rw [show (![some ⟨3, 0⟩, some ⟨7, 0⟩, (none : Option Vec2)] : Fin 3 → Option Vec2) 1
        = some (Vec2.mk 7 0) from rfl]
    dsimp only
    rw [show ((1 : Fin 3) - 1) = 0 from rfl, hsk0, hsk1, hskw0, hskw1, hdil1, add_zero,
      if_neg (by norm_num)]
    refine congrArg some ?_
    show Vec2.mk 7 0 + _ = _
    ext <;> push_cast <;> norm_num
  · intro h
    have hx := (Vec2.mk_eq_iff.mp h).1
    norm_num at hx

/-- C4 (amended): a ring (`N ≥ 3`) whose cyclic edges all have length exactly
`chord_length` AND whose signed polygon area equals `desired_area` is a fixed
point of the whole constraint solver (all `CONSTRAINT_ITERATIONS`
iterations): the distance pass fires on no edge, the dilation offset is zero,
and the apply step moves nothing.  Without the area condition the dilation
pass does move the ring (see the counterexample). -/
theorem C4_solver_fixed_point {n : ℕ} [NeZero n] (hn : 3 ≤ n) (soft : SoftBody)
    (eff : EffectorState) (P : Fin n → Vec2)
    (hedges : ∀ e : Fin n, (P (e + 1) - P e).length = soft.chord_length)
    (harea : polygon_area_signed P = soft.desired_area) :
    solver_phase soft false eff (fun j => some (P j)) = fun j => some (P j) := by
  have hoff : ∀ e : Fin n, edge_offset soft (fun j => some (P j)) e = 0 := by
    intro e
    unfold edge_offset
    dsimp only
    have hcond : ¬(0 < (read_pos (fun j => some (P j)) (e + 1)
        - read_pos (fun j => some (P j)) e).length ∧
        soft.chord_length < (read_pos (fun j => some (P j)) (e + 1)
          - read_pos (fun j => some (P j)) e).length) := by
      rw [show read_pos (fun j => some (P j)) (e + 1) - read_pos (fun j => some (P j)) e
          = P (e + 1) - P e from rfl, hedges e]
      intro hcc
      exact lt_irrefl _ hcc.2
    rw [if_neg hcond]
  have hiter : solver_iteration soft false eff (fun j => some (P j))
      = fun j => some (P j) := by
    funext i
    show solver_apply soft (fun j => some (P j)) i = some (P i)
    unfold solver_apply
    dsimp only
    have hacc : disp_accum soft (fun j => some (P j)) i = 0 := by
      unfold disp_accum
      rw [hoff i, hoff (i - 1), sub_zero]
    have hdil : dilation_corrections soft (fun j => some (P j)) i = 0 :=
      dilation_corrections_of_area_eq soft (fun j => some (P j)) i harea
    rw [hacc, hdil, add_zero, if_neg (Nat.succ_ne_zero _)]
    refine congrArg some ?_
    ext <;> simp
  unfold solver_phase
  exact Function.iterate_fixed hiter CONSTRAINT_ITERATIONS

/-- C4 witness: the fixed-point theorem applied to the unit square with chord
length 1, circumference 4 and desired area 1 (its actual area). -/
theorem C4_solver_fixed_point_witness :
    (∀ e : Fin 4, ((![⟨0, 0⟩, ⟨1, 0⟩, ⟨1, 1⟩, ⟨0, 1⟩] : Fin 4 → Vec2) (e + 1)
        - ![⟨0, 0⟩, ⟨1, 0⟩, ⟨1, 1⟩, ⟨0, 1⟩] e).length
      = (⟨4, 0, 0, 1, 4, 1⟩ : SoftBody).chord_length) ∧
    polygon_area_signed (![⟨0, 0⟩, ⟨1, 0⟩, ⟨1, 1⟩, ⟨0, 1⟩] : Fin 4 → Vec2)
      = (⟨4, 0, 0, 1, 4, 1⟩ : SoftBody).desired_area ∧
    solver_phase (⟨4, 0, 0, 1, 4, 1⟩ : SoftBody) false eff_idle
        (fun j => some ((![⟨0, 0⟩, ⟨1, 0⟩, ⟨1, 1⟩, ⟨0, 1⟩] : Fin 4 → Vec2) j))
      = fun j => some ((![⟨0, 0⟩, ⟨1, 0⟩, ⟨1, 1⟩, ⟨0, 1⟩] : Fin 4 → Vec2) j) := by
  have hlen : ∀ a b c : ℝ, 0 ≤ c → a * a + b * b = c ^ 2 → (Vec2.mk a b).length = c := by
    intro a b c hc h
    exact Vec2.length_eq_of_sq hc h
  have hedges : ∀ e : Fin 4, ((![⟨0, 0⟩, ⟨1, 0⟩, ⟨1, 1⟩, ⟨0, 1⟩] : Fin 4 → Vec2) (e + 1)
      - ![⟨0, 0⟩, ⟨1, 0⟩, ⟨1, 1⟩, ⟨0, 1⟩] e).length
      = (⟨4, 0, 0, 1, 4, 1⟩ : SoftBody).chord_length := by
    intro e
    show _ = (1 : ℝ)
    fin_cases e
    · show (Vec2.mk (1 : ℝ) 0 - Vec2.mk 0 0).length = 1
      rw [show Vec2.mk (1 : ℝ) 0 - Vec2.mk 0 0 = Vec2.mk 1 0 from by ext <;> norm_num]
      exact hlen 1 0 1 (by norm_num) (by norm_num)
    · show (Vec2.mk (1 : ℝ) 1 - Vec2.mk 1 0).length = 1
      rw [show Vec2.mk (1 : ℝ) 1 - Vec2.mk 1 0 = Vec2.mk 0 1 from by ext <;> norm_num]
      exact hlen 0 1 1 (by norm_num) (by norm_num)
    · show (Vec2.mk (0 : ℝ) 1 - Vec2.mk 1 1).length = 1
      rw [show Vec2.mk (0 : ℝ) 1 - Vec2.mk 1 1 = Vec2.mk (-1) 0 from by ext <;> norm_num]
      exact hlen (-1) 0 1 (by norm_num) (by norm_num)
    · show (Vec2.mk (0 : ℝ) 0 - Vec2.mk 0 1).length = 1
      rw [show Vec2.mk (0 : ℝ) 0 - Vec2.mk 0 1 = Vec2.mk 0 (-1) from by ext <;> norm_num]
      exact hlen 0 (-1) 1 (by norm_num) (by norm_num)
  have harea : polygon_area_signed (![⟨0, 0⟩, ⟨1, 0⟩, ⟨1, 1⟩, ⟨0, 1⟩] : Fin 4 → Vec2)
      = (⟨4, 0, 0, 1, 4, 1⟩ : SoftBody).desired_area := by
    show _ = (1 : ℝ)
    unfold polygon_area_signed
    rw [if_neg (by norm_num)]
    rw [Fin.sum_univ_four]
    rw [show ((0 : Fin 4) + 1) = 1 from rfl, show ((1 : Fin 4) + 1) = 2 from rfl,
      show ((2 : Fin 4) + 1) = 3 from rfl, show ((3 : Fin 4) + 1) = 0 from rfl]
    show ((Vec2.mk 0 0).x - (Vec2.mk 1 0).x) * ((Vec2.mk 0 0).y + (Vec2.mk 1 0).y) * (1 / 2)
        + ((Vec2.mk 1 0).x - (Vec2.mk 1 1).x) * ((Vec2.mk 1 0).y + (Vec2.mk 1 1).y) * (1 / 2)
        + ((Vec2.mk 1 1).x - (Vec2.mk 0 1).x) * ((Vec2.mk 1 1).y + (Vec2.mk 0 1).y) * (1 / 2)
        + ((Vec2.mk 0 1).x - (Vec2.mk 0 0).x) * ((Vec2.mk 0 1).y + (Vec2.mk 0 0).y) * (1 / 2)
        = 1
    norm_num
  exact ⟨hedges, harea,
    C4_solver_fixed_point (by norm_num) ⟨4, 0, 0, 1, 4, 1⟩ eff_idle _ hedges harea⟩

/-- Indexing a flat-map of two-element blocks: entry `2k` is `f` of entry
`k`, entry `2k + 1` is `g` of entry `k`. -/
theorem flatMap_pairs_getElem {α β : Type} (l : List α) (f g : α → β) :
    ∀ k : ℕ,
      (l.flatMap fun a => [f a, g a])[2 * k]? = (l[k]?).map f ∧
      (l.flatMap fun a => [f a, g a])[2 * k + 1]? = (l[k]?).map g := by
  induction l with
  | nil => intro k; simp
  | cons a l ih =>
    intro k
    cases k with
    | zero => simp [List.flatMap_cons]
    | succ k =>
      have h2 : 2 * (k + 1) = (2 * k + 1) + 1 := by ring
      rw [h2]
      simpa [List.flatMap_cons] using ih k

/-- The length of a flat-map of two-element blocks is twice the length. -/
theorem flatMap_pairs_length {α β : Type} (l : List α) (f g : α → β) :
    (l.flatMap fun a => [f a, g a]).length = 2 * l.length := by
  induction l with
  | nil => simp
  | cons a l ih => simp [List.flatMap_cons, ih]; ring

/-- C7: the outline smoother is a pure function; for every closed ring of
`N ≥ 3` points it returns exactly `2N` points, emitting for each cyclic edge
`(a, b)` the two points at interpolation parameters `0.25` and `0.75` along
the edge, in ring order, and for every ring of fewer than 3 points it
returns the input unchanged. -/
theorem C7_chaikin_smoothing (input : List Vec2) :
    (input.length < 3 → chaikin_closed_once input = input) ∧
    (3 ≤ input.length →
      (chaikin_closed_once input).length = 2 * input.length ∧
      ∀ (i : ℕ) (hi : i < input.length)
        (hj : (i + 1) % input.length < input.length),
        (chaikin_closed_once input)[2 * i]?
          = some ((input.get ⟨i, hi⟩).lerp (input.get ⟨(i + 1) % input.length, hj⟩) (1 / 4)) ∧
        (chaikin_closed_once input)[2 * i + 1]?
          = some ((input.get ⟨i, hi⟩).lerp (input.get ⟨(i + 1) % input.length, hj⟩) (3 / 4))) := by
  constructor
  · intro h
    unfold chaikin_closed_once
    rw [if_pos h]
  · intro h
    have hnot : ¬ input.length < 3 := not_lt.mpr h
    constructor
    · unfold chaikin_closed_once
      rw [if_neg hnot]
      rw [flatMap_pairs_length (List.finRange input.length)
        (fun i => (input.get i).lerp
          (input.get ⟨(i.val + 1) % input.length, Nat.mod_lt _ i.pos⟩) (1 / 4))
        (fun i => (input.get i).lerp
          (input.get ⟨(i.val + 1) % input.length, Nat.mod_lt _ i.pos⟩) (3 / 4))]
      rw [List.length_finRange]
    · intro i hi hj
      have hfin : (List.finRange input.length)[i]? = some ⟨i, hi⟩ := by
        rw [List.getElem?_eq_getElem (by simpa using hi)]
        simp
      unfold chaikin_closed_once
      rw [if_neg hnot]
      constructor
      · rw [(flatMap_pairs_getElem (List.finRange input.length) _ _ i).1, hfin]
        rfl
      · rw [(flatMap_pairs_getElem (List.finRange input.length) _ _ i).2, hfin]
        rfl

/-- C7 witness: smoothing a concrete triangle yields six points. -/
theorem C7_chaikin_smoothing_witness :
    3 ≤ ([⟨0, 0⟩, ⟨4, 0⟩, ⟨0, 4⟩] : List Vec2).length ∧
    (chaikin_closed_once [⟨0, 0⟩, ⟨4, 0⟩, ⟨0, 4⟩]).length
      = 2 * ([⟨0, 0⟩, ⟨4, 0⟩, ⟨0, 4⟩] : List Vec2).length :=
  ⟨by simp, ((C7_chaikin_smoothing [⟨0, 0⟩, ⟨4, 0⟩, ⟨0, 4⟩]).2 (by simp)).1⟩

/-- C10: soft-body construction seeds every particle's acceleration
accumulator with the gravity vector, and the tick adds the constant gravity
again before integrating, so the first tick of a newly constructed soft body
integrates with effective acceleration `2 • GRAVITY`, while after any
integration step the accumulator is zeroed, so the next tick integrates with
exactly one gravity contribution. -/
theorem C10_double_gravity_first_tick (center : Vec2) (num_points : ℕ)
    (ring_radius : ℝ) (initial_vel : Vec2) (vis_radius mass bounciness : ℝ)
    (i : ℕ) (half : Vec2) (dt : ℝ) (p q : Point) :
    (spawn_point center num_points ring_radius initial_vel GRAVITY vis_radius
        mass bounciness i).acceleration = GRAVITY ∧
    (spawn_point center num_points ring_radius initial_vel GRAVITY vis_radius
        mass bounciness i).acceleration + GRAVITY = (2 : ℝ) • GRAVITY ∧
    free_next dt p = p.position + damping_per_tick dt • (p.position - p.previous_position)
      + (dt * dt) • (p.acceleration + GRAVITY) ∧
    (integrate half dt q).acceleration = 0 ∧
    (integrate half dt q).acceleration + GRAVITY = (1 : ℝ) • GRAVITY := by
  refine ⟨rfl, ?_, rfl, rfl, ?_⟩
  · show GRAVITY + GRAVITY = (2 : ℝ) • GRAVITY
    rw [two_smul]
  · show (0 : Vec2) + GRAVITY = (1 : ℝ) • GRAVITY
    rw [zero_add, one_smul]

/-! Helper lemmas about `unit_dir` and `regular_ring`, used to analyse the
constraint solver on regular polygon rings. -/

theorem unit_dir_length (θ : ℝ) : (unit_dir θ).length = 1 := by
  apply Vec2.length_eq_of_sq (by norm_num)
  unfold unit_dir Vec2.length_squared
  simp only [Vec2.mk_x, Vec2.mk_y]
  linear_combination Real.sin_sq_add_cos_sq θ

theorem perp_unit_length_squared (θ : ℝ) :
    (Vec2.mk (-Real.sin θ) (Real.cos θ)).length_squared = 1 := by
  unfold Vec2.length_squared
  simp only [Vec2.mk_x, Vec2.mk_y]
  linear_combination Real.sin_sq_add_cos_sq θ

theorem perp_unit_length (θ : ℝ) :
    (Vec2.mk (-Real.sin θ) (Real.cos θ)).length = 1 := by
  apply Vec2.length_eq_of_sq (by norm_num)
  rw [perp_unit_length_squared]
  norm_num

theorem Vec2.length_squared_smul (c : ℝ) (v : Vec2) :
    (c • v).length_squared = c ^ 2 * v.length_squared := by
  unfold Vec2.length_squared
  simp only [Vec2.smul_x, Vec2.smul_y]
  ring

theorem normalize_smul_of_unit {k : ℝ} (hk : 0 < k) {w : Vec2} (hw : w.length = 1) :
    (k • w).normalize = w := by
  have hl : (k • w).length = k := by
    rw [Vec2.length_smul, hw, mul_one, abs_of_pos hk]
  unfold Vec2.normalize
  rw [hl]
  ext
  · show k * w.x / k = w.x
    exact mul_div_cancel_left₀ w.x hk.ne'
  · show k * w.y / k = w.y
    exact mul_div_cancel_left₀ w.y hk.ne'

theorem unit_dir_add_int_mul (x : ℝ) (m : ℤ) :
    unit_dir (x + (m : ℝ) * (2 * Real.pi)) = unit_dir x := by
  unfold unit_dir
  ext
  · exact Real.cos_add_int_mul_two_pi x m
  · exact Real.sin_add_int_mul_two_pi x m

theorem angle_mod_eq (n k : ℕ) (ψ φ : ℝ) (hφ : (n : ℝ) * φ = 2 * Real.pi) :
    ψ + ((k % n : ℕ) : ℝ) * φ
      = (ψ + (k : ℝ) * φ) + ((-((k / n : ℕ) : ℤ) : ℤ) : ℝ) * (2 * Real.pi) := by
  have hmod : ((k % n : ℕ) : ℝ) + (n : ℝ) * ((k / n : ℕ) : ℝ) = (k : ℝ) := by
    exact_mod_cast Nat.mod_add_div k n
  have hz : ((-((k / n : ℕ) : ℤ) : ℤ) : ℝ) = -((k / n : ℕ) : ℝ) := by
    rw [Int.cast_neg, Int.cast_natCast]
  rw [hz]
  linear_combination φ * hmod - ((k / n : ℕ) : ℝ) * hφ

theorem regular_ring_succ {n : ℕ} [NeZero n] (c : Vec2) (r ψ : ℝ) (i : Fin n) :
    regular_ring n c r ψ (i + 1)
      = c + r • unit_dir (ψ + ((i.val : ℝ) + 1) * (2 * Real.pi / (n : ℝ))) := by
  have hn0 : (n : ℝ) ≠ 0 := Nat.cast_ne_zero.mpr (NeZero.ne n)
  have hφ : (n : ℝ) * (2 * Real.pi / (n : ℝ)) = 2 * Real.pi := by field_simp
  have hv : ((i + 1 : Fin n)).val = (i.val + 1) % n := by
    rw [Fin.val_add, Fin.val_one']
    rw [Nat.add_comm i.val (1 % n), Nat.mod_add_mod, Nat.add_comm 1 i.val]
  unfold regular_ring
  rw [hv, angle_mod_eq n (i.val + 1) ψ _ hφ, unit_dir_add_int_mul]
  push_cast
  ring_nf

theorem regular_ring_pred {n : ℕ} [NeZero n] (hn : 2 ≤ n) (c : Vec2) (r ψ : ℝ)
    (i : Fin n) :
    regular_ring n c r ψ (i - 1)
      = c + r • unit_dir (ψ + ((i.val : ℝ) - 1) * (2 * Real.pi / (n : ℝ))) := by
  have hn0 : (n : ℝ) ≠ 0 := Nat.cast_ne_zero.mpr (NeZero.ne n)
  have hφ : (n : ℝ) * (2 * Real.pi / (n : ℝ)) = 2 * Real.pi := by field_simp
  have h1n : (1 : Fin n).val = 1 := by
    rw [Fin.val_one', Nat.mod_eq_of_lt (by omega)]
  have hv : ((i - 1 : Fin n)).val = (i.val + (n - 1)) % n := by
    rw [Fin.sub_def, h1n]
    show (n - 1 + i.val) % n = (i.val + (n - 1)) % n
    rw [Nat.add_comm]
  unfold regular_ring
  rw [hv, angle_mod_eq n (i.val + (n - 1)) ψ _ hφ, unit_dir_add_int_mul]
  have harg : ψ + ((i.val + (n - 1) : ℕ) : ℝ) * (2 * Real.pi / (n : ℝ))
      = (ψ + ((i.val : ℝ) - 1) * (2 * Real.pi / (n : ℝ))) + ((1 : ℤ) : ℝ) * (2 * Real.pi) := by
    have hcast : ((n - 1 : ℕ) : ℝ) = (n : ℝ) - 1 := by
      rw [Nat.cast_sub (by omega)]
      norm_num
    push_cast [hcast]
    linear_combination hφ
  rw [harg, unit_dir_add_int_mul]

theorem read_pos_some {n : ℕ} (P : Fin n → Vec2) (i : Fin n) :
    read_pos (fun j => some (P j)) i = P i := rfl

theorem regular_ring_edge {n : ℕ} [NeZero n] (c : Vec2) (r ψ : ℝ) (i : Fin n) :
    regular_ring n c r ψ (i + 1) - regular_ring n c r ψ i
      = (2 * r * Real.sin (Real.pi / (n : ℝ)))
          • Vec2.mk (-Real.sin (ψ + ((i.val : ℝ) + 1 / 2) * (2 * Real.pi / (n : ℝ))))
              (Real.cos (ψ + ((i.val : ℝ) + 1 / 2) * (2 * Real.pi / (n : ℝ)))) := by
  rw [regular_ring_succ]
  unfold regular_ring unit_dir
  have hx := Real.cos_sub_cos (ψ + ((i.val : ℝ) + 1) * (2 * Real.pi / (n : ℝ)))
    (ψ + (i.val : ℝ) * (2 * Real.pi / (n : ℝ)))
  have hy := Real.sin_sub_sin (ψ + ((i.val : ℝ) + 1) * (2 * Real.pi / (n : ℝ)))
    (ψ + (i.val : ℝ) * (2 * Real.pi / (n : ℝ)))
  rw [show (ψ + ((i.val : ℝ) + 1) * (2 * Real.pi / (n : ℝ))
        + (ψ + (i.val : ℝ) * (2 * Real.pi / (n : ℝ)))) / 2
      = ψ + ((i.val : ℝ) + 1 / 2) * (2 * Real.pi / (n : ℝ)) from by ring,
    show (ψ + ((i.val : ℝ) + 1) * (2 * Real.pi / (n : ℝ))
        - (ψ + (i.val : ℝ) * (2 * Real.pi / (n : ℝ)))) / 2
      = Real.pi / (n : ℝ) from by ring] at hx hy
  ext
  · simp only [Vec2.sub_x, Vec2.add_x, Vec2.smul_x, Vec2.mk_x]
    linear_combination r * hx
  · simp only [Vec2.sub_y, Vec2.add_y, Vec2.smul_y, Vec2.mk_y]
    linear_combination r * hy

theorem regular_ring_edge_pred {n : ℕ} [NeZero n] (hn : 2 ≤ n) (c : Vec2) (r ψ : ℝ)
    (i : Fin n) :
    regular_ring n c r ψ i - regular_ring n c r ψ (i - 1)
      = (2 * r * Real.sin (Real.pi / (n : ℝ)))
          • Vec2.mk (-Real.sin (ψ + ((i.val : ℝ) - 1 / 2) * (2 * Real.pi / (n : ℝ))))
              (Real.cos (ψ + ((i.val : ℝ) - 1 / 2) * (2 * Real.pi / (n : ℝ)))) := by
  rw [regular_ring_pred hn]
  unfold regular_ring unit_dir
  have hx := Real.cos_sub_cos (ψ + (i.val : ℝ) * (2 * Real.pi / (n : ℝ)))
    (ψ + ((i.val : ℝ) - 1) * (2 * Real.pi / (n : ℝ)))
  have hy := Real.sin_sub_sin (ψ + (i.val : ℝ) * (2 * Real.pi / (n : ℝ)))
    (ψ + ((i.val : ℝ) - 1) * (2 * Real.pi / (n : ℝ)))
  rw [show (ψ + (i.val : ℝ) * (2 * Real.pi / (n : ℝ))
        + (ψ + ((i.val : ℝ) - 1) * (2 * Real.pi / (n : ℝ)))) / 2
      = ψ + ((i.val : ℝ) - 1 / 2) * (2 * Real.pi / (n : ℝ)) from by ring,
    show (ψ + (i.val : ℝ) * (2 * Real.pi / (n : ℝ))
        - (ψ + ((i.val : ℝ) - 1) * (2 * Real.pi / (n : ℝ)))) / 2
      = Real.pi / (n : ℝ) from by ring] at hx hy
  ext
  · simp only [Vec2.sub_x, Vec2.add_x, Vec2.smul_x, Vec2.mk_x]
    linear_combination r * hx
  · simp only [Vec2.sub_y, Vec2.add_y, Vec2.smul_y, Vec2.mk_y]
    linear_combination r * hy

theorem regular_ring_secant {n : ℕ} [NeZero n] (hn : 2 ≤ n) (c : Vec2) (r ψ : ℝ)
    (i : Fin n) :
    regular_ring n c r ψ (i + 1) - regular_ring n c r ψ (i - 1)
      = (2 * r * Real.sin (2 * Real.pi / (n : ℝ)))
          • Vec2.mk (-Real.sin (ψ + (i.val : ℝ) * (2 * Real.pi / (n : ℝ))))
              (Real.cos (ψ + (i.val : ℝ) * (2 * Real.pi / (n : ℝ)))) := by
  rw [regular_ring_succ, regular_ring_pred hn]
  unfold unit_dir
  have hx := Real.cos_sub_cos (ψ + ((i.val : ℝ) + 1) * (2 * Real.pi / (n : ℝ)))
    (ψ + ((i.val : ℝ) - 1) * (2 * Real.pi / (n : ℝ)))
  have hy := Real.sin_sub_sin (ψ + ((i.val : ℝ) + 1) * (2 * Real.pi / (n : ℝ)))
    (ψ + ((i.val : ℝ) - 1) * (2 * Real.pi / (n : ℝ)))
  rw [show (ψ + ((i.val : ℝ) + 1) * (2 * Real.pi / (n : ℝ))
        + (ψ + ((i.val : ℝ) - 1) * (2 * Real.pi / (n : ℝ)))) / 2
      = ψ + (i.val : ℝ) * (2 * Real.pi / (n : ℝ)) from by ring,
    show (ψ + ((i.val : ℝ) + 1) * (2 * Real.pi / (n : ℝ))
        - (ψ + ((i.val : ℝ) - 1) * (2 * Real.pi / (n : ℝ)))) / 2
      = 2 * Real.pi / (n : ℝ) from by ring] at hx hy
  ext
  · simp only [Vec2.sub_x, Vec2.add_x, Vec2.smul_x, Vec2.mk_x]
    linear_combination r * hx
  · simp only [Vec2.sub_y, Vec2.add_y, Vec2.smul_y, Vec2.mk_y]
    linear_combination r * hy

theorem regular_edge_len {n : ℕ} [NeZero n] (c : Vec2) (r ψ : ℝ) (hr : 0 ≤ r)
    (hs : 0 ≤ Real.sin (Real.pi / (n : ℝ))) (i : Fin n) :
    (regular_ring n c r ψ (i + 1) - regular_ring n c r ψ i).length
      = 2 * r * Real.sin (Real.pi / (n : ℝ)) := by
  rw [regular_ring_edge, Vec2.length_smul, perp_unit_length, mul_one,
    abs_of_nonneg (mul_nonneg (mul_nonneg (by norm_num) hr) hs)]

theorem regular_edge_len_pred {n : ℕ} [NeZero n] (hn : 2 ≤ n) (c : Vec2) (r ψ : ℝ)
    (hr : 0 ≤ r) (hs : 0 ≤ Real.sin (Real.pi / (n : ℝ))) (i : Fin n) :
    (regular_ring n c r ψ i - regular_ring n c r ψ (i - 1)).length
      = 2 * r * Real.sin (Real.pi / (n : ℝ)) := by
  rw [regular_ring_edge_pred hn, Vec2.length_smul, perp_unit_length, mul_one,
    abs_of_nonneg (mul_nonneg (mul_nonneg (by norm_num) hr) hs)]

theorem regular_ring_area {n : ℕ} [NeZero n] (c : Vec2) (r ψ : ℝ) :
    polygon_area_signed (regular_ring n c r ψ)
      = (n : ℝ) / 2 * r ^ 2 * Real.sin (2 * Real.pi / (n : ℝ)) := by
  rw [polygon_area_signed_eq_shoelace]
  unfold shoelace_standard
  have key : ∀ i : Fin n,
      (regular_ring n c r ψ i).cross (regular_ring n c r ψ (i + 1)) * (1 / 2)
        = r ^ 2 * Real.sin (2 * Real.pi / (n : ℝ)) * (1 / 2)
          + ((fun j => -(Vec2.cross c (regular_ring n c r ψ j - c)) * (1 / 2)) i
             - (fun j => -(Vec2.cross c (regular_ring n c r ψ j - c)) * (1 / 2)) (i + 1)) := by
    intro i
    dsimp only
    rw [regular_ring_succ]
    unfold regular_ring unit_dir Vec2.cross
    simp only [Vec2.add_x, Vec2.add_y, Vec2.smul_x, Vec2.smul_y, Vec2.mk_x, Vec2.mk_y,
      Vec2.sub_x, Vec2.sub_y]
    have hsin := Real.sin_sub (ψ + ((i.val : ℝ) + 1) * (2 * Real.pi / (n : ℝ)))
      (ψ + (i.val : ℝ) * (2 * Real.pi / (n : ℝ)))
    rw [show ψ + ((i.val : ℝ) + 1) * (2 * Real.pi / (n : ℝ))
        - (ψ + (i.val : ℝ) * (2 * Real.pi / (n : ℝ))) = 2 * Real.pi / (n : ℝ) from by
      ring] at hsin
    linear_combination (-(r ^ 2 * (1 / 2))) * hsin
  rw [Finset.sum_congr rfl (fun i _ => key i), Finset.sum_add_distrib,
    sum_sub_cyclic (fun j => -(Vec2.cross c (regular_ring n c r ψ j - c)) * (1 / 2)),
    add_zero, Finset.sum_const, Finset.card_univ, Fintype.card_fin, nsmul_eq_mul]
  ring

theorem edge_offset_regular_stretched {n : ℕ} [NeZero n] (soft : SoftBody) (c : Vec2)
    (r ψ : ℝ) (hr : 0 < r) (hs : 0 < Real.sin (Real.pi / (n : ℝ)))
    (hst : soft.chord_length < 2 * r * Real.sin (Real.pi / (n : ℝ))) (e : Fin n) :
    edge_offset soft (fun j => some (regular_ring n c r ψ j)) e
      = ((2 * r * Real.sin (Real.pi / (n : ℝ)) - soft.chord_length) * (1 / 2))
          • Vec2.mk (-Real.sin (ψ + ((e.val : ℝ) + 1 / 2) * (2 * Real.pi / (n : ℝ))))
              (Real.cos (ψ + ((e.val : ℝ) + 1 / 2) * (2 * Real.pi / (n : ℝ)))) := by
  have hL : 0 < 2 * r * Real.sin (Real.pi / (n : ℝ)) :=
    mul_pos (by linarith) hs
  unfold edge_offset
  dsimp only
  rw [show read_pos (fun j => some (regular_ring n c r ψ j)) (e + 1)
      - read_pos (fun j => some (regular_ring n c r ψ j)) e
      = regular_ring n c r ψ (e + 1) - regular_ring n c r ψ e from rfl]
  rw [regular_edge_len c r ψ hr.le hs.le e]
  rw [if_pos ⟨hL, hst⟩, regular_ring_edge, smul_smul, div_mul_cancel₀ _ hL.ne']

theorem edge_offset_regular_slack {n : ℕ} [NeZero n] (soft : SoftBody) (c : Vec2)
    (r ψ : ℝ) (hr : 0 ≤ r) (hs : 0 ≤ Real.sin (Real.pi / (n : ℝ)))
    (hsl : 2 * r * Real.sin (Real.pi / (n : ℝ)) ≤ soft.chord_length) (e : Fin n) :
    edge_offset soft (fun j => some (regular_ring n c r ψ j)) e = 0 := by
  unfold edge_offset
  dsimp only
  rw [show read_pos (fun j => some (regular_ring n c r ψ j)) (e + 1)
      - read_pos (fun j => some (regular_ring n c r ψ j)) e
      = regular_ring n c r ψ (e + 1) - regular_ring n c r ψ e from rfl]
  rw [regular_edge_len c r ψ hr hs e]
  rw [if_neg]
  intro h
  exact absurd h.2 (not_lt.mpr hsl)

theorem edge_weight_regular_stretched {n : ℕ} [NeZero n] (soft : SoftBody) (c : Vec2)
    (r ψ : ℝ) (hr : 0 < r) (hs : 0 < Real.sin (Real.pi / (n : ℝ)))
    (hst : soft.chord_length < 2 * r * Real.sin (Real.pi / (n : ℝ))) (e : Fin n) :
    edge_weight soft (fun j => some (regular_ring n c r ψ j)) e = 1 := by
  have hL : 0 < 2 * r * Real.sin (Real.pi / (n : ℝ)) :=
    mul_pos (by linarith) hs
  unfold edge_weight
  dsimp only
  rw [show read_pos (fun j => some (regular_ring n c r ψ j)) (e + 1)
      - read_pos (fun j => some (regular_ring n c r ψ j)) e
      = regular_ring n c r ψ (e + 1) - regular_ring n c r ψ e from rfl]
  rw [regular_edge_len c r ψ hr.le hs.le e]
  rw [if_pos ⟨hL, hst⟩]

theorem edge_weight_regular_slack {n : ℕ} [NeZero n] (soft : SoftBody) (c : Vec2)
    (r ψ : ℝ) (hr : 0 ≤ r) (hs : 0 ≤ Real.sin (Real.pi / (n : ℝ)))
    (hsl : 2 * r * Real.sin (Real.pi / (n : ℝ)) ≤ soft.chord_length) (e : Fin n) :
    edge_weight soft (fun j => some (regular_ring n c r ψ j)) e = 0 := by
  unfold edge_weight
  dsimp only
  rw [show read_pos (fun j => some (regular_ring n c r ψ j)) (e + 1)
      - read_pos (fun j => some (regular_ring n c r ψ j)) e
      = regular_ring n c r ψ (e + 1) - regular_ring n c r ψ e from rfl]
  rw [regular_edge_len c r ψ hr hs e]
  rw [if_neg]
  intro h
  exact absurd h.2 (not_lt.mpr hsl)

theorem dist_weight_regular_stretched {n : ℕ} [NeZero n] (soft : SoftBody) (c : Vec2)
    (r ψ : ℝ) (hr : 0 < r) (hs : 0 < Real.sin (Real.pi / (n : ℝ)))
    (hst : soft.chord_length < 2 * r * Real.sin (Real.pi / (n : ℝ))) (i : Fin n) :
    dist_weight soft (fun j => some (regular_ring n c r ψ j)) i = 2 := by
  unfold dist_weight
  rw [edge_weight_regular_stretched soft c r ψ hr hs hst i,
    edge_weight_regular_stretched soft c r ψ hr hs hst (i - 1)]

theorem dist_weight_regular_slack {n : ℕ} [NeZero n] (soft : SoftBody) (c : Vec2)
    (r ψ : ℝ) (hr : 0 ≤ r) (hs : 0 ≤ Real.sin (Real.pi / (n : ℝ)))
    (hsl : 2 * r * Real.sin (Real.pi / (n : ℝ)) ≤ soft.chord_length) (i : Fin n) :
    dist_weight soft (fun j => some (regular_ring n c r ψ j)) i = 0 := by
  unfold dist_weight
  rw [edge_weight_regular_slack soft c r ψ hr hs hsl i,
    edge_weight_regular_slack soft c r ψ hr hs hsl (i - 1)]

theorem disp_accum_regular_stretched {n : ℕ} [NeZero n] (hn : 2 ≤ n) (soft : SoftBody)
    (c : Vec2) (r ψ : ℝ) (hr : 0 < r) (hs : 0 < Real.sin (Real.pi / (n : ℝ)))
    (hst : soft.chord_length < 2 * r * Real.sin (Real.pi / (n : ℝ))) (i : Fin n) :
    disp_accum soft (fun j => some (regular_ring n c r ψ j)) i
      = (-((2 * r * Real.sin (Real.pi / (n : ℝ)) - soft.chord_length)
            * Real.sin (Real.pi / (n : ℝ))))
          • unit_dir (ψ + (i.val : ℝ) * (2 * Real.pi / (n : ℝ))) := by
  have hL : 0 < 2 * r * Real.sin (Real.pi / (n : ℝ)) :=
    mul_pos (by linarith) hs
  have hpred : edge_offset soft (fun j => some (regular_ring n c r ψ j)) (i - 1)
      = ((2 * r * Real.sin (Real.pi / (n : ℝ)) - soft.chord_length) * (1 / 2))
          • Vec2.mk (-Real.sin (ψ + ((i.val : ℝ) - 1 / 2) * (2 * Real.pi / (n : ℝ))))
              (Real.cos (ψ + ((i.val : ℝ) - 1 / 2) * (2 * Real.pi / (n : ℝ)))) := by
    unfold edge_offset
    dsimp only
    rw [show read_pos (fun j => some (regular_ring n c r ψ j)) ((i - 1) + 1)
        - read_pos (fun j => some (regular_ring n c r ψ j)) (i - 1)
        = regular_ring n c r ψ ((i - 1) + 1) - regular_ring n c r ψ (i - 1) from rfl]
    rw [sub_add_cancel]
    rw [regular_edge_len_pred hn c r ψ hr.le hs.le i]
    rw [if_pos ⟨hL, hst⟩, regular_ring_edge_pred hn, smul_smul,
      div_mul_cancel₀ _ hL.ne']
  unfold disp_accum
  rw [edge_offset_regular_stretched soft c r ψ hr hs hst i, hpred]
  have hsx := Real.sin_sub_sin (ψ + ((i.val : ℝ) + 1 / 2) * (2 * Real.pi / (n : ℝ)))
    (ψ + ((i.val : ℝ) - 1 / 2) * (2 * Real.pi / (n : ℝ)))
  have hsy := Real.cos_sub_cos (ψ + ((i.val : ℝ) + 1 / 2) * (2 * Real.pi / (n : ℝ)))
    (ψ + ((i.val : ℝ) - 1 / 2) * (2 * Real.pi / (n : ℝ)))
  rw [show (ψ + ((i.val : ℝ) + 1 / 2) * (2 * Real.pi / (n : ℝ))
        - (ψ + ((i.val : ℝ) - 1 / 2) * (2 * Real.pi / (n : ℝ)))) / 2
      = Real.pi / (n : ℝ) from by ring,
    show (ψ + ((i.val : ℝ) + 1 / 2) * (2 * Real.pi / (n : ℝ))
        + (ψ + ((i.val : ℝ) - 1 / 2) * (2 * Real.pi / (n : ℝ)))) / 2
      = ψ + (i.val : ℝ) * (2 * Real.pi / (n : ℝ)) from by ring] at hsx hsy
  unfold unit_dir
  ext
  · simp only [Vec2.sub_x, Vec2.smul_x, Vec2.mk_x]
    linear_combination (-((2 * r * Real.sin (Real.pi / (n : ℝ)) - soft.chord_length)
      * (1 / 2))) * hsx
  · simp only [Vec2.sub_y, Vec2.smul_y, Vec2.mk_y]
    linear_combination ((2 * r * Real.sin (Real.pi / (n : ℝ)) - soft.chord_length)
      * (1 / 2)) * hsy

theorem disp_accum_regular_slack {n : ℕ} [NeZero n] (soft : SoftBody) (c : Vec2)
    (r ψ : ℝ) (hr : 0 ≤ r) (hs : 0 ≤ Real.sin (Real.pi / (n : ℝ)))
    (hsl : 2 * r * Real.sin (Real.pi / (n : ℝ)) ≤ soft.chord_length) (i : Fin n) :
    disp_accum soft (fun j => some (regular_ring n c r ψ j)) i = 0 := by
  unfold disp_accum
  rw [edge_offset_regular_slack soft c r ψ hr hs hsl i,
    edge_offset_regular_slack soft c r ψ hr hs hsl (i - 1), sub_zero]

theorem dilation_regular {n : ℕ} [NeZero n] (hn : 3 ≤ n) (soft : SoftBody) (c : Vec2)
    (r ψ : ℝ) (hr : 0 < r) (hcirc : soft.circumference ≠ 0) (i : Fin n) :
    dilation_corrections soft (fun j => some (regular_ring n c r ψ j)) i
      = ((soft.desired_area - (n : ℝ) / 2 * r ^ 2 * Real.sin (2 * Real.pi / (n : ℝ)))
          / soft.circumference)
          • unit_dir (ψ + (i.val : ℝ) * (2 * Real.pi / (n : ℝ))) := by
  have hn2 : 2 ≤ n := by omega
  have hnr : (0 : ℝ) < (n : ℝ) := by
    exact_mod_cast Nat.pos_of_ne_zero (by omega)
  have hφpos : 0 < Real.sin (2 * Real.pi / (n : ℝ)) := by
    apply Real.sin_pos_of_pos_of_lt_pi
    · positivity
    · rw [div_lt_iff₀ hnr]
      have h3 : (3 : ℝ) ≤ (n : ℝ) := by exact_mod_cast hn
      nlinarith [Real.pi_pos]
  unfold dilation_corrections
  dsimp only
  rw [show read_pos (fun j => some (regular_ring n c r ψ j)) = regular_ring n c r ψ
    from rfl]
  rw [regular_ring_area c r ψ, regular_ring_secant hn2 c r ψ i]
  rw [Vec2.length_squared_smul, perp_unit_length_squared, mul_one]
  rw [if_neg (ne_of_gt (pow_pos (mul_pos (mul_pos two_pos hr) hφpos) 2))]
  rw [if_pos hcirc]
  have hperp : Vec2.mk
      (((2 * r * Real.sin (2 * Real.pi / (n : ℝ)))
        • Vec2.mk (-Real.sin (ψ + (i.val : ℝ) * (2 * Real.pi / (n : ℝ))))
            (Real.cos (ψ + (i.val : ℝ) * (2 * Real.pi / (n : ℝ))))).y)
      (-((2 * r * Real.sin (2 * Real.pi / (n : ℝ)))
        • Vec2.mk (-Real.sin (ψ + (i.val : ℝ) * (2 * Real.pi / (n : ℝ))))
            (Real.cos (ψ + (i.val : ℝ) * (2 * Real.pi / (n : ℝ))))).x)
      = (2 * r * Real.sin (2 * Real.pi / (n : ℝ)))
          • unit_dir (ψ + (i.val : ℝ) * (2 * Real.pi / (n : ℝ))) := by
    unfold unit_dir
    ext
    · simp only [Vec2.mk_x, Vec2.smul_x, Vec2.smul_y, Vec2.mk_y]
    · simp only [Vec2.mk_y, Vec2.smul_y, Vec2.smul_x, Vec2.mk_x]
      ring
  rw [hperp, normalize_smul_of_unit (mul_pos (mul_pos two_pos hr) hφpos)
    (unit_dir_length _)]

theorem regular_step_stretched {n : ℕ} [NeZero n] (hn : 3 ≤ n) (soft : SoftBody)
    (eff : EffectorState) (c : Vec2) (r ψ : ℝ) (hr : 0 < r)
    (hcirc : soft.circumference ≠ 0) (hs : 0 < Real.sin (Real.pi / (n : ℝ)))
    (hst : soft.chord_length < 2 * r * Real.sin (Real.pi / (n : ℝ))) :
    solver_iteration soft false eff (fun j => some (regular_ring n c r ψ j))
      = fun j => some (regular_ring n c
          (r + ((soft.desired_area
                - (n : ℝ) / 2 * r ^ 2 * Real.sin (2 * Real.pi / (n : ℝ)))
                / soft.circumference
              - (2 * r * Real.sin (Real.pi / (n : ℝ)) - soft.chord_length)
                * Real.sin (Real.pi / (n : ℝ))) / 3) ψ j) := by
  have hn2 : 2 ≤ n := by omega
  funext i
  show solver_apply soft (fun j => some (regular_ring n c r ψ j)) i
    = some (regular_ring n c _ ψ i)
  unfold solver_apply
  dsimp only
  rw [disp_accum_regular_stretched hn2 soft c r ψ hr hs hst i,
    dilation_regular hn soft c r ψ hr hcirc i,
    dist_weight_regular_stretched soft c r ψ hr hs hst i]
  rw [if_neg (by norm_num : ¬(2 + 1 = 0))]
  refine congrArg some ?_
  unfold regular_ring unit_dir
  ext
  · simp only [Vec2.add_x, Vec2.smul_x, Vec2.mk_x, Vec2.sub_x]
    push_cast
    ring
  · simp only [Vec2.add_y, Vec2.smul_y, Vec2.mk_y, Vec2.sub_y]
    push_cast
    ring

theorem regular_step_slack {n : ℕ} [NeZero n] (hn : 3 ≤ n) (soft : SoftBody)
    (eff : EffectorState) (c : Vec2) (r ψ : ℝ) (hr : 0 < r)
    (hcirc : soft.circumference ≠ 0) (hs : 0 ≤ Real.sin (Real.pi / (n : ℝ)))
    (hsl : 2 * r * Real.sin (Real.pi / (n : ℝ)) ≤ soft.chord_length) :
    solver_iteration soft false eff (fun j => some (regular_ring n c r ψ j))
      = fun j => some (regular_ring n c
          (r + (soft.desired_area
              - (n : ℝ) / 2 * r ^ 2 * Real.sin (2 * Real.pi / (n : ℝ)))
              / soft.circumference) ψ j) := by
  funext i
  show solver_apply soft (fun j => some (regular_ring n c r ψ j)) i
    = some (regular_ring n c _ ψ i)
  unfold solver_apply
  dsimp only
  rw [disp_accum_regular_slack soft c r ψ hr.le hs hsl i,
    dilation_regular hn soft c r ψ hr hcirc i,
    dist_weight_regular_slack soft c r ψ hr.le hs hsl i]
  rw [if_neg (by norm_num : ¬(0 + 1 = 0))]
  refine congrArg some ?_
  unfold regular_ring unit_dir
  ext
  · simp only [Vec2.add_x, Vec2.smul_x, Vec2.mk_x, Vec2.zero_x]
    push_cast
    ring
  · simp only [Vec2.add_y, Vec2.smul_y, Vec2.mk_y, Vec2.zero_y]
    push_cast
    ring

theorem soft_sq_chord : (SoftBody.new 4 (2 / Real.pi) Real.pi).chord_length = 1 := by
  unfold SoftBody.new
  dsimp only
  push_cast
  field_simp
  ring

theorem soft_sq_circ : (SoftBody.new 4 (2 / Real.pi) Real.pi).circumference = 4 := by
  unfold SoftBody.new
  dsimp only
  field_simp
  ring

theorem soft_sq_des : (SoftBody.new 4 (2 / Real.pi) Real.pi).desired_area = 4 := by
  unfold SoftBody.new
  dsimp only
  field_simp
  ring

theorem sin4_half : Real.sin (Real.pi / ((4 : ℕ) : ℝ)) = Real.sqrt 2 / 2 := by
  rw [show ((4 : ℕ) : ℝ) = (4 : ℝ) from by norm_num, Real.sin_pi_div_four]

theorem sin4_full : Real.sin (2 * Real.pi / ((4 : ℕ) : ℝ)) = 1 := by
  rw [show 2 * Real.pi / ((4 : ℕ) : ℝ) = Real.pi / 2 from by push_cast; ring,
    Real.sin_pi_div_two]

theorem sq_bounds {r a b : ℝ} (ha : a < r) (hb : r < b) (h0 : 0 ≤ a) :
    a ^ 2 < r ^ 2 ∧ r ^ 2 < b ^ 2 := by
  constructor <;> nlinarith

theorem step4 (c : Vec2) (r : ℝ) (hr : 0 < r) (hst : 1 < r * Real.sqrt 2) :
    solver_iteration (SoftBody.new 4 (2 / Real.pi) Real.pi) false eff_idle
        (fun j => some (regular_ring 4 c r 0 j))
      = fun j => some (regular_ring 4 c
          (r + ((4 - 2 * r ^ 2) / 4 - (r * Real.sqrt 2 - 1) * (Real.sqrt 2 / 2)) / 3)
          0 j) := by
  have hs : 0 < Real.sin (Real.pi / ((4 : ℕ) : ℝ)) := by
    rw [sin4_half]
    positivity
  have hst' : (SoftBody.new 4 (2 / Real.pi) Real.pi).chord_length
      < 2 * r * Real.sin (Real.pi / ((4 : ℕ) : ℝ)) := by
    rw [soft_sq_chord, sin4_half]
    calc (1 : ℝ) < r * Real.sqrt 2 := hst
      _ = 2 * r * (Real.sqrt 2 / 2) := by ring
  have hcirc : (SoftBody.new 4 (2 / Real.pi) Real.pi).circumference ≠ 0 := by
    rw [soft_sq_circ]
    norm_num
  rw [regular_step_stretched (by norm_num) _ eff_idle c r 0 hr hcirc hs hst']
  rw [show r + (((SoftBody.new 4 (2 / Real.pi) Real.pi).desired_area
        - ((4 : ℕ) : ℝ) / 2 * r ^ 2 * Real.sin (2 * Real.pi / ((4 : ℕ) : ℝ)))
        / (SoftBody.new 4 (2 / Real.pi) Real.pi).circumference
      - (2 * r * Real.sin (Real.pi / ((4 : ℕ) : ℝ))
          - (SoftBody.new 4 (2 / Real.pi) Real.pi).chord_length)
        * Real.sin (Real.pi / ((4 : ℕ) : ℝ))) / 3
    = r + ((4 - 2 * r ^ 2) / 4 - (r * Real.sqrt 2 - 1) * (Real.sqrt 2 / 2)) / 3 from by
    rw [soft_sq_des, soft_sq_circ, soft_sq_chord, sin4_half, sin4_full]
    push_cast
    ring]

theorem step4_slack :
    solver_iteration (SoftBody.new 4 (2 / Real.pi) Real.pi) false eff_idle
        (fun j => some (regular_ring 4 0 (Real.sqrt 2 / 2) 0 j))
      = fun j => some (regular_ring 4 0 (Real.sqrt 2 / 2 + 3 / 4) 0 j) := by
  have h2 : Real.sqrt 2 * Real.sqrt 2 = 2 := Real.mul_self_sqrt (by norm_num)
  have hs : 0 ≤ Real.sin (Real.pi / ((4 : ℕ) : ℝ)) := by
    rw [sin4_half]
    positivity
  have hr : 0 < Real.sqrt 2 / 2 := by positivity
  have hsl : 2 * (Real.sqrt 2 / 2) * Real.sin (Real.pi / ((4 : ℕ) : ℝ))
      ≤ (SoftBody.new 4 (2 / Real.pi) Real.pi).chord_length := by
    rw [sin4_half, soft_sq_chord]
    nlinarith [h2]
  have hcirc : (SoftBody.new 4 (2 / Real.pi) Real.pi).circumference ≠ 0 := by
    rw [soft_sq_circ]
    norm_num
  rw [regular_step_slack (by norm_num) _ eff_idle 0 (Real.sqrt 2 / 2) 0 hr hcirc hs hsl]
  rw [show Real.sqrt 2 / 2 + ((SoftBody.new 4 (2 / Real.pi) Real.pi).desired_area
        - ((4 : ℕ) : ℝ) / 2 * (Real.sqrt 2 / 2) ^ 2 * Real.sin (2 * Real.pi / ((4 : ℕ) : ℝ)))
        / (SoftBody.new 4 (2 / Real.pi) Real.pi).circumference
      = Real.sqrt 2 / 2 + 3 / 4 from by
    rw [soft_sq_des, soft_sq_circ, sin4_full]
    push_cast
    linear_combination (-(1 / 8 : ℝ)) * h2]

set_option maxHeartbeats 1000000 in
theorem solver4_moves :
    ∃ r' : ℝ, 1.1 < r' ∧ r' < 1.11 ∧
      solver_phase (SoftBody.new 4 (2 / Real.pi) Real.pi) false eff_idle
          (fun j => some (regular_ring 4 0 (Real.sqrt 2 / 2) 0 j))
        = fun j => some (regular_ring 4 0 r' 0 j) := by
  have h2 : Real.sqrt 2 * Real.sqrt 2 = 2 := Real.mul_self_sqrt (by norm_num)
  have hs2lo : (1.4142135 : ℝ) < Real.sqrt 2 :=
    (Real.lt_sqrt (by norm_num)).mpr (by norm_num)
  have hs2hi : Real.sqrt 2 < (1.4142136 : ℝ) :=
    (Real.sqrt_lt' (by norm_num)).mpr (by norm_num)
  have hform : ∀ r : ℝ,
      r + ((4 - 2 * r ^ 2) / 4 - (r * Real.sqrt 2 - 1) * (Real.sqrt 2 / 2)) / 3
        = 2 * r / 3 - r ^ 2 / 6 + 1 / 3 + Real.sqrt 2 / 6 := by
    intro r
    linear_combination (-(r / 6)) * h2
  unfold solver_phase
  rw [show CONSTRAINT_ITERATIONS = 10 from rfl]
  rw [show (solver_iteration (SoftBody.new 4 (2 / Real.pi) Real.pi) false eff_idle)^[10]
        (fun j => some (regular_ring 4 0 (Real.sqrt 2 / 2) 0 j))
      = (solver_iteration (SoftBody.new 4 (2 / Real.pi) Real.pi) false eff_idle)^[9]
        ((solver_iteration (SoftBody.new 4 (2 / Real.pi) Real.pi) false eff_idle)
          (fun j => some (regular_ring 4 0 (Real.sqrt 2 / 2) 0 j)))
    from Function.iterate_succ_apply _ 9 _, step4_slack]
  set r1 : ℝ := Real.sqrt 2 / 2 + 3 / 4 with hr1
  clear_value r1
  have ha1 : (1.457106 : ℝ) < r1 := by
    rw [hr1]
    linarith
  have hb1 : r1 < (1.457107 : ℝ) := by
    rw [hr1]
    linarith
  clear hr1
  rw [show (solver_iteration (SoftBody.new 4 (2 / Real.pi) Real.pi) false eff_idle)^[9]
        (fun j => some (regular_ring 4 0 r1 0 j))
      = (solver_iteration (SoftBody.new 4 (2 / Real.pi) Real.pi) false eff_idle)^[8]
        ((solver_iteration (SoftBody.new 4 (2 / Real.pi) Real.pi) false eff_idle)
          (fun j => some (regular_ring 4 0 r1 0 j)))
    from Function.iterate_succ_apply _ 8 _,
    step4 0 r1 (by linarith) (by nlinarith [ha1, hs2lo])]
  set r2 : ℝ := r1 + ((4 - 2 * r1 ^ 2) / 4
    - (r1 * Real.sqrt 2 - 1) * (Real.sqrt 2 / 2)) / 3 with hr2
  clear_value r2
  obtain ⟨hql2, hqh2⟩ := sq_bounds ha1 hb1 (by norm_num)
  have ha2 : (1.18657 : ℝ) < r2 := by
    rw [hr2, hform r1]
    linarith
  have hb2 : r2 < (1.18659 : ℝ) := by
    rw [hr2, hform r1]
    linarith
  clear hql2 hqh2 hr2 ha1 hb1 r1
  rw [show (solver_iteration (SoftBody.new 4 (2 / Real.pi) Real.pi) false eff_idle)^[8]
        (fun j => some (regular_ring 4 0 r2 0 j))
      = (solver_iteration (SoftBody.new 4 (2 / Real.pi) Real.pi) false eff_idle)^[7]
        ((solver_iteration (SoftBody.new 4 (2 / Real.pi) Real.pi) false eff_idle)
          (fun j => some (regular_ring 4 0 r2 0 j)))
    from Function.iterate_succ_apply _ 7 _,
    step4 0 r2 (by linarith) (by nlinarith [ha2, hs2lo])]
  set r3 : ℝ := r2 + ((4 - 2 * r2 ^ 2) / 4
    - (r2 * Real.sqrt 2 - 1) * (Real.sqrt 2 / 2)) / 3 with hr3
  clear_value r3
  obtain ⟨hql3, hqh3⟩ := sq_bounds ha2 hb2 (by norm_num)
  have ha3 : (1.12541 : ℝ) < r3 := by
    rw [hr3, hform r2]
    linarith
  have hb3 : r3 < (1.12544 : ℝ) := by
    rw [hr3, hform r2]
    linarith
  clear hql3 hqh3 hr3 ha2 hb2 r2
  rw [show (solver_iteration (SoftBody.new 4 (2 / Real.pi) Real.pi) false eff_idle)^[7]
        (fun j => some (regular_ring 4 0 r3 0 j))
      = (solver_iteration (SoftBody.new 4 (2 / Real.pi) Real.pi) false eff_idle)^[6]
        ((solver_iteration (SoftBody.new 4 (2 / Real.pi) Real.pi) false eff_idle)
          (fun j => some (regular_ring 4 0 r3 0 j)))
    from Function.iterate_succ_apply _ 6 _,
    step4 0 r3 (by linarith) (by nlinarith [ha3, hs2lo])]
  set r4 : ℝ := r3 + ((4 - 2 * r3 ^ 2) / 4
    - (r3 * Real.sqrt 2 - 1) * (Real.sqrt 2 / 2)) / 3 with hr4
  clear_value r4
  obtain ⟨hql4, hqh4⟩ := sq_bounds ha3 hb3 (by norm_num)
  have ha4 : (1.1082 : ℝ) < r4 := by
    rw [hr4, hform r3]
    linarith
  have hb4 : r4 < (1.10824 : ℝ) := by
    rw [hr4, hform r3]
    linarith
  clear hql4 hqh4 hr4 ha3 hb3 r3
  rw [show (solver_iteration (SoftBody.new 4 (2 / Real.pi) Real.pi) false eff_idle)^[6]
        (fun j => some (regular_ring 4 0 r4 0 j))
      = (solver_iteration (SoftBody.new 4 (2 / Real.pi) Real.pi) false eff_idle)^[5]
        ((solver_iteration (SoftBody.new 4 (2 / Real.pi) Real.pi) false eff_idle)
          (fun j => some (regular_ring 4 0 r4 0 j)))
    from Function.iterate_succ_apply _ 5 _,
    step4 0 r4 (by linarith) (by nlinarith [ha4, hs2lo])]
  set r5 : ℝ := r4 + ((4 - 2 * r4 ^ 2) / 4
    - (r4 * Real.sqrt 2 - 1) * (Real.sqrt 2 / 2)) / 3 with hr5
  clear_value r5
  obtain ⟨hql5, hqh5⟩ := sq_bounds ha4 hb4 (by norm_num)
  have ha5 : (1.10313 : ℝ) < r5 := by
    rw [hr5, hform r4]
    linarith
  have hb5 : r5 < (1.10318 : ℝ) := by
    rw [hr5, hform r4]
    linarith
  clear hql5 hqh5 hr5 ha4 hb4 r4
  rw [show (solver_iteration (SoftBody.new 4 (2 / Real.pi) Real.pi) false eff_idle)^[5]
        (fun j => some (regular_ring 4 0 r5 0 j))
      = (solver_iteration (SoftBody.new 4 (2 / Real.pi) Real.pi) false eff_idle)^[4]
        ((solver_iteration (SoftBody.new 4 (2 / Real.pi) Real.pi) false eff_idle)
          (fun j => some (regular_ring 4 0 r5 0 j)))
    from Function.iterate_succ_apply _ 4 _,
    step4 0 r5 (by linarith) (by nlinarith [ha5, hs2lo])]
  set r6 : ℝ := r5 + ((4 - 2 * r5 ^ 2) / 4
    - (r5 * Real.sqrt 2 - 1) * (Real.sqrt 2 / 2)) / 3 with hr6
  clear_value r6
  obtain ⟨hql6, hqh6⟩ := sq_bounds ha5 hb5 (by norm_num)
  have ha6 : (1.10162 : ℝ) < r6 := by
    rw [hr6, hform r5]
    linarith
  have hb6 : r6 < (1.10168 : ℝ) := by
    rw [hr6, hform r5]
    linarith
  clear hql6 hqh6 hr6 ha5 hb5 r5
  rw [show (solver_iteration (SoftBody.new 4 (2 / Real.pi) Real.pi) false eff_idle)^[4]
        (fun j => some (regular_ring 4 0 r6 0 j))
      = (solver_iteration (SoftBody.new 4 (2 / Real.pi) Real.pi) false eff_idle)^[3]
        ((solver_iteration (SoftBody.new 4 (2 / Real.pi) Real.pi) false eff_idle)
          (fun j => some (regular_ring 4 0 r6 0 j)))
    from Function.iterate_succ_apply _ 3 _,
    step4 0 r6 (by linarith) (by nlinarith [ha6, hs2lo])]
  set r7 : ℝ := r6 + ((4 - 2 * r6 ^ 2) / 4
    - (r6 * Real.sqrt 2 - 1) * (Real.sqrt 2 / 2)) / 3 with hr7
  clear_value r7
  obtain ⟨hql7, hqh7⟩ := sq_bounds ha6 hb6 (by norm_num)
  have ha7 : (1.10116 : ℝ) < r7 := by
    rw [hr7, hform r6]
    linarith
  have hb7 : r7 < (1.10123 : ℝ) := by
    rw [hr7, hform r6]
    linarith
  clear hql7 hqh7 hr7 ha6 hb6 r6
  rw [show (solver_iteration (SoftBody.new 4 (2 / Real.pi) Real.pi) false eff_idle)^[3]
        (fun j => some (regular_ring 4 0 r7 0 j))
      = (solver_iteration (SoftBody.new 4 (2 / Real.pi) Real.pi) false eff_idle)^[2]
        ((solver_iteration (SoftBody.new 4 (2 / Real.pi) Real.pi) false eff_idle)
          (fun j => some (regular_ring 4 0 r7 0 j)))
    from Function.iterate_succ_apply _ 2 _,
    step4 0 r7 (by linarith) (by nlinarith [ha7, hs2lo])]
  set r8 : ℝ := r7 + ((4 - 2 * r7 ^ 2) / 4
    - (r7 * Real.sqrt 2 - 1) * (Real.sqrt 2 / 2)) / 3 with hr8
  clear_value r8
  obtain ⟨hql8, hqh8⟩ := sq_bounds ha7 hb7 (by norm_num)
  have ha8 : (1.10102 : ℝ) < r8 := by
    rw [hr8, hform r7]
    linarith
  have hb8 : r8 < (1.1011 : ℝ) := by
    rw [hr8, hform r7]
    linarith
  clear hql8 hqh8 hr8 ha7 hb7 r7
  rw [show (solver_iteration (SoftBody.new 4 (2 / Real.pi) Real.pi) false eff_idle)^[2]
        (fun j => some (regular_ring 4 0 r8 0 j))
      = (solver_iteration (SoftBody.new 4 (2 / Real.pi) Real.pi) false eff_idle)^[1]
        ((solver_iteration (SoftBody.new 4 (2 / Real.pi) Real.pi) false eff_idle)
          (fun j => some (regular_ring 4 0 r8 0 j)))
    from Function.iterate_succ_apply _ 1 _,
    step4 0 r8 (by linarith) (by nlinarith [ha8, hs2lo])]
  set r9 : ℝ := r8 + ((4 - 2 * r8 ^ 2) / 4
    - (r8 * Real.sqrt 2 - 1) * (Real.sqrt 2 / 2)) / 3 with hr9
  clear_value r9
  obtain ⟨hql9, hqh9⟩ := sq_bounds ha8 hb8 (by norm_num)
  have ha9 : (1.10097 : ℝ) < r9 := by
    rw [hr9, hform r8]
    linarith
  have hb9 : r9 < (1.10107 : ℝ) := by
    rw [hr9, hform r8]
    linarith
  clear hql9 hqh9 hr9 ha8 hb8 r8
  rw [show (solver_iteration (SoftBody.new 4 (2 / Real.pi) Real.pi) false eff_idle)^[1]
        (fun j => some (regular_ring 4 0 r9 0 j))
      = (solver_iteration (SoftBody.new 4 (2 / Real.pi) Real.pi) false eff_idle)^[0]
        ((solver_iteration (SoftBody.new 4 (2 / Real.pi) Real.pi) false eff_idle)
          (fun j => some (regular_ring 4 0 r9 0 j)))
    from Function.iterate_succ_apply _ 0 _,
    step4 0 r9 (by linarith) (by nlinarith [ha9, hs2lo])]
  set r10 : ℝ := r9 + ((4 - 2 * r9 ^ 2) / 4
    - (r9 * Real.sqrt 2 - 1) * (Real.sqrt 2 / 2)) / 3 with hr10
  clear_value r10
  obtain ⟨hql10, hqh10⟩ := sq_bounds ha9 hb9 (by norm_num)
  have ha10 : (1.10095 : ℝ) < r10 := by
    rw [hr10, hform r9]
    linarith
  have hb10 : r10 < (1.10106 : ℝ) := by
    rw [hr10, hform r9]
    linarith
  clear hql10 hqh10 hr10 ha9 hb9 r9
  rw [Function.iterate_zero_apply]
  exact ⟨r10, by linarith, by linarith, rfl⟩

/-- C4 counterexample: the diamond ring `regular_ring 4 0 (√2/2) 0` (vertices
`(±√2/2, 0)`, `(0, ±√2/2)`) has all four cyclic edges of length exactly
`chord_length = 1` for the soft body `SoftBody::new 4 (2/π) π` (circumference
`4`, desired area `4`), yet running the constraint solver moves vertex 0 from
`(√2/2, 0)` to `(r', 0)` with `r' > 1.1`: the dilation pass pushes every
vertex outward because the ring's signed area `1` differs from
`desired_area = 4`, so a ring with all edges at chord length is not in
general a fixed point of the solver. -/
theorem C4_counterexample :
    (regular_ring 4 0 (Real.sqrt 2 / 2) 0 1
        - regular_ring 4 0 (Real.sqrt 2 / 2) 0 0).length
      = (SoftBody.new 4 (2 / Real.pi) Real.pi).chord_length ∧
    (regular_ring 4 0 (Real.sqrt 2 / 2) 0 2
        - regular_ring 4 0 (Real.sqrt 2 / 2) 0 1).length
      = (SoftBody.new 4 (2 / Real.pi) Real.pi).chord_length ∧
    (regular_ring 4 0 (Real.sqrt 2 / 2) 0 3
        - regular_ring 4 0 (Real.sqrt 2 / 2) 0 2).length
      = (SoftBody.new 4 (2 / Real.pi) Real.pi).chord_length ∧
    (regular_ring 4 0 (Real.sqrt 2 / 2) 0 0
        - regular_ring 4 0 (Real.sqrt 2 / 2) 0 3).length
      = (SoftBody.new 4 (2 / Real.pi) Real.pi).chord_length ∧
    solver_phase (SoftBody.new 4 (2 / Real.pi) Real.pi) false eff_idle
        (fun j => some (regular_ring 4 0 (Real.sqrt 2 / 2) 0 j)) 0
      ≠ some (regular_ring 4 0 (Real.sqrt 2 / 2) 0 0) := by
  have h2 : Real.sqrt 2 * Real.sqrt 2 = 2 := Real.mul_self_sqrt (by norm_num)
  have hs2hi : Real.sqrt 2 < (1.4142136 : ℝ) :=
    (Real.sqrt_lt' (by norm_num)).mpr (by norm_num)
  have hr : (0 : ℝ) ≤ Real.sqrt 2 / 2 := by positivity
  have hs : 0 ≤ Real.sin (Real.pi / ((4 : ℕ) : ℝ)) := by
    rw [sin4_half]
    positivity
  have hlen : ∀ e : Fin 4,
      (regular_ring 4 0 (Real.sqrt 2 / 2) 0 (e + 1)
        - regular_ring 4 0 (Real.sqrt 2 / 2) 0 e).length
      = (SoftBody.new 4 (2 / Real.pi) Real.pi).chord_length := by
    intro e
    rw [regular_edge_len 0 (Real.sqrt 2 / 2) 0 hr hs e, sin4_half, soft_sq_chord]
    linear_combination (1 / 2 : ℝ) * h2
  refine ⟨?_, ?_, ?_, ?_, ?_⟩
  · have h := hlen 0
    rwa [show ((0 : Fin 4) + 1) = 1 from rfl] at h
  · have h := hlen 1
    rwa [show ((1 : Fin 4) + 1) = 2 from rfl] at h
  · have h := hlen 2
    rwa [show ((2 : Fin 4) + 1) = 3 from rfl] at h
  · have h := hlen 3
    rwa [show ((3 : Fin 4) + 1) = 0 from rfl] at h
  · obtain ⟨r', hra, hrb, hsol⟩ := solver4_moves
    have h0 := congrFun hsol 0
    rw [h0]
    have hev : ∀ t : ℝ, regular_ring 4 0 t 0 0 = Vec2.mk t 0 := by
      intro t
      unfold regular_ring unit_dir
      rw [show (0 : ℝ) + (((0 : Fin 4).val : ℝ)) * (2 * Real.pi / ((4 : ℕ) : ℝ)) = 0 from by
        rw [show (0 : Fin 4).val = 0 from rfl]
        norm_num, Real.cos_zero, Real.sin_zero]
      ext
      · simp only [Vec2.add_x, Vec2.smul_x, Vec2.mk_x, Vec2.zero_x]
        ring
      · simp only [Vec2.add_y, Vec2.smul_y, Vec2.mk_y, Vec2.zero_y]
        ring
    rw [hev r', hev (Real.sqrt 2 / 2)]
    intro hcontra
    have hx := (Vec2.mk_eq_iff.mp (Option.some.inj hcontra)).1
    rw [hx] at hra
    linarith

theorem soft16_des : (SoftBody.new 16 50 (5 / 4)).desired_area = 3125 * Real.pi := by
  unfold SoftBody.new
  dsimp only
  ring

theorem soft16_circ : (SoftBody.new 16 50 (5 / 4)).circumference = 100 * Real.pi := by
  unfold SoftBody.new
  dsimp only
  ring

theorem soft16_chord : (SoftBody.new 16 50 (5 / 4)).chord_length = 25 * Real.pi / 4 := by
  unfold SoftBody.new
  dsimp only
  push_cast
  ring

theorem sin16_cast : Real.sin (Real.pi / ((16 : ℕ) : ℝ)) = Real.sin (Real.pi / 16) := by
  rw [show ((16 : ℕ) : ℝ) = (16 : ℝ) from by norm_num]

theorem sin16_full : Real.sin (2 * Real.pi / ((16 : ℕ) : ℝ)) = Real.sin (Real.pi / 8) := by
  rw [show 2 * Real.pi / ((16 : ℕ) : ℝ) = Real.pi / 8 from by push_cast; ring]

theorem sin_pi16_pos : 0 < Real.sin (Real.pi / 16) := by
  apply Real.sin_pos_of_pos_of_lt_pi
  · positivity
  · nlinarith [Real.pi_pos]

theorem sqrt2_bounds : (1.41421356 : ℝ) < Real.sqrt 2 ∧ Real.sqrt 2 < 1.41421357 :=
  ⟨(Real.lt_sqrt (by norm_num)).mpr (by norm_num),
   (Real.sqrt_lt' (by norm_num)).mpr (by norm_num)⟩

theorem sin_pi8_bounds :
    (0.38268342 : ℝ) < Real.sin (Real.pi / 8) ∧ Real.sin (Real.pi / 8) < 0.38268344 := by
  have h2 := sqrt2_bounds
  have hw3lo : (0.76536685 : ℝ) < Real.sqrt (2 - Real.sqrt 2) :=
    (Real.lt_sqrt (by norm_num)).mpr (by nlinarith [h2.2])
  have hw3hi : Real.sqrt (2 - Real.sqrt 2) < (0.76536687 : ℝ) :=
    (Real.sqrt_lt' (by norm_num)).mpr (by nlinarith [h2.1])
  rw [Real.sin_pi_div_eight]
  constructor
  · linarith
  · linarith

theorem sin_pi16_bounds :
    (0.19509031 : ℝ) < Real.sin (Real.pi / 16) ∧ Real.sin (Real.pi / 16) < 0.19509033 := by
  have h2 := sqrt2_bounds
  have hw1lo : (1.84775906 : ℝ) < Real.sqrt (2 + Real.sqrt 2) :=
    (Real.lt_sqrt (by norm_num)).mpr (by nlinarith [h2.1])
  have hw1hi : Real.sqrt (2 + Real.sqrt 2) < (1.84775907 : ℝ) :=
    (Real.sqrt_lt' (by norm_num)).mpr (by nlinarith [h2.2])
  have hw2lo : (0.39018063 : ℝ) < Real.sqrt (2 - Real.sqrt (2 + Real.sqrt 2)) :=
    (Real.lt_sqrt (by norm_num)).mpr (by nlinarith [hw1hi])
  have hw2hi : Real.sqrt (2 - Real.sqrt (2 + Real.sqrt 2)) < (0.39018066 : ℝ) :=
    (Real.sqrt_lt' (by norm_num)).mpr (by nlinarith [hw1lo])
  rw [Real.sin_pi_div_sixteen]
  constructor
  · linarith
  · linarith

theorem mul_bounds {x y lx hx ly hy : ℝ} (h1 : lx < x) (h2 : x < hx) (h3 : ly < y)
    (h4 : y < hy) (h5 : 0 < lx) (h6 : 0 < ly) : lx * ly < x * y ∧ x * y < hx * hy := by
  constructor
  · nlinarith
  · nlinarith

theorem step16 (c : Vec2) (r : ℝ) (hra : 56.2 < r) (hrb : r < 57) :
    solver_iteration (SoftBody.new 16 50 (5 / 4)) false eff_idle
        (fun j => some (regular_ring 16 c r 0 j))
      = fun j => some (regular_ring 16 c
          (r + ((3125 * Real.pi - 8 * r ^ 2 * Real.sin (Real.pi / 8)) / (100 * Real.pi)
            - (2 * r * Real.sin (Real.pi / 16) - 25 * Real.pi / 4)
              * Real.sin (Real.pi / 16)) / 3) 0 j) := by
  have hr : (0 : ℝ) < r := by linarith
  have hs : 0 < Real.sin (Real.pi / ((16 : ℕ) : ℝ)) := by
    rw [sin16_cast]
    exact sin_pi16_pos
  have hst : (SoftBody.new 16 50 (5 / 4)).chord_length
      < 2 * r * Real.sin (Real.pi / ((16 : ℕ) : ℝ)) := by
    rw [soft16_chord, sin16_cast]
    have h1 := sin_pi16_bounds.1
    have h2 := Real.pi_lt_d6
    nlinarith [mul_pos (show (0 : ℝ) < r - 56.2 from by linarith)
      (show (0 : ℝ) < Real.sin (Real.pi / 16) - 0.19509031 from by linarith)]
  have hcirc : (SoftBody.new 16 50 (5 / 4)).circumference ≠ 0 := by
    rw [soft16_circ]
    positivity
  rw [regular_step_stretched (by norm_num) _ eff_idle c r 0 hr hcirc hs hst]
  rw [show r + (((SoftBody.new 16 50 (5 / 4)).desired_area
        - ((16 : ℕ) : ℝ) / 2 * r ^ 2 * Real.sin (2 * Real.pi / ((16 : ℕ) : ℝ)))
        / (SoftBody.new 16 50 (5 / 4)).circumference
      - (2 * r * Real.sin (Real.pi / ((16 : ℕ) : ℝ))
          - (SoftBody.new 16 50 (5 / 4)).chord_length)
        * Real.sin (Real.pi / ((16 : ℕ) : ℝ))) / 3
    = r + ((3125 * Real.pi - 8 * r ^ 2 * Real.sin (Real.pi / 8)) / (100 * Real.pi)
        - (2 * r * Real.sin (Real.pi / 16) - 25 * Real.pi / 4)
          * Real.sin (Real.pi / 16)) / 3 from by
    rw [soft16_des, soft16_circ, soft16_chord, sin16_full, sin16_cast]
    push_cast
    ring]

theorem step16_slack (c : Vec2) :
    solver_iteration (SoftBody.new 16 50 (5 / 4)) false eff_idle
        (fun j => some (regular_ring 16 c 50 0 j))
      = fun j => some (regular_ring 16 c
          (50 + (3125 * Real.pi - 20000 * Real.sin (Real.pi / 8)) / (100 * Real.pi)) 0 j) := by
  have hs : 0 ≤ Real.sin (Real.pi / ((16 : ℕ) : ℝ)) := by
    rw [sin16_cast]
    exact sin_pi16_pos.le
  have hsl : 2 * (50 : ℝ) * Real.sin (Real.pi / ((16 : ℕ) : ℝ))
      ≤ (SoftBody.new 16 50 (5 / 4)).chord_length := by
    rw [sin16_cast, soft16_chord]
    have h := Real.sin_lt (show (0 : ℝ) < Real.pi / 16 from by positivity)
    linarith
  have hcirc : (SoftBody.new 16 50 (5 / 4)).circumference ≠ 0 := by
    rw [soft16_circ]
    positivity
  rw [regular_step_slack (by norm_num) _ eff_idle c 50 0 (by norm_num) hcirc hs hsl]
  rw [show (50 : ℝ) + ((SoftBody.new 16 50 (5 / 4)).desired_area
        - ((16 : ℕ) : ℝ) / 2 * (50 : ℝ) ^ 2 * Real.sin (2 * Real.pi / ((16 : ℕ) : ℝ)))
        / (SoftBody.new 16 50 (5 / 4)).circumference
      = 50 + (3125 * Real.pi - 20000 * Real.sin (Real.pi / 8)) / (100 * Real.pi) from by
    rw [soft16_des, soft16_circ, sin16_full]
    push_cast
    ring]

set_option maxHeartbeats 1000000 in
theorem solver16 (c : Vec2) :
    ∃ r' : ℝ, 56.22 < r' ∧ r' < 56.23 ∧
      solver_phase (SoftBody.new 16 50 (5 / 4)) false eff_idle
          (fun j => some (regular_ring 16 c 50 0 j))
        = fun j => some (regular_ring 16 c r' 0 j) := by
  have hQ : (0.121811902 : ℝ) < Real.sin (Real.pi / 8) / Real.pi ∧
      Real.sin (Real.pi / 8) / Real.pi < 0.121811948 := by
    have hpl := Real.pi_gt_d6
    have hph := Real.pi_lt_d6
    have ht := sin_pi8_bounds
    constructor
    · rw [lt_div_iff₀ Real.pi_pos]
      linarith
    · rw [div_lt_iff₀ Real.pi_pos]
      linarith
  have hP : (0.038060229 : ℝ) < Real.sin (Real.pi / 16) ^ 2 ∧
      Real.sin (Real.pi / 16) ^ 2 < 0.038060237 := by
    have hs := sin_pi16_bounds
    obtain ⟨h1, h2⟩ := sq_bounds hs.1 hs.2 (by norm_num)
    constructor
    · linarith
    · linarith
  have hB : (0.61289415 : ℝ) < Real.pi * Real.sin (Real.pi / 16) ∧
      Real.pi * Real.sin (Real.pi / 16) < 0.61289442 := by
    have hpl := Real.pi_gt_d6
    have hph := Real.pi_lt_d6
    have hs := sin_pi16_bounds
    obtain ⟨h1, h2⟩ := mul_bounds hpl hph hs.1 hs.2 (by norm_num) (by norm_num)
    constructor
    · linarith
    · linarith
  have hform : ∀ r : ℝ,
      r + ((3125 * Real.pi - 8 * r ^ 2 * Real.sin (Real.pi / 8)) / (100 * Real.pi)
          - (2 * r * Real.sin (Real.pi / 16) - 25 * Real.pi / 4)
            * Real.sin (Real.pi / 16)) / 3
        = r + (125 / 4 - 2 / 25 * (Real.sin (Real.pi / 8) / Real.pi * r ^ 2)
            - 2 * (Real.sin (Real.pi / 16) ^ 2 * r)
            + 25 / 4 * (Real.pi * Real.sin (Real.pi / 16))) / 3 := by
    intro r
    have hpi := Real.pi_ne_zero
    field_simp
    ring
  have hr1form : (50 : ℝ) + (3125 * Real.pi - 20000 * Real.sin (Real.pi / 8)) / (100 * Real.pi)
      = 325 / 4 - 200 * (Real.sin (Real.pi / 8) / Real.pi) := by
    have hpi := Real.pi_ne_zero
    field_simp
    ring
  unfold solver_phase
  rw [show CONSTRAINT_ITERATIONS = 10 from rfl]
  rw [show (solver_iteration (SoftBody.new 16 50 (5 / 4)) false eff_idle)^[10]
        (fun j => some (regular_ring 16 c 50 0 j))
      = (solver_iteration (SoftBody.new 16 50 (5 / 4)) false eff_idle)^[9]
        ((solver_iteration (SoftBody.new 16 50 (5 / 4)) false eff_idle)
          (fun j => some (regular_ring 16 c 50 0 j)))
    from Function.iterate_succ_apply _ 9 _, step16_slack c]
  set r1 : ℝ := 50 + (3125 * Real.pi - 20000 * Real.sin (Real.pi / 8)) / (100 * Real.pi)
    with hr1
  clear_value r1
  have ha1 : (56.88761 : ℝ) < r1 := by
    rw [hr1form]
    linarith [hQ.2]
  have hb1 : r1 < (56.88762 : ℝ) := by
    rw [hr1form]
    linarith [hQ.1]
  clear hr1 hr1form
  rw [show (solver_iteration (SoftBody.new 16 50 (5 / 4)) false eff_idle)^[9]
        (fun j => some (regular_ring 16 c r1 0 j))
      = (solver_iteration (SoftBody.new 16 50 (5 / 4)) false eff_idle)^[8]
        ((solver_iteration (SoftBody.new 16 50 (5 / 4)) false eff_idle)
          (fun j => some (regular_ring 16 c r1 0 j)))
    from Function.iterate_succ_apply _ 8 _,
    step16 c r1 (by linarith) (by linarith)]
  set r2 : ℝ := r1 + ((3125 * Real.pi - 8 * r1 ^ 2 * Real.sin (Real.pi / 8))
      / (100 * Real.pi)
    - (2 * r1 * Real.sin (Real.pi / 16) - 25 * Real.pi / 4)
      * Real.sin (Real.pi / 16)) / 3 with hr2
  clear_value r2
  obtain ⟨hql2, hqh2⟩ := sq_bounds ha1 hb1 (by norm_num)
  obtain ⟨hXl2, hXh2⟩ := mul_bounds hQ.1 hQ.2 hql2 hqh2 (by norm_num) (by norm_num)
  obtain ⟨hYl2, hYh2⟩ := mul_bounds hP.1 hP.2 ha1 hb1 (by norm_num) (by norm_num)
  have ha2 : (56.62548 : ℝ) < r2 := by
    rw [hr2, hform r1]
    linarith [hXh2, hYh2, hB.1]
  have hb2 : r2 < (56.62551 : ℝ) := by
    rw [hr2, hform r1]
    linarith [hXl2, hYl2, hB.2]
  clear hql2 hqh2 hXl2 hXh2 hYl2 hYh2 hr2 ha1 hb1 r1
  rw [show (solver_iteration (SoftBody.new 16 50 (5 / 4)) false eff_idle)^[8]
        (fun j => some (regular_ring 16 c r2 0 j))
      = (solver_iteration (SoftBody.new 16 50 (5 / 4)) false eff_idle)^[7]
        ((solver_iteration (SoftBody.new 16 50 (5 / 4)) false eff_idle)
          (fun j => some (regular_ring 16 c r2 0 j)))
    from Function.iterate_succ_apply _ 7 _,
    step16 c r2 (by linarith) (by linarith)]
  set r3 : ℝ := r2 + ((3125 * Real.pi - 8 * r2 ^ 2 * Real.sin (Real.pi / 8))
      / (100 * Real.pi)
    - (2 * r2 * Real.sin (Real.pi / 16) - 25 * Real.pi / 4)
      * Real.sin (Real.pi / 16)) / 3 with hr3
  clear_value r3
  obtain ⟨hql3, hqh3⟩ := sq_bounds ha2 hb2 (by norm_num)
  obtain ⟨hXl3, hXh3⟩ := mul_bounds hQ.1 hQ.2 hql3 hqh3 (by norm_num) (by norm_num)
  obtain ⟨hYl3, hYh3⟩ := mul_bounds hP.1 hP.2 ha2 hb2 (by norm_num) (by norm_num)
  have ha3 : (56.46665 : ℝ) < r3 := by
    rw [hr3, hform r2]
    linarith [hXh3, hYh3, hB.1]
  have hb3 : r3 < (56.46671 : ℝ) := by
    rw [hr3, hform r2]
    linarith [hXl3, hYl3, hB.2]
  clear hql3 hqh3 hXl3 hXh3 hYl3 hYh3 hr3 ha2 hb2 r2
  rw [show (solver_iteration (SoftBody.new 16 50 (5 / 4)) false eff_idle)^[7]
        (fun j => some (regular_ring 16 c r3 0 j))
      = (solver_iteration (SoftBody.new 16 50 (5 / 4)) false eff_idle)^[6]
        ((solver_iteration (SoftBody.new 16 50 (5 / 4)) false eff_idle)
          (fun j => some (regular_ring 16 c r3 0 j)))
    from Function.iterate_succ_apply _ 6 _,
    step16 c r3 (by linarith) (by linarith)]
  set r4 : ℝ := r3 + ((3125 * Real.pi - 8 * r3 ^ 2 * Real.sin (Real.pi / 8))
      / (100 * Real.pi)
    - (2 * r3 * Real.sin (Real.pi / 16) - 25 * Real.pi / 4)
      * Real.sin (Real.pi / 16)) / 3 with hr4
  clear_value r4
  obtain ⟨hql4, hqh4⟩ := sq_bounds ha3 hb3 (by norm_num)
  obtain ⟨hXl4, hXh4⟩ := mul_bounds hQ.1 hQ.2 hql4 hqh4 (by norm_num) (by norm_num)
  obtain ⟨hYl4, hYh4⟩ := mul_bounds hP.1 hP.2 ha3 hb3 (by norm_num) (by norm_num)
  have ha4 : (56.37019 : ℝ) < r4 := by
    rw [hr4, hform r3]
    linarith [hXh4, hYh4, hB.1]
  have hb4 : r4 < (56.37029 : ℝ) := by
    rw [hr4, hform r3]
    linarith [hXl4, hYl4, hB.2]
  clear hql4 hqh4 hXl4 hXh4 hYl4 hYh4 hr4 ha3 hb3 r3
  rw [show (solver_iteration (SoftBody.new 16 50 (5 / 4)) false eff_idle)^[6]
        (fun j => some (regular_ring 16 c r4 0 j))
      = (solver_iteration (SoftBody.new 16 50 (5 / 4)) false eff_idle)^[5]
        ((solver_iteration (SoftBody.new 16 50 (5 / 4)) false eff_idle)
          (fun j => some (regular_ring 16 c r4 0 j)))
    from Function.iterate_succ_apply _ 5 _,
    step16 c r4 (by linarith) (by linarith)]
  set r5 : ℝ := r4 + ((3125 * Real.pi - 8 * r4 ^ 2 * Real.sin (Real.pi / 8))
      / (100 * Real.pi)
    - (2 * r4 * Real.sin (Real.pi / 16) - 25 * Real.pi / 4)
      * Real.sin (Real.pi / 16)) / 3 with hr5
  clear_value r5
  obtain ⟨hql5, hqh5⟩ := sq_bounds ha4 hb4 (by norm_num)
  obtain ⟨hXl5, hXh5⟩ := mul_bounds hQ.1 hQ.2 hql5 hqh5 (by norm_num) (by norm_num)
  obtain ⟨hYl5, hYh5⟩ := mul_bounds hP.1 hP.2 ha4 hb4 (by norm_num) (by norm_num)
  have ha5 : (56.31152 : ℝ) < r5 := by
    rw [hr5, hform r4]
    linarith [hXh5, hYh5, hB.1]
  have hb5 : r5 < (56.31167 : ℝ) := by
    rw [hr5, hform r4]
    linarith [hXl5, hYl5, hB.2]
  clear hql5 hqh5 hXl5 hXh5 hYl5 hYh5 hr5 ha4 hb4 r4
  rw [show (solver_iteration (SoftBody.new 16 50 (5 / 4)) false eff_idle)^[5]
        (fun j => some (regular_ring 16 c r5 0 j))
      = (solver_iteration (SoftBody.new 16 50 (5 / 4)) false eff_idle)^[4]
        ((solver_iteration (SoftBody.new 16 50 (5 / 4)) false eff_idle)
          (fun j => some (regular_ring 16 c r5 0 j)))
    from Function.iterate_succ_apply _ 4 _,
    step16 c r5 (by linarith) (by linarith)]
  set r6 : ℝ := r5 + ((3125 * Real.pi - 8 * r5 ^ 2 * Real.sin (Real.pi / 8))
      / (100 * Real.pi)
    - (2 * r5 * Real.sin (Real.pi / 16) - 25 * Real.pi / 4)
      * Real.sin (Real.pi / 16)) / 3 with hr6
  clear_value r6
  obtain ⟨hql6, hqh6⟩ := sq_bounds ha5 hb5 (by norm_num)
  obtain ⟨hXl6, hXh6⟩ := mul_bounds hQ.1 hQ.2 hql6 hqh6 (by norm_num) (by norm_num)
  obtain ⟨hYl6, hYh6⟩ := mul_bounds hP.1 hP.2 ha5 hb5 (by norm_num) (by norm_num)
  have ha6 : (56.27579 : ℝ) < r6 := by
    rw [hr6, hform r5]
    linarith [hXh6, hYh6, hB.1]
  have hb6 : r6 < (56.27601 : ℝ) := by
    rw [hr6, hform r5]
    linarith [hXl6, hYl6, hB.2]
  clear hql6 hqh6 hXl6 hXh6 hYl6 hYh6 hr6 ha5 hb5 r5
  rw [show (solver_iteration (SoftBody.new 16 50 (5 / 4)) false eff_idle)^[4]
        (fun j => some (regular_ring 16 c r6 0 j))
      = (solver_iteration (SoftBody.new 16 50 (5 / 4)) false eff_idle)^[3]
        ((solver_iteration (SoftBody.new 16 50 (5 / 4)) false eff_idle)
          (fun j => some (regular_ring 16 c r6 0 j)))
    from Function.iterate_succ_apply _ 3 _,
    step16 c r6 (by linarith) (by linarith)]
  set r7 : ℝ := r6 + ((3125 * Real.pi - 8 * r6 ^ 2 * Real.sin (Real.pi / 8))
      / (100 * Real.pi)
    - (2 * r6 * Real.sin (Real.pi / 16) - 25 * Real.pi / 4)
      * Real.sin (Real.pi / 16)) / 3 with hr7
  clear_value r7
  obtain ⟨hql7, hqh7⟩ := sq_bounds ha6 hb6 (by norm_num)
  obtain ⟨hXl7, hXh7⟩ := mul_bounds hQ.1 hQ.2 hql7 hqh7 (by norm_num) (by norm_num)
  obtain ⟨hYl7, hYh7⟩ := mul_bounds hP.1 hP.2 ha6 hb6 (by norm_num) (by norm_num)
  have ha7 : (56.25401 : ℝ) < r7 := by
    rw [hr7, hform r6]
    linarith [hXh7, hYh7, hB.1]
  have hb7 : r7 < (56.25433 : ℝ) := by
    rw [hr7, hform r6]
    linarith [hXl7, hYl7, hB.2]
  clear hql7 hqh7 hXl7 hXh7 hYl7 hYh7 hr7 ha6 hb6 r6
  rw [show (solver_iteration (SoftBody.new 16 50 (5 / 4)) false eff_idle)^[3]
        (fun j => some (regular_ring 16 c r7 0 j))
      = (solver_iteration (SoftBody.new 16 50 (5 / 4)) false eff_idle)^[2]
        ((solver_iteration (SoftBody.new 16 50 (5 / 4)) false eff_idle)
          (fun j => some (regular_ring 16 c r7 0 j)))
    from Function.iterate_succ_apply _ 2 _,
    step16 c r7 (by linarith) (by linarith)]
  set r8 : ℝ := r7 + ((3125 * Real.pi - 8 * r7 ^ 2 * Real.sin (Real.pi / 8))
      / (100 * Real.pi)
    - (2 * r7 * Real.sin (Real.pi / 16) - 25 * Real.pi / 4)
      * Real.sin (Real.pi / 16)) / 3 with hr8
  clear_value r8
  obtain ⟨hql8, hqh8⟩ := sq_bounds ha7 hb7 (by norm_num)
  obtain ⟨hXl8, hXh8⟩ := mul_bounds hQ.1 hQ.2 hql8 hqh8 (by norm_num) (by norm_num)
  obtain ⟨hYl8, hYh8⟩ := mul_bounds hP.1 hP.2 ha7 hb7 (by norm_num) (by norm_num)
  have ha8 : (56.2407 : ℝ) < r8 := by
    rw [hr8, hform r7]
    linarith [hXh8, hYh8, hB.1]
  have hb8 : r8 < (56.24116 : ℝ) := by
    rw [hr8, hform r7]
    linarith [hXl8, hYl8, hB.2]
  clear hql8 hqh8 hXl8 hXh8 hYl8 hYh8 hr8 ha7 hb7 r7
  rw [show (solver_iteration (SoftBody.new 16 50 (5 / 4)) false eff_idle)^[2]
        (fun j => some (regular_ring 16 c r8 0 j))
      = (solver_iteration (SoftBody.new 16 50 (5 / 4)) false eff_idle)^[1]
        ((solver_iteration (SoftBody.new 16 50 (5 / 4)) false eff_idle)
          (fun j => some (regular_ring 16 c r8 0 j)))
    from Function.iterate_succ_apply _ 1 _,
    step16 c r8 (by linarith) (by linarith)]
  set r9 : ℝ := r8 + ((3125 * Real.pi - 8 * r8 ^ 2 * Real.sin (Real.pi / 8))
      / (100 * Real.pi)
    - (2 * r8 * Real.sin (Real.pi / 16) - 25 * Real.pi / 4)
      * Real.sin (Real.pi / 16)) / 3 with hr9
  clear_value r9
  obtain ⟨hql9, hqh9⟩ := sq_bounds ha8 hb8 (by norm_num)
  obtain ⟨hXl9, hXh9⟩ := mul_bounds hQ.1 hQ.2 hql9 hqh9 (by norm_num) (by norm_num)
  obtain ⟨hYl9, hYh9⟩ := mul_bounds hP.1 hP.2 ha8 hb8 (by norm_num) (by norm_num)
  have ha9 : (56.23254 : ℝ) < r9 := by
    rw [hr9, hform r8]
    linarith [hXh9, hYh9, hB.1]
  have hb9 : r9 < (56.23319 : ℝ) := by
    rw [hr9, hform r8]
    linarith [hXl9, hYl9, hB.2]
  clear hql9 hqh9 hXl9 hXh9 hYl9 hYh9 hr9 ha8 hb8 r8
  rw [show (solver_iteration (SoftBody.new 16 50 (5 / 4)) false eff_idle)^[1]
        (fun j => some (regular_ring 16 c r9 0 j))
      = (solver_iteration (SoftBody.new 16 50 (5 / 4)) false eff_idle)^[0]
        ((solver_iteration (SoftBody.new 16 50 (5 / 4)) false eff_idle)
          (fun j => some (regular_ring 16 c r9 0 j)))
    from Function.iterate_succ_apply _ 0 _,
    step16 c r9 (by linarith) (by linarith)]
  set r10 : ℝ := r9 + ((3125 * Real.pi - 8 * r9 ^ 2 * Real.sin (Real.pi / 8))
      / (100 * Real.pi)
    - (2 * r9 * Real.sin (Real.pi / 16) - 25 * Real.pi / 4)
      * Real.sin (Real.pi / 16)) / 3 with hr10
  clear_value r10
  obtain ⟨hql10, hqh10⟩ := sq_bounds ha9 hb9 (by norm_num)
  obtain ⟨hXl10, hXh10⟩ := mul_bounds hQ.1 hQ.2 hql10 hqh10 (by norm_num) (by norm_num)
  obtain ⟨hYl10, hYh10⟩ := mul_bounds hP.1 hP.2 ha9 hb9 (by norm_num) (by norm_num)
  have ha10 : (56.22749 : ℝ) < r10 := by
    rw [hr10, hform r9]
    linarith [hXh10, hYh10, hB.1]
  have hb10 : r10 < (56.22841 : ℝ) := by
    rw [hr10, hform r9]
    linarith [hXl10, hYl10, hB.2]
  clear hql10 hqh10 hXl10 hXh10 hYl10 hYh10 hr10 ha9 hb9 r9
  rw [Function.iterate_zero_apply]
  exact ⟨r10, by linarith, by linarith, rfl⟩

theorem bounce_clamp_id (half : Vec2) (radius bounciness : ℝ) (x v : Vec2)
    (h1 : ¬ x.x < -half.x + radius) (h2 : ¬ x.x > half.x - radius)
    (h3 : ¬ x.y < -half.y + radius) (h4 : ¬ x.y > half.y - radius) :
    bounce_clamp half radius bounciness x v = (x, v) := by
  unfold bounce_clamp
  dsimp only
  rw [if_neg h1, if_neg h3]
  dsimp only
  rw [if_neg h2, if_neg h4]

theorem integrate16 (i : Fin 16) :
    integrate ⟨10000, 10000⟩ (1 / 120) (Point.new (regular_ring 16 0 50 0 i) i.val)
      = { Point.new (regular_ring 16 0 50 0 i) i.val with
          position := regular_ring 16 ⟨0, -(49 / 720)⟩ 50 0 i
          previous_position := regular_ring 16 0 50 0 i
          acceleration := 0 } := by
  have hfree : free_next (1 / 120) (Point.new (regular_ring 16 0 50 0 i) i.val)
      = regular_ring 16 ⟨0, -(49 / 720)⟩ 50 0 i := by
    unfold free_next Point.new
    dsimp only
    rw [sub_self, smul_zero, add_zero]
    unfold regular_ring unit_dir GRAVITY
    ext
    · simp only [Vec2.add_x, Vec2.smul_x, Vec2.mk_x, Vec2.zero_x]
      ring
    · simp only [Vec2.add_y, Vec2.smul_y, Vec2.mk_y, Vec2.zero_y]
      ring
  have hx : (regular_ring 16 ⟨0, -(49 / 720)⟩ 50 0 i).x
      = 0 + 50 * Real.cos (0 + (i.val : ℝ) * (2 * Real.pi / ((16 : ℕ) : ℝ))) := rfl
  have hy : (regular_ring 16 ⟨0, -(49 / 720)⟩ 50 0 i).y
      = -(49 / 720) + 50 * Real.sin (0 + (i.val : ℝ) * (2 * Real.pi / ((16 : ℕ) : ℝ))) := rfl
  have hcos1 := Real.neg_one_le_cos (0 + (i.val : ℝ) * (2 * Real.pi / ((16 : ℕ) : ℝ)))
  have hcos2 := Real.cos_le_one (0 + (i.val : ℝ) * (2 * Real.pi / ((16 : ℕ) : ℝ)))
  have hsin1 := Real.neg_one_le_sin (0 + (i.val : ℝ) * (2 * Real.pi / ((16 : ℕ) : ℝ)))
  have hsin2 := Real.sin_le_one (0 + (i.val : ℝ) * (2 * Real.pi / ((16 : ℕ) : ℝ)))
  unfold integrate
  dsimp only
  rw [hfree]
  rw [show (Point.new (regular_ring 16 0 50 0 i) i.val).radius = 5 from rfl]
  rw [bounce_clamp_id ⟨10000, 10000⟩ 5
    (Point.new (regular_ring 16 0 50 0 i) i.val).bounciness
    (regular_ring 16 ⟨0, -(49 / 720)⟩ 50 0 i)
    (regular_ring 16 ⟨0, -(49 / 720)⟩ 50 0 i
      - (Point.new (regular_ring 16 0 50 0 i) i.val).position)
    (by
      rw [hx]
      show ¬ _ < -(10000 : ℝ) + 5
      intro hcon
      linarith)
    (by
      rw [hx]
      show ¬ _ > (10000 : ℝ) - 5
      intro hcon
      linarith)
    (by
      rw [hy]
      show ¬ _ < -(10000 : ℝ) + 5
      intro hcon
      linarith)
    (by
      rw [hy]
      show ¬ _ > (10000 : ℝ) - 5
      intro hcon
      linarith)]
  dsimp only
  rw [sub_sub_cancel]
  rfl

theorem tick16_main :
    ∃ r' : ℝ, 56.22 < r' ∧ r' < 56.23 ∧
      softbody_step ⟨10000, 10000⟩ (1 / 120) (SoftBody.new 16 50 (5 / 4)) false eff_idle
          (fun i => some (Point.new (regular_ring 16 0 50 0 i) i.val))
        = fun i => some { Point.new (regular_ring 16 0 50 0 i) i.val with
            position := regular_ring 16 ⟨0, -(49 / 720)⟩ r' 0 i
            previous_position := regular_ring 16 0 50 0 i
            acceleration := 0 } := by
  obtain ⟨r', hra, hrb, hsol⟩ := solver16 ⟨0, -(49 / 720)⟩
  refine ⟨r', hra, hrb, ?_⟩
  unfold softbody_step
  dsimp only
  simp only [Option.map_some']
  rw [show (fun i : Fin 16 => some ((integrate ⟨10000, 10000⟩ (1 / 120)
        (Point.new (regular_ring 16 0 50 0 i) i.val)).position))
      = fun j => some (regular_ring 16 ⟨0, -(49 / 720)⟩ 50 0 j) from by
    funext i
    rw [integrate16 i]]
  rw [hsol]
  funext i
  dsimp only
  simp only [Option.getD_some]
  rw [integrate16 i]

/-- C8 (corrected): the concrete scenario of the claim — the 16-point ring of
radius 50 and puffiness 1.25 centred at the origin, zero initial velocity, no
effector pressed, one tick of `dt = 1/120` inside a window far from the
walls.  The integration phase lowers every particle by exactly `49/720`, but
the ten solver iterations then rescale the ring about its centre to a radius
`r' ∈ (56.22, 56.23) > 50`, because the spawned ring's area is far below
`desired_area`; consequently the bottom particle 12 does end strictly lower,
and the final signed area is strictly closer to `desired_area` than the
post-integration area (the claim's area clause holds), but it is NOT true
that every particle's y-position decreases — the top particle rises (see the
counterexample). -/
theorem C8_tick_behavior :
    ∃ r' : ℝ, 56.22 < r' ∧ r' < 56.23 ∧
      softbody_step ⟨10000, 10000⟩ (1 / 120) (SoftBody.new 16 50 (5 / 4)) false eff_idle
          (fun i => some (Point.new (regular_ring 16 0 50 0 i) i.val))
        = (fun i => some { Point.new (regular_ring 16 0 50 0 i) i.val with
            position := regular_ring 16 ⟨0, -(49 / 720)⟩ r' 0 i
            previous_position := regular_ring 16 0 50 0 i
            acceleration := 0 }) ∧
      (regular_ring 16 ⟨0, -(49 / 720)⟩ r' 0 12).y < (regular_ring 16 0 50 0 12).y ∧
      |polygon_area_signed (regular_ring 16 (⟨0, -(49 / 720)⟩ : Vec2) r' 0)
          - (SoftBody.new 16 50 (5 / 4)).desired_area|
        < |polygon_area_signed (regular_ring 16 (⟨0, -(49 / 720)⟩ : Vec2) 50 0)
          - (SoftBody.new 16 50 (5 / 4)).desired_area| := by
  obtain ⟨r', hra, hrb, hstep⟩ := tick16_main
  have hsin32 : Real.sin (3 * Real.pi / 2) = -1 := by
    rw [show 3 * Real.pi / 2 = Real.pi + Real.pi / 2 from by ring, Real.sin_add,
      Real.sin_pi, Real.cos_pi, Real.sin_pi_div_two, Real.cos_pi_div_two]
    norm_num
  have hy12 : ∀ (c : Vec2) (t : ℝ),
      (regular_ring 16 c t 0 12).y = c.y + t * Real.sin (3 * Real.pi / 2) := by
    intro c t
    unfold regular_ring unit_dir
    rw [show (0 : ℝ) + (((12 : Fin 16).val : ℝ)) * (2 * Real.pi / ((16 : ℕ) : ℝ))
        = 3 * Real.pi / 2 from by
      rw [show ((12 : Fin 16).val) = 12 from rfl]
      push_cast
      ring]
    rfl
  refine ⟨r', hra, hrb, hstep, ?_, ?_⟩
  · rw [hy12, hy12, hsin32]
    show -(49 / 720) + r' * (-1) < (0 : ℝ) + 50 * (-1)
    linarith
  · rw [regular_ring_area, regular_ring_area, sin16_full, soft16_des,
      show ((16 : ℕ) : ℝ) / 2 = 8 from by norm_num]
    have ht := sin_pi8_bounds
    have hpl := Real.pi_gt_d6
    have hph := Real.pi_lt_d6
    obtain ⟨hsq1, hsq2⟩ := sq_bounds hra hrb (by norm_num)
    have hA1 : 8 * r' ^ 2 * Real.sin (Real.pi / 8) - 3125 * Real.pi < 0 := by
      nlinarith [hsq2, ht.2]
    have hA0 : 8 * (50 : ℝ) ^ 2 * Real.sin (Real.pi / 8) - 3125 * Real.pi < 0 := by
      nlinarith [ht.2]
    have hgt : 8 * (50 : ℝ) ^ 2 * Real.sin (Real.pi / 8)
        < 8 * r' ^ 2 * Real.sin (Real.pi / 8) := by
      nlinarith [hsq1, ht.1]
    rw [abs_of_neg hA1, abs_of_neg hA0]
    linarith

/-- C8 counterexample: in the very scenario of the claim, particle 4 starts
at the TOP of the ring, `(0, 50)`, and after the single tick its y-position is
`-(49/720) + r'` with `r' > 56.22`, strictly ABOVE 50: the claim's assertion
that every particle's y-position is strictly lower after the tick is false —
the dilation pass inflates the freshly spawned ring (area ≈ 7654 versus
desired area ≈ 9817) faster than gravity pulls it down. -/
theorem C8_counterexample :
    (Point.new (regular_ring 16 0 50 0 4) (4 : Fin 16).val).position.y = 50 ∧
    (50 : ℝ) <
      (((softbody_step ⟨10000, 10000⟩ (1 / 120) (SoftBody.new 16 50 (5 / 4)) false eff_idle
          (fun i => some (Point.new (regular_ring 16 0 50 0 i) i.val))) 4).map
        (fun p => p.position.y)).getD 0 := by
  have hy4 : ∀ (c : Vec2) (t : ℝ),
      (regular_ring 16 c t 0 4).y = c.y + t * Real.sin (Real.pi / 2) := by
    intro c t
    unfold regular_ring unit_dir
    rw [show (0 : ℝ) + (((4 : Fin 16).val : ℝ)) * (2 * Real.pi / ((16 : ℕ) : ℝ))
        = Real.pi / 2 from by
      rw [show ((4 : Fin 16).val) = 4 from rfl]
      push_cast
      ring]
    rfl
  constructor
  · show (regular_ring 16 0 50 0 4).y = 50
    rw [hy4, Real.sin_pi_div_two]
    show (0 : ℝ) + 50 * 1 = 50
    norm_num
  · obtain ⟨r', hra, hrb, hstep⟩ := tick16_main
    have h4 := congrFun hstep 4
    rw [h4]
    simp only [Option.map_some', Option.getD_some]
    show (50 : ℝ) < (regular_ring 16 ⟨0, -(49 / 720)⟩ r' 0 4).y
    rw [hy4, Real.sin_pi_div_two]
    show (50 : ℝ) < -(49 / 720) + r' * 1
    linarith

end
